import Mathlib

/-!
# Language-model scoring in the Moses decoder

A shallow embedding of `moses/src/LanguageModel.cpp`: the sliding context
window (`ShiftOrPush`), the linear phrase scorer (`CalcScore`) and the chart
scorer (`EvaluateChart`, `updateChartScore`), followed by theorems about them.

Conventions of the embedding
* `float` scores are exact rationals (`Score`).
* `vector<const Word*>` is `List Word`; an index past the end is the fault
  `Fault.outOfBounds`, a failed `assert` is `Fault.assertion`.
* `FFState` objects are values of a type `σ`; `NewState(x)` is a copy of `x`.
  `GetValueGivenState(contextFactor, state)` returns the score together with
  the advanced state.
* Each scorer also records, in `queries`, the `(contextFactor, state)` pair of
  every `GetValueGivenState` call it makes, in call order.
-/

namespace Moses

/-- Scores (`float` in the source), taken with exact arithmetic. -/
abbrev Score := ℚ

/-- The two ways a run can fail loudly. -/
inductive Fault where
  | assertion
  | outOfBounds
deriving DecidableEq, Repr

instance instDecidableEqExceptFault {α : Type} [DecidableEq α] :
    DecidableEq (Except Fault α)
  | Except.ok a, Except.ok b =>
    if h : a = b then isTrue (congrArg Except.ok h)
    else isFalse (fun e => h (Except.ok.inj e))
  | Except.error a, Except.error b =>
    if h : a = b then isTrue (congrArg Except.error h)
    else isFalse (fun e => h (Except.error.inj e))
  | Except.ok _, Except.error _ => isFalse (fun e => Except.noConfusion e)
  | Except.error _, Except.ok _ => isFalse (fun e => Except.noConfusion e)

/-- A word: its interned symbol and the flag `IsNonTerminal()`. -/
structure Word where
  factor : Nat
  isNonTerminal : Bool
deriving DecidableEq, Repr

/-- A phrase is a sequence of words (`Phrase::GetWord`, `Phrase::GetSize`). -/
abbrev Phrase := List Word

/-- The backend `LanguageModelImplementation`, consumed through its interface.
`GetValueGivenState` returns the `score` field of its result and the state it
leaves behind. The sentence-start and sentence-end words are terminals. -/
structure LanguageModelImplementation (σ : Type) where
  nGramOrder : Nat
  sentenceStartFactor : Nat
  sentenceEndFactor : Nat
  beginSentenceState : σ
  nullContextState : σ
  GetValueGivenState : List Word → σ → Score × σ
  GetValueForgotState : List Word → σ → Score × σ
  GetState : List Word → σ → σ

/-- The feature `LanguageModel`: its backend, and the free function
`UntransformLMScore` of `Util.h`, which is not part of the sources at hand and
is therefore a parameter. -/
structure LanguageModel (σ : Type) where
  m_implementation : LanguageModelImplementation σ
  UntransformLMScore : Score → Score

variable {σ : Type}

/-- The call `GetNGramOrder()`. -/
def GetNGramOrder (lm : LanguageModel σ) : Nat :=
  lm.m_implementation.nGramOrder

/-- The word `GetSentenceStartArray()`. -/
def GetSentenceStartArray (lm : LanguageModel σ) : Word :=
  { factor := lm.m_implementation.sentenceStartFactor, isNonTerminal := false }

/-- The word `GetSentenceEndArray()`. -/
def GetSentenceEndArray (lm : LanguageModel σ) : Word :=
  { factor := lm.m_implementation.sentenceEndFactor, isNonTerminal := false }

/-- The expression `GetNGramOrder() - 1` in `size_t` arithmetic: it wraps
around to `2 ^ 64 - 1` when the order is 0. -/
def orderMinusOne (lm : LanguageModel σ) : Nat :=
  if GetNGramOrder lm = 0 then 2 ^ 64 - 1 else GetNGramOrder lm - 1

/-- The shift loop of `ShiftOrPush` with `n` iterations left, at index `i`:
`contextFactor[i] = contextFactor[i + 1]`. -/
def shiftLoop : Nat → Nat → List Word → Except Fault (List Word)
  | 0, _, contextFactor => Except.ok contextFactor
  | n + 1, i, contextFactor =>
    match contextFactor[i + 1]? with
    | none => Except.error Fault.outOfBounds
    | some w => shiftLoop n (i + 1) (contextFactor.set i w)

/-- `LanguageModel::ShiftOrPush`: append below capacity, otherwise shift every
element one place to the front and store the word in slot `order - 1`. -/
def ShiftOrPush (lm : LanguageModel σ) (contextFactor : List Word) (word : Word) :
    Except Fault (List Word) :=
  if contextFactor.length < GetNGramOrder lm then
    Except.ok (contextFactor ++ [word])
  else
    match shiftLoop (orderMinusOne lm) 0 contextFactor with
    | Except.error e => Except.error e
    | Except.ok shifted =>
      if orderMinusOne lm < shifted.length then
        Except.ok (shifted.set (orderMinusOne lm) word)
      else Except.error Fault.outOfBounds

/-- Pushing a sequence of words one at a time with `ShiftOrPush`. -/
def pushWords (lm : LanguageModel σ) : List Word → List Word → Except Fault (List Word)
  | contextFactor, [] => Except.ok contextFactor
  | contextFactor, w :: ws =>
    match ShiftOrPush lm contextFactor w with
    | Except.error e => Except.error e
    | Except.ok contextFactor1 => pushWords lm contextFactor1 ws

/-- The last `k` elements of a list, in order (all of it when it is shorter). -/
def lastN {α : Type} (k : Nat) (l : List α) : List α :=
  l.drop (l.length - k)

/-- The loop state of `CalcScore`: the two output scores, the context window,
the model state, and the log of `GetValueGivenState` calls made so far. -/
structure CalcScoreState (σ : Type) where
  fullScore : Score
  ngramScore : Score
  contextFactor : List Word
  state : σ
  queries : List (List Word × σ)
deriving DecidableEq

/-- One iteration of the `while` loop of `LanguageModel::CalcScore`. -/
def CalcScore.body (lm : LanguageModel σ) (currPos : Nat) (word : Word)
    (s : CalcScoreState σ) : Except Fault (CalcScoreState σ) :=
  if word.isNonTerminal then
    if !s.contextFactor.isEmpty then
      Except.ok { s with state := lm.m_implementation.nullContextState, contextFactor := [] }
    else Except.ok s
  else
    match ShiftOrPush lm s.contextFactor word with
    | Except.error e => Except.error e
    | Except.ok contextFactor =>
      if contextFactor.length ≤ GetNGramOrder lm then
        if word = GetSentenceStartArray lm then
          if currPos = 0 then Except.ok { s with contextFactor := contextFactor }
          else Except.error Fault.assertion
        else
          let r := lm.m_implementation.GetValueGivenState contextFactor s.state
          Except.ok
            { fullScore := s.fullScore + r.1
              ngramScore :=
                if contextFactor.length = GetNGramOrder lm then s.ngramScore + r.1
                else s.ngramScore
              contextFactor := contextFactor
              state := r.2
              queries := s.queries ++ [(contextFactor, s.state)] }
      else Except.error Fault.assertion

/-- The `while (currPos < phraseSize)` loop of `CalcScore`, from `currPos` over
the words that remain. -/
def CalcScore.loop (lm : LanguageModel σ) :
    Nat → List Word → CalcScoreState σ → Except Fault (CalcScoreState σ)
  | _, [], s => Except.ok s
  | currPos, word :: rest, s =>
    match CalcScore.body lm currPos word s with
    | Except.error e => Except.error e
    | Except.ok s1 => CalcScore.loop lm (currPos + 1) rest s1

/-- The state `CalcScore` starts its loop in: both scores 0, an empty window,
and the begin-of-sentence state when the first word is the sentence-start
word, the null-context state otherwise. -/
def CalcScore.start (lm : LanguageModel σ) (first : Word) : CalcScoreState σ :=
  { fullScore := 0
    ngramScore := 0
    contextFactor := []
    state :=
      if first = GetSentenceStartArray lm then lm.m_implementation.beginSentenceState
      else lm.m_implementation.nullContextState
    queries := [] }

/-- `LanguageModel::CalcScore`. The outputs are `fullScore` and `ngramScore`
of the returned state. For the empty phrase the function returns before it
creates a state; the `state` field is then the null-context state. -/
def CalcScore (lm : LanguageModel σ) (phrase : Phrase) : Except Fault (CalcScoreState σ) :=
  match phrase with
  | [] =>
    Except.ok
      { fullScore := 0, ngramScore := 0, contextFactor := [],
        state := lm.m_implementation.nullContextState, queries := [] }
  | first :: _ => CalcScore.loop lm 0 phrase (CalcScore.start lm first)

/-- `LanguageModelChartState`: the prefix score and the right-edge state. -/
structure LanguageModelChartState (σ : Type) where
  prefixScore : Score
  rightContext : σ
deriving DecidableEq

/-- A completed child hypothesis, as `EvaluateChart` reads it through
`GetNumTargetTerminals`, `GetPrefix`, `GetSuffix`,
`GetScoreBreakdown().GetScoresForProducer(this)[0]` and `GetFFState`. -/
structure PrevHypo (σ : Type) where
  numTargetTerminals : Nat
  GetPrefix : Phrase
  GetSuffix : Phrase
  lmScore : Score
  ffState : LanguageModelChartState σ
deriving DecidableEq

/-- The hypothesis being scored: the target side of its rule, the map from
rule positions to non-terminal indices, and the children by that index. -/
structure ChartHypothesis (σ : Type) where
  currTargetPhrase : Phrase
  nonTermIndexMap : List Nat
  prevHypos : List (PrevHypo σ)

/-- The loop state of `EvaluateChart`. -/
structure ChartScoreState (σ : Type) where
  contextFactor : List Word
  lmState : σ
  prefixScore : Score
  finalizedScore : Score
  wordPos : Nat
  queries : List (List Word × σ)
deriving DecidableEq

/-- `LanguageModel::updateChartScore`, returning the two accumulators. -/
def updateChartScore (lm : LanguageModel σ) (prefixScore finalizedScore score : Score)
    (wordPos : Nat) : Score × Score :=
  if wordPos < GetNGramOrder lm then (prefixScore + score, finalizedScore)
  else (prefixScore, finalizedScore + score)

/-- The statement
`updateChartScore(&prefixScore, &finalizedScore,
   UntransformLMScore(GetValueGivenState(contextFactor, *lmState).score), ++wordPos)`
run on a window that already holds the word. -/
def scoreInWindow (lm : LanguageModel σ) (s : ChartScoreState σ) (contextFactor : List Word) :
    ChartScoreState σ :=
  let r := lm.m_implementation.GetValueGivenState contextFactor s.lmState
  let u := updateChartScore lm s.prefixScore s.finalizedScore (lm.UntransformLMScore r.1)
    (s.wordPos + 1)
  { contextFactor := contextFactor
    lmState := r.2
    prefixScore := u.1
    finalizedScore := u.2
    wordPos := s.wordPos + 1
    queries := s.queries ++ [(contextFactor, s.lmState)] }

/-- The body of the loop that scores a child's prefix: push the word, score it. -/
def scorePrefixWord (lm : LanguageModel σ) (s : ChartScoreState σ) (word : Word) :
    Except Fault (ChartScoreState σ) :=
  match ShiftOrPush lm s.contextFactor word with
  | Except.error e => Except.error e
  | Except.ok contextFactor => Except.ok (scoreInWindow lm s contextFactor)

/-- The body of the suffix loop of a rule-initial non-terminal: push the word
and count it. -/
def pushCounted (lm : LanguageModel σ) (s : ChartScoreState σ) (word : Word) :
    Except Fault (ChartScoreState σ) :=
  match ShiftOrPush lm s.contextFactor word with
  | Except.error e => Except.error e
  | Except.ok contextFactor =>
    Except.ok { s with contextFactor := contextFactor, wordPos := s.wordPos + 1 }

/-- The body of the suffix loop of an interior non-terminal: push the word. -/
def pushUncounted (lm : LanguageModel σ) (s : ChartScoreState σ) (word : Word) :
    Except Fault (ChartScoreState σ) :=
  match ShiftOrPush lm s.contextFactor word with
  | Except.error e => Except.error e
  | Except.ok contextFactor => Except.ok { s with contextFactor := contextFactor }

/-- A loop `for (i = start; i < start + count; i++) body(phrase.GetWord(i))`. -/
def forWords {α : Type} (phrase : Phrase) (body : α → Word → Except Fault α) :
    Nat → Nat → α → Except Fault α
  | 0, _, s => Except.ok s
  | count + 1, i, s =>
    match phrase[i]? with
    | none => Except.error Fault.outOfBounds
    | some word =>
      match body s word with
      | Except.error e => Except.error e
      | Except.ok s1 => forWords phrase body count (i + 1) s1

/-- The branch `if (phrasePos == 0)` of `EvaluateChart` for a non-terminal:
copy the child's scores and state, push its suffix. The `int suffixPos` is the
signed difference `GetSuffix().GetSize() - (GetNGramOrder() - 1)`, set to 0
when negative. -/
def EvaluateChart.leadingNonTerm (lm : LanguageModel σ) (prevHypo : PrevHypo σ)
    (s : ChartScoreState σ) : Except Fault (ChartScoreState σ) :=
  let prefixScore := prevHypo.ffState.prefixScore
  let finalizedScore := prevHypo.lmScore - prefixScore
  let size := prevHypo.GetSuffix.length
  let suffixPos0 : Int := (size : Int) - ((GetNGramOrder lm : Int) - 1)
  let suffixPos : Nat := if suffixPos0 < 0 then 0 else suffixPos0.toNat
  forWords prevHypo.GetSuffix (pushCounted lm) (size - suffixPos) suffixPos
    { s with
      prefixScore := prefixScore
      finalizedScore := finalizedScore
      lmState := prevHypo.ffState.rightContext }

/-- The start index `GetSuffix().GetSize() - remainingWords` in `size_t`
arithmetic: it wraps around when `remainingWords` exceeds the size. -/
def suffixStart (size remainingWords : Nat) : Nat :=
  if remainingWords ≤ size then size - remainingWords else size + 2 ^ 64 - remainingWords

/-- The `else` branch of `EvaluateChart` for a non-terminal that is not at rule
position 0: score the child's prefix, and for a child longer than
`GetNGramOrder() - 1` add its finalized part, take its state and push its
suffix. -/
def EvaluateChart.interiorNonTerm (lm : LanguageModel σ) (prevHypo : PrevHypo σ)
    (s : ChartScoreState σ) : Except Fault (ChartScoreState σ) :=
  let subPhraseLength := prevHypo.numTargetTerminals
  match forWords prevHypo.GetPrefix (scorePrefixWord lm)
      (min (orderMinusOne lm) subPhraseLength) 0 s with
  | Except.error e => Except.error e
  | Except.ok s1 =>
    if subPhraseLength > orderMinusOne lm then
      let remainingWords0 := subPhraseLength - orderMinusOne lm
      let remainingWords :=
        if remainingWords0 > orderMinusOne lm then orderMinusOne lm else remainingWords0
      let size := prevHypo.GetSuffix.length
      let suffixPos := suffixStart size remainingWords
      match forWords prevHypo.GetSuffix (pushUncounted lm) (size - suffixPos) suffixPos
          { s1 with
            finalizedScore :=
              s1.finalizedScore + (prevHypo.lmScore - prevHypo.ffState.prefixScore)
            lmState := prevHypo.ffState.rightContext } with
      | Except.error e => Except.error e
      | Except.ok s2 => Except.ok { s2 with wordPos := s2.wordPos + subPhraseLength }
    else Except.ok s1

/-- One iteration of the loop over the rule in `LanguageModel::EvaluateChart`. -/
def EvaluateChart.body (lm : LanguageModel σ) (hypo : ChartHypothesis σ) (phrasePos : Nat)
    (word : Word) (s : ChartScoreState σ) : Except Fault (ChartScoreState σ) :=
  if !word.isNonTerminal then
    match ShiftOrPush lm s.contextFactor word with
    | Except.error e => Except.error e
    | Except.ok contextFactor =>
      if word = GetSentenceStartArray lm then
        if phrasePos = 0 then
          Except.ok
            { s with
              contextFactor := contextFactor
              lmState := lm.m_implementation.beginSentenceState }
        else Except.error Fault.assertion
      else Except.ok (scoreInWindow lm s contextFactor)
  else
    match hypo.nonTermIndexMap[phrasePos]? with
    | none => Except.error Fault.outOfBounds
    | some nonTermIndex =>
      match hypo.prevHypos[nonTermIndex]? with
      | none => Except.error Fault.outOfBounds
      | some prevHypo =>
        if phrasePos = 0 then EvaluateChart.leadingNonTerm lm prevHypo s
        else EvaluateChart.interiorNonTerm lm prevHypo s

/-- The loop over the rule of `EvaluateChart`, from `phrasePos` over the rule
positions that remain. -/
def EvaluateChart.loop (lm : LanguageModel σ) (hypo : ChartHypothesis σ) :
    Nat → List Word → ChartScoreState σ → Except Fault (ChartScoreState σ)
  | _, [], s => Except.ok s
  | phrasePos, word :: rest, s =>
    match EvaluateChart.body lm hypo phrasePos word s with
    | Except.error e => Except.error e
    | Except.ok s1 => EvaluateChart.loop lm hypo (phrasePos + 1) rest s1

/-- The state `EvaluateChart` starts its loop in. -/
def EvaluateChart.start (lm : LanguageModel σ) : ChartScoreState σ :=
  { contextFactor := []
    lmState := lm.m_implementation.nullContextState
    prefixScore := 0
    finalizedScore := 0
    wordPos := 0
    queries := [] }

/-- `LanguageModel::EvaluateChart`, returning the state its loop ends in. -/
def EvaluateChart (lm : LanguageModel σ) (hypo : ChartHypothesis σ) :
    Except Fault (ChartScoreState σ) :=
  EvaluateChart.loop lm hypo 0 hypo.currTargetPhrase (EvaluateChart.start lm)

/-- The score `out->Assign(this, prefixScore + finalizedScore)`. -/
def assignedScore (s : ChartScoreState σ) : Score :=
  s.prefixScore + s.finalizedScore

/-- The returned `LanguageModelChartState(prefixScore, lmState, hypo)`. -/
def returnedState (s : ChartScoreState σ) : LanguageModelChartState σ :=
  { prefixScore := s.prefixScore, rightContext := s.lmState }

/-- The scores of the logged queries, as the backend answers them. -/
def queryScores (lm : LanguageModel σ) (queries : List (List Word × σ)) : List Score :=
  queries.map (fun q => (lm.m_implementation.GetValueGivenState q.1 q.2).1)


/-- The model whose backend hands out every score already passed through
`UntransformLMScore`; windows, states and the order are unchanged. -/
def withUntransformedScores (lm : LanguageModel σ) : LanguageModel σ :=
  { lm with
    m_implementation :=
      { lm.m_implementation with
        GetValueGivenState := fun contextFactor state =>
          (lm.UntransformLMScore (lm.m_implementation.GetValueGivenState contextFactor state).1,
            (lm.m_implementation.GetValueGivenState contextFactor state).2) } }

/-- A value for the parameter `UntransformLMScore`: division by the constant
2.30258509299405, the change from natural to base-10 logarithms. -/
def divideByLn10 (x : Score) : Score :=
  x / (230258509299405 / 100000000000000)

/-- A test backend whose score depends on the window only: a third of the
decimal number spelled by the factors in the window. It has a single state.
The sentence-start word has factor 0, the sentence-end word factor 1. -/
def stubLM (order : Nat) (untransform : Score → Score) : LanguageModel Unit :=
  { m_implementation :=
      { nGramOrder := order
        sentenceStartFactor := 0
        sentenceEndFactor := 1
        beginSentenceState := ()
        nullContextState := ()
        GetValueGivenState := fun contextFactor _ =>
          (((contextFactor.foldl (fun a w => 10 * a + w.factor) 0 : Nat) : Score) / 3, ())
        GetValueForgotState := fun contextFactor _ =>
          (((contextFactor.foldl (fun a w => 10 * a + w.factor) 0 : Nat) : Score) / 3, ())
        GetState := fun _ _ => () }
    UntransformLMScore := untransform }

/-- A test backend with memory: the state counts the words consumed since the
seed (null context 0, begin of sentence 100), and the score of a call is the
window's decimal number plus the state. -/
def countingLM (order : Nat) (untransform : Score → Score) : LanguageModel Nat :=
  { m_implementation :=
      { nGramOrder := order
        sentenceStartFactor := 0
        sentenceEndFactor := 1
        beginSentenceState := 100
        nullContextState := 0
        GetValueGivenState := fun contextFactor state =>
          (((contextFactor.foldl (fun a w => 10 * a + w.factor) 0 + state : Nat) : Score),
            state + 1)
        GetValueForgotState := fun contextFactor state =>
          (((contextFactor.foldl (fun a w => 10 * a + w.factor) 0 + state : Nat) : Score),
            state + 1)
        GetState := fun _ state => state + 1 }
    UntransformLMScore := untransform }

/-- The terminal word with the given factor. -/
def terminal (factor : Nat) : Word :=
  { factor := factor, isNonTerminal := false }

/-- The non-terminal word with the given factor. -/
def nonTerminal (factor : Nat) : Word :=
  { factor := factor, isNonTerminal := true }

/-- What `EvaluateChart` has computed so far, as compared with `CalcScore`:
window, model state, the sum of the two accumulators, and the query log. -/
def chartView (s : ChartScoreState σ) : List Word × σ × Score × List (List Word × σ) :=
  (s.contextFactor, s.lmState, s.prefixScore + s.finalizedScore, s.queries)

/-- What `CalcScore` has computed so far: window, model state, `fullScore`, and
the query log. -/
def calcView (c : CalcScoreState σ) : List Word × σ × Score × List (List Word × σ) :=
  (c.contextFactor, c.state, c.fullScore, c.queries)

/-- A loop `for each word of ws in order: body(word)`. -/
def runWords {α : Type} (body : α → Word → Except Fault α) : List Word → α → Except Fault α
  | [], s => Except.ok s
  | word :: rest, s =>
    match body s word with
    | Except.error e => Except.error e
    | Except.ok s1 => runWords body rest s1

/-- A child for the counting backend at order 3: four terminals `3 4 5 6`, of
which the interface shows the prefix `3 4` and the suffix `5 6`. -/
def exampleChild : PrevHypo Nat :=
  { numTargetTerminals := 4
    GetPrefix := [terminal 3, terminal 4]
    GetSuffix := [terminal 5, terminal 6]
    lmScore := 50
    ffState := { prefixScore := 20, rightContext := 4 } }

/-- The rule `[X] 7` over `exampleChild`. -/
def exampleLeadingRule : ChartHypothesis Nat :=
  { currTargetPhrase := [nonTerminal 9, terminal 7]
    nonTermIndexMap := [0, 0]
    prevHypos := [exampleChild] }

/-- What `CalcScore` returns for the phrase `5 6 [X] 7 8` with the counting
backend at order 3. -/
def exampleLinearResult : CalcScoreState Nat :=
  { fullScore := 148
    ngramScore := 0
    contextFactor := [terminal 7, terminal 8]
    state := 2
    queries :=
      [([terminal 5], 0), ([terminal 5, terminal 6], 1), ([terminal 7], 0),
        ([terminal 7, terminal 8], 1)] }

/-- A child for the window-only backend at order 2: the yield `5 6`, with the
linear score `5/3 + 56/3` of that yield stored and `5/3` of it as prefix
score. -/
def exampleBigramChild : PrevHypo Unit :=
  { numTargetTerminals := 2
    GetPrefix := [terminal 5]
    GetSuffix := [terminal 6]
    lmScore := 61 / 3
    ffState := { prefixScore := 5 / 3, rightContext := () } }

/-- The rule `4 [X] 7` over `exampleBigramChild`. -/
def exampleBigramRule : ChartHypothesis Unit :=
  { currTargetPhrase := [terminal 4, nonTerminal 9, terminal 7]
    nonTermIndexMap := [0, 0, 0]
    prevHypos := [exampleBigramChild] }

/-- The score a window-only backend gives a window, passed through
`UntransformLMScore`; the state asked with is the null-context state. -/
def windowScore (lm : LanguageModel σ) (contextFactor : List Word) : Score :=
  lm.UntransformLMScore
    (lm.m_implementation.GetValueGivenState contextFactor
      lm.m_implementation.nullContextState).1

/-- The sum of the window scores of the words `ws`, each in the window made of
the last `N` words of the history up to and including the word. -/
def seqScore (lm : LanguageModel σ) : List Word → List Word → Score
  | _, [] => 0
  | hist, w :: ws =>
    windowScore lm (lastN (GetNGramOrder lm) (hist ++ [w])) + seqScore lm (hist ++ [w]) ws

/-- The flat score of a terminal string: the window scores of all its words but
a sentence-start word at position 0. -/
def flatScore (lm : LanguageModel σ) : List Word → Score
  | [] => 0
  | w :: ws =>
    (if w = GetSentenceStartArray lm then 0 else windowScore lm [w]) + seqScore lm [w] ws

/-- The terminal yield of one rule position: the word itself, or the yield of
the child that fills the slot (`yields` lists the children's yields by
non-terminal index, next to `prevHypos`). -/
def slotYield (hypo : ChartHypothesis σ) (yields : List (List Word)) (phrasePos : Nat)
    (word : Word) : List Word :=
  if word.isNonTerminal then
    match hypo.nonTermIndexMap[phrasePos]? with
    | none => []
    | some nonTermIndex => (yields[nonTermIndex]?).getD []
  else [word]

/-- The fully expanded terminal yield of the rule positions from `phrasePos`. -/
def expandedYield (hypo : ChartHypothesis σ) (yields : List (List Word)) :
    Nat → List Word → List Word
  | _, [] => []
  | phrasePos, word :: rest =>
    slotYield hypo yields phrasePos word ++ expandedYield hypo yields (phrasePos + 1) rest

/-- A child that is consistent with its terminal yield `y` of length L: the
yield is made of terminals, the child reports L terminals, its prefix and
suffix are the first and last min(L, N-1) words of the yield, its stored score
is the linear score of the yield and its prefix score the linear score of the
first N-1 words, both on scores passed through `UntransformLMScore`. -/
def ChildOk (lm : LanguageModel σ) (child : PrevHypo σ) (y : List Word) : Prop :=
  (∀ w ∈ y, w.isNonTerminal = false) ∧
    child.numTargetTerminals = y.length ∧
    child.GetPrefix = y.take (GetNGramOrder lm - 1) ∧
    child.GetSuffix = lastN (GetNGramOrder lm - 1) y ∧
    Except.map (fun r => r.fullScore) (CalcScore (withUntransformedScores lm) y) =
      Except.ok child.lmScore ∧
    Except.map (fun r => r.fullScore)
        (CalcScore (withUntransformedScores lm) (y.take (GetNGramOrder lm - 1))) =
      Except.ok child.ffState.prefixScore

/-- A rule position that `EvaluateChart` can score exactly: a terminal that is
the sentence-start word at most at position 0, or a slot with a consistent
child whose yield holds the sentence-start word at most as the first word of a
child in slot 0. -/
def SlotOk (lm : LanguageModel σ) (hypo : ChartHypothesis σ) (yields : List (List Word))
    (phrasePos : Nat) (word : Word) : Prop :=
  if word.isNonTerminal then
    ∃ nonTermIndex child y,
      hypo.nonTermIndexMap[phrasePos]? = some nonTermIndex ∧
        hypo.prevHypos[nonTermIndex]? = some child ∧
        yields[nonTermIndex]? = some y ∧
        ChildOk lm child y ∧
        ∀ w ∈ (if phrasePos = 0 then y.tail else y), w ≠ GetSentenceStartArray lm
  else phrasePos ≠ 0 → word ≠ GetSentenceStartArray lm

/-- The rule `[X] 7` over `exampleBigramChild`. -/
def exampleBigramLeadingRule : ChartHypothesis Unit :=
  { currTargetPhrase := [nonTerminal 9, terminal 7]
    nonTermIndexMap := [0, 0]
    prevHypos := [exampleBigramChild] }

/-- A child for the window-only backend at order 2 whose yield `<s> 5` starts
with the sentence-start word: stored score `f(5|<s>) = 5/3`, prefix score 0. -/
def exampleStartChild : PrevHypo Unit :=
  { numTargetTerminals := 2
    GetPrefix := [terminal 0]
    GetSuffix := [terminal 5]
    lmScore := 5 / 3
    ffState := { prefixScore := 0, rightContext := () } }

/-- The rule `4 [X]` over `exampleStartChild`. -/
def exampleStartRule : ChartHypothesis Unit :=
  { currTargetPhrase := [terminal 4, nonTerminal 9]
    nonTermIndexMap := [0, 0]
    prevHypos := [exampleStartChild] }

/-- A child at order 3 for the window-only backend with scores divided by
ln 10: the yield `3 4 5 6`. -/
def exampleLongChild : PrevHypo Unit :=
  { numTargetTerminals := 4
    GetPrefix := [terminal 3, terminal 4]
    GetSuffix := [terminal 5, terminal 6]
    lmScore :=
      divideByLn10 (3 / 3) + divideByLn10 (34 / 3) + divideByLn10 (345 / 3) +
        divideByLn10 (456 / 3)
    ffState := { prefixScore := divideByLn10 (3 / 3) + divideByLn10 (34 / 3), rightContext := () } }

/-- A child at order 3 for the same backend: the yield `8`. -/
def exampleShortChild : PrevHypo Unit :=
  { numTargetTerminals := 1
    GetPrefix := [terminal 8]
    GetSuffix := [terminal 8]
    lmScore := divideByLn10 (8 / 3)
    ffState := { prefixScore := divideByLn10 (8 / 3), rightContext := () } }

/-- The rule `2 [X] 7 [Y]` over `exampleLongChild` and `exampleShortChild`. -/
def exampleComposedRule : ChartHypothesis Unit :=
  { currTargetPhrase := [terminal 2, nonTerminal 9, terminal 7, nonTerminal 9]
    nonTermIndexMap := [0, 0, 0, 1]
    prevHypos := [exampleLongChild, exampleShortChild] }

/-- The yields of the children of `exampleComposedRule`. -/
def exampleComposedYields : List (List Word) :=
  [[terminal 3, terminal 4, terminal 5, terminal 6], [terminal 8]]

/-- The state in which `EvaluateChart` reaches the slot of the rule `4 [X] 7`
at order 2 with the window-only backend: the word 4 is in the window and has
been counted. -/
def exampleBeforeSlot : ChartScoreState Unit :=
  { contextFactor := [terminal 4]
    lmState := ()
    prefixScore := 4 / 3
    finalizedScore := 0
    wordPos := 1
    queries := [([terminal 4], ())] }

/-- A child with one terminal, `5`, for order 3: its stored score, prefix
score, right-edge state and suffix are arbitrary. -/
def exampleSmallChildA : PrevHypo Nat :=
  { numTargetTerminals := 1
    GetPrefix := [terminal 5]
    GetSuffix := [terminal 5]
    lmScore := 7
    ffState := { prefixScore := 7, rightContext := 1 } }

/-- The same child with another stored score, prefix score, right-edge state
and suffix. -/
def exampleSmallChildB : PrevHypo Nat :=
  { numTargetTerminals := 1
    GetPrefix := [terminal 5]
    GetSuffix := [terminal 8, terminal 9]
    lmScore := 1000
    ffState := { prefixScore := 3, rightContext := 42 } }

/-- The rule `4 [X] 7` over `exampleSmallChildA`. -/
def exampleSmallRuleA : ChartHypothesis Nat :=
  { currTargetPhrase := [terminal 4, nonTerminal 9, terminal 7]
    nonTermIndexMap := [0, 0, 0]
    prevHypos := [exampleSmallChildA] }

/-- The rule `4 [X] 7` over `exampleSmallChildB`. -/
def exampleSmallRuleB : ChartHypothesis Nat :=
  { currTargetPhrase := [terminal 4, nonTerminal 9, terminal 7]
    nonTermIndexMap := [0, 0, 0]
    prevHypos := [exampleSmallChildB] }

/-- The loop state of `CalcScoreChart`: the two output scores, the context
window, the model state, and the log of `GetValueGivenState` calls. -/
structure CalcScoreChartState (σ : Type) where
  beginningBitsOnly : Score
  ngramScore : Score
  contextFactor : List Word
  state : σ
  queries : List (List Word × σ)
deriving DecidableEq

/-- One iteration of the `for` loop of `LanguageModel::CalcScoreChart`. -/
def CalcScoreChart.body (lm : LanguageModel σ) (currPos : Nat) (word : Word)
    (s : CalcScoreChartState σ) : Except Fault (CalcScoreChartState σ) :=
  if !word.isNonTerminal then
    match ShiftOrPush lm s.contextFactor word with
    | Except.error e => Except.error e
    | Except.ok contextFactor =>
      if contextFactor.length ≤ GetNGramOrder lm then
        if word = GetSentenceStartArray lm then
          if currPos = 0 then Except.ok { s with contextFactor := contextFactor }
          else Except.error Fault.assertion
        else
          let r := lm.m_implementation.GetValueGivenState contextFactor s.state
          Except.ok
            { beginningBitsOnly :=
                if contextFactor.length = GetNGramOrder lm then s.beginningBitsOnly
                else s.beginningBitsOnly + r.1
              ngramScore :=
                if contextFactor.length = GetNGramOrder lm then s.ngramScore + r.1
                else s.ngramScore
              contextFactor := contextFactor
              state := r.2
              queries := s.queries ++ [(contextFactor, s.state)] }
      else Except.error Fault.assertion
  else Except.error Fault.assertion

/-- The `for` loop of `CalcScoreChart`, from `currPos` over the words that
remain. -/
def CalcScoreChart.loop (lm : LanguageModel σ) :
    Nat → List Word → CalcScoreChartState σ → Except Fault (CalcScoreChartState σ)
  | _, [], s => Except.ok s
  | currPos, word :: rest, s =>
    match CalcScoreChart.body lm currPos word s with
    | Except.error e => Except.error e
    | Except.ok s1 => CalcScoreChart.loop lm (currPos + 1) rest s1

/-- `LanguageModel::CalcScoreChart`. The outputs are `beginningBitsOnly` and
`ngramScore` of the returned state; the start state is chosen as in
`CalcScore`. -/
def CalcScoreChart (lm : LanguageModel σ) (phrase : Phrase) :
    Except Fault (CalcScoreChartState σ) :=
  match phrase with
  | [] =>
    Except.ok
      { beginningBitsOnly := 0, ngramScore := 0, contextFactor := [],
        state := lm.m_implementation.nullContextState, queries := [] }
  | first :: _ =>
    CalcScoreChart.loop lm 0 phrase
      { beginningBitsOnly := 0
        ngramScore := 0
        contextFactor := []
        state :=
          if first = GetSentenceStartArray lm then lm.m_implementation.beginSentenceState
          else lm.m_implementation.nullContextState
        queries := [] }

/-- What `CalcScoreChart` has computed so far, as compared with `CalcScore`:
window, model state, `ngramScore`, the sum of its two scores, the query log. -/
def calcChartView (s : CalcScoreChartState σ) :
    List Word × σ × Score × Score × List (List Word × σ) :=
  (s.contextFactor, s.state, s.ngramScore, s.beginningBitsOnly + s.ngramScore, s.queries)

/-- What `CalcScore` has computed so far: window, model state, `ngramScore`,
`fullScore`, the query log. -/
def calcFullView (c : CalcScoreState σ) :
    List Word × σ × Score × Score × List (List Word × σ) :=
  (c.contextFactor, c.state, c.ngramScore, c.fullScore, c.queries)

/-- A span of input positions (`WordsRange`). -/
structure WordsRange where
  startPos : Nat
  endPos : Nat
deriving DecidableEq, Repr

/-- A target phrase, as `ChartTranslationOption` reads it: `GetFutureScore()`. -/
structure TargetPhrase where
  futureScore : Score
deriving DecidableEq

/-- One element of the chain of covered chart spans of a rule's source side: a
terminal or a non-terminal slot, with the sub-span it covers. The chain that
`m_lastCoveredChartSpan` ends is a list, first element first. -/
structure CoveredChartSpan where
  isNonTerminal : Bool
  wordsRange : WordsRange
deriving DecidableEq, Repr

/-- The chart cells, as the estimate reads them: the best score known for a
sub-span. -/
structure ChartCellCollection where
  bestScore : WordsRange → Score

/-- `ChartTranslationOption`: the target phrase, the chain of covered chart
spans, the covered span and the estimate. -/
structure ChartTranslationOption where
  m_targetPhrase : TargetPhrase
  m_lastCoveredChartSpan : List CoveredChartSpan
  m_wordsRange : WordsRange
  m_estimateOfBestScore : Score

/-- Modelled from the spec: `ChartTranslationOption::CalcEstimateOfBestScore`
is declared in `ChartTranslationOption.h` and defined outside the sources at
hand. Following section 4.4 it walks the rule's covered chart spans and, for
each non-terminal slot, adds to the estimate the best score known for the
sub-span the slot is filled from; terminals add nothing and nothing else is
changed. -/
def CalcEstimateOfBestScore (estimate : Score) :
    List CoveredChartSpan → ChartCellCollection → Score
  | [], _ => estimate
  | coveredChartSpan :: rest, allChartCells =>
    CalcEstimateOfBestScore
      (if coveredChartSpan.isNonTerminal then
        estimate + allChartCells.bestScore coveredChartSpan.wordsRange
      else estimate)
      rest allChartCells

/-- The constructor of `ChartTranslationOption`: the estimate starts at the
target phrase's future score, then `CalcEstimateOfBestScore` runs. -/
def ChartTranslationOption.new (targetPhrase : TargetPhrase)
    (lastCoveredChartSpan : List CoveredChartSpan) (wordsRange : WordsRange)
    (allChartCells : ChartCellCollection) : ChartTranslationOption :=
  { m_targetPhrase := targetPhrase
    m_lastCoveredChartSpan := lastCoveredChartSpan
    m_wordsRange := wordsRange
    m_estimateOfBestScore :=
      CalcEstimateOfBestScore targetPhrase.futureScore lastCoveredChartSpan allChartCells }

/-- `ChartTranslationOption::GetEstimateOfBestScore`. -/
def GetEstimateOfBestScore (option : ChartTranslationOption) : Score :=
  option.m_estimateOfBestScore

/-- A phrase-based hypothesis, as `Evaluate` reads it: the target words so far
(`GetWord(pos)`), `GetSize()`, `GetCurrTargetLength()`, the start and end
position of `GetCurrTargetWordsRange()` and `IsSourceCompleted()`. -/
structure Hypothesis where
  words : List Word
  size : Nat
  currTargetLength : Nat
  startPos : Nat
  endPos : Nat
  isSourceCompleted : Bool
deriving DecidableEq

/-- The three backend calls `Evaluate` makes. -/
inductive LMCall where
  | valueGivenState
  | valueForgotState
  | state
deriving DecidableEq, Repr

/-- The call `hypo.GetWord(pos)`. -/
def Hypothesis.GetWord (hypo : Hypothesis) (pos : Nat) : Except Fault Word :=
  match hypo.words[pos]? with
  | none => Except.error Fault.outOfBounds
  | some w => Except.ok w

/-- The state of `Evaluate` while it scores: the window, the state `res`, the
score `lmScore`, and the log of backend calls with the window and state of
each. -/
structure EvaluateState (σ : Type) where
  contextFactor : List Word
  res : σ
  lmScore : Score
  queries : List (LMCall × List Word × σ)
deriving DecidableEq

/-- What `Evaluate` hands back: the returned state (`none` for `NULL`), the
amount given to `out->PlusEquals` (`none` when that call is not reached), and
the log of backend calls. -/
structure EvaluateResult (σ : Type) where
  returned : Option σ
  added : Option Score
  queries : List (LMCall × List Word × σ)
deriving DecidableEq

/-- The loop that fills the first n-gram: `n` iterations left, at the signed
position `currPos`; a position below 0 gives the sentence-start word. The
slots `contextFactor[index++]` are filled in order, so the window is built by
appending. -/
def Evaluate.firstNGram (lm : LanguageModel σ) (hypo : Hypothesis) :
    Nat → Int → List Word → Except Fault (List Word)
  | 0, _, contextFactor => Except.ok contextFactor
  | n + 1, currPos, contextFactor =>
    if currPos ≥ 0 then
      match hypo.GetWord currPos.toNat with
      | Except.error e => Except.error e
      | Except.ok w => Evaluate.firstNGram lm hypo n (currPos + 1) (contextFactor ++ [w])
    else
      Evaluate.firstNGram lm hypo n (currPos + 1) (contextFactor ++ [GetSentenceStartArray lm])

/-- The statements "shift all args down 1 place" and
`contextFactor.back() = &word` of `Evaluate`. -/
def Evaluate.shift (lm : LanguageModel σ) (contextFactor : List Word) (word : Word) :
    Except Fault (List Word) :=
  match shiftLoop (orderMinusOne lm) 0 contextFactor with
  | Except.error e => Except.error e
  | Except.ok shifted =>
    if shifted.length = 0 then Except.error Fault.outOfBounds
    else Except.ok (shifted.set (shifted.length - 1) word)

/-- The main loop of `Evaluate`: `n` iterations left, at position `currPos`. -/
def Evaluate.mainLoop (lm : LanguageModel σ) (hypo : Hypothesis) :
    Nat → Nat → EvaluateState σ → Except Fault (EvaluateState σ)
  | 0, _, s => Except.ok s
  | n + 1, currPos, s =>
    match hypo.GetWord currPos with
    | Except.error e => Except.error e
    | Except.ok w =>
      match Evaluate.shift lm s.contextFactor w with
      | Except.error e => Except.error e
      | Except.ok contextFactor =>
        let r := lm.m_implementation.GetValueGivenState contextFactor s.res
        Evaluate.mainLoop lm hypo n (currPos + 1)
          { contextFactor := contextFactor
            res := r.2
            lmScore := s.lmScore + r.1
            queries := s.queries ++ [(LMCall.valueGivenState, contextFactor, s.res)] }

/-- The part of `Evaluate` that scores the words of the new phrase: the first
n-gram, its score (asked with `GetValueGivenState` when a previous state is
given, with `GetValueForgotState` otherwise), and the main loop up to
`endPos = min(startPos + N - 2, currEndPos)`. `fresh` is the state
`NewState(NULL)` gives. -/
def Evaluate.phrasePart (lm : LanguageModel σ) (fresh : σ) (hypo : Hypothesis)
    (ps : Option σ) : Except Fault (EvaluateState σ) :=
  match Evaluate.firstNGram lm hypo (GetNGramOrder lm)
      ((hypo.startPos : Int) - (GetNGramOrder lm : Int) + 1) [] with
  | Except.error e => Except.error e
  | Except.ok contextFactor =>
    let res := ps.getD fresh
    let r :=
      if ps.isSome then lm.m_implementation.GetValueGivenState contextFactor res
      else lm.m_implementation.GetValueForgotState contextFactor res
    let endPos := min (hypo.startPos + GetNGramOrder lm - 2) hypo.endPos
    Evaluate.mainLoop lm hypo (endPos - hypo.startPos) (hypo.startPos + 1)
      { contextFactor := contextFactor
        res := r.2
        lmScore := r.1
        queries :=
          [(if ps.isSome then LMCall.valueGivenState else LMCall.valueForgotState,
            contextFactor, res)] }

/-- The loop of the end-of-sentence branch: `n` iterations left, at slot `i`;
slot `i` takes the word at the signed position `size - N + i + 1`, or the
sentence-start word when that is below 0. The source computes the position in
`size_t` and casts it to `int`, which gives this signed value. -/
def Evaluate.endLoop (lm : LanguageModel σ) (hypo : Hypothesis) :
    Nat → Nat → List Word → Except Fault (List Word)
  | 0, _, contextFactor => Except.ok contextFactor
  | n + 1, i, contextFactor =>
    let currPos : Int := (hypo.size : Int) - (GetNGramOrder lm : Int) + (i : Int) + 1
    match (if currPos < 0 then Except.ok (GetSentenceStartArray lm)
        else hypo.GetWord currPos.toNat) with
    | Except.error e => Except.error e
    | Except.ok w =>
      if i < contextFactor.length then
        Evaluate.endLoop lm hypo n (i + 1) (contextFactor.set i w)
      else Except.error Fault.outOfBounds

/-- The loop "need to get the LM state": `n` iterations left, at position
`currPos`; the words are shifted into the window without a score. -/
def Evaluate.stateLoop (lm : LanguageModel σ) (hypo : Hypothesis) :
    Nat → Nat → List Word → Except Fault (List Word)
  | 0, _, contextFactor => Except.ok contextFactor
  | n + 1, currPos, contextFactor =>
    match hypo.GetWord currPos with
    | Except.error e => Except.error e
    | Except.ok w =>
      match Evaluate.shift lm contextFactor w with
      | Except.error e => Except.error e
      | Except.ok contextFactor1 => Evaluate.stateLoop lm hypo n (currPos + 1) contextFactor1

/-- The rest of `Evaluate` after the main loop: the end-of-sentence score when
the source is completed, otherwise the state update when words of the phrase
are left over; then `out->PlusEquals(this, lmScore)` and `return res`. -/
def Evaluate.finish (lm : LanguageModel σ) (hypo : Hypothesis) (s : EvaluateState σ) :
    Except Fault (EvaluateResult σ) :=
  let endPos := min (hypo.startPos + GetNGramOrder lm - 2) hypo.endPos
  if hypo.isSourceCompleted then
    if s.contextFactor.length = 0 then Except.error Fault.outOfBounds
    else
      match Evaluate.endLoop lm hypo (orderMinusOne lm) 0
          (s.contextFactor.set (s.contextFactor.length - 1) (GetSentenceEndArray lm)) with
      | Except.error e => Except.error e
      | Except.ok contextFactor =>
        let r := lm.m_implementation.GetValueForgotState contextFactor s.res
        Except.ok
          { returned := some r.2
            added := some (s.lmScore + r.1)
            queries := s.queries ++ [(LMCall.valueForgotState, contextFactor, s.res)] }
  else if endPos < hypo.endPos then
    match Evaluate.stateLoop lm hypo (hypo.endPos - endPos) (endPos + 1) s.contextFactor with
    | Except.error e => Except.error e
    | Except.ok contextFactor =>
      Except.ok
        { returned := some (lm.m_implementation.GetState contextFactor s.res)
          added := some s.lmScore
          queries := s.queries ++ [(LMCall.state, contextFactor, s.res)] }
  else
    Except.ok { returned := some s.res, added := some s.lmScore, queries := s.queries }

/-- `LanguageModel::Evaluate`. -/
def Evaluate (lm : LanguageModel σ) (fresh : σ) (hypo : Hypothesis) (ps : Option σ) :
    Except Fault (EvaluateResult σ) :=
  if GetNGramOrder lm ≤ 1 then
    Except.ok { returned := none, added := none, queries := [] }
  else if hypo.currTargetLength = 0 then
    Except.ok { returned := ps, added := none, queries := [] }
  else
    match Evaluate.phrasePart lm fresh hypo ps with
    | Except.error e => Except.error e
    | Except.ok s => Evaluate.finish lm hypo s

/-- The hypothesis words with `N` sentence-start words in front: index `N + p`
holds the word at position `p`, the indices below `N` stand for the positions
before 0. -/
def paddedWords (lm : LanguageModel σ) (hypo : Hypothesis) : List Word :=
  List.replicate (GetNGramOrder lm) (GetSentenceStartArray lm) ++ hypo.words

/-- The window for the word at position `p`: the `N` words at positions
`p - N + 1 .. p`, with the sentence-start word at every position before 0. -/
def windowAt (lm : LanguageModel σ) (hypo : Hypothesis) (p : Nat) : List Word :=
  ((paddedWords lm hypo).drop (p + 1)).take (GetNGramOrder lm)

/-- The score a logged call of `Evaluate` adds to `lmScore`. -/
def callScore (lm : LanguageModel σ) (q : LMCall × List Word × σ) : Score :=
  match q.1 with
  | LMCall.valueGivenState => (lm.m_implementation.GetValueGivenState q.2.1 q.2.2).1
  | LMCall.valueForgotState => (lm.m_implementation.GetValueForgotState q.2.1 q.2.2).1
  | LMCall.state => 0

/-- A hypothesis of five words `5 6 7 8 9` whose new phrase is `7 8 9`
(positions 2 to 4), with the source not yet completed. -/
def exampleHypothesis : Hypothesis :=
  { words := [terminal 5, terminal 6, terminal 7, terminal 8, terminal 9]
    size := 5
    currTargetLength := 3
    startPos := 2
    endPos := 4
    isSourceCompleted := false }

/-- A hypothesis of one word `5`, the new phrase, that completes the source. -/
def exampleFinalHypothesis : Hypothesis :=
  { words := [terminal 5]
    size := 1
    currTargetLength := 1
    startPos := 0
    endPos := 0
    isSourceCompleted := true }

/-! ## The context window -/
theorem lastN_length {α : Type} (k : Nat) (l : List α) :
    (lastN k l).length = min k l.length := by
  unfold lastN
  rw [List.length_drop]
  omega

theorem lastN_of_length_le {α : Type} {k : Nat} {l : List α} (h : l.length ≤ k) :
    lastN k l = l := by
  unfold lastN
  rw [Nat.sub_eq_zero_of_le h, List.drop_zero]

theorem lastN_append_of_le {α : Type} {k : Nat} (a b : List α) (h : k ≤ b.length) :
    lastN k (a ++ b) = lastN k b := by
  unfold lastN
  rw [List.length_append, List.drop_append_eq_append_drop]
  have h1 : a.length + b.length - k - a.length = b.length - k := by omega
  have h2 : a.length ≤ a.length + b.length - k := by omega
  rw [h1, List.drop_eq_nil_of_le h2, List.nil_append]

theorem lastN_append_of_ge {α : Type} {k : Nat} (a b : List α) (h : b.length ≤ k) :
    lastN k (a ++ b) = lastN (k - b.length) a ++ b := by
  unfold lastN
  rw [List.length_append, List.drop_append_eq_append_drop]
  have h1 : a.length + b.length - k - a.length = 0 := by omega
  have h2 : a.length + b.length - k = a.length - (k - b.length) := by omega
  rw [h1, h2, List.drop_zero]

theorem lastN_lastN {α : Type} {j k : Nat} (l : List α) (h : j ≤ k) :
    lastN j (lastN k l) = lastN j l := by
  unfold lastN
  rw [List.drop_drop, List.length_drop]
  congr 1
  omega

theorem lastN_append_lastN {α : Type} (k : Nat) (a b : List α) :
    lastN k (lastN k a ++ b) = lastN k (a ++ b) := by
  rcases Nat.le_total k b.length with h | h
  · rw [lastN_append_of_le _ _ h, lastN_append_of_le _ _ h]
  · rw [lastN_append_of_ge _ _ h, lastN_append_of_ge _ _ h,
      lastN_lastN _ (Nat.sub_le _ _)]

theorem lastN_zero {α : Type} (l : List α) : lastN 0 l = [] := by
  simp [lastN]

/-- The window pushes compare on: equal trailing `k - 1` entries give equal
windows after one more push. -/
theorem lastN_snoc_congr {α : Type} {k : Nat} {a b : List α} (w : α)
    (h : lastN (k - 1) a = lastN (k - 1) b) : lastN k (a ++ [w]) = lastN k (b ++ [w]) := by
  rcases Nat.eq_zero_or_pos k with hk | hk
  · subst hk
    simp [lastN_zero]
  · rw [lastN_append_of_ge a [w] (by simpa using hk),
      lastN_append_of_ge b [w] (by simpa using hk)]
    simp only [List.length_singleton]
    rw [h]

theorem shiftLoop_spec (mid : List Word) :
    ∀ (pre : List Word) (x : Word) (post : List Word),
      ∃ z, shiftLoop mid.length pre.length (pre ++ x :: (mid ++ post)) =
        Except.ok (pre ++ (mid ++ z :: post)) := by
  induction mid with
  | nil => intro pre x post; exact ⟨x, by simp [shiftLoop]⟩
  | cons y mid ih =>
    intro pre x post
    have h1 : (pre ++ x :: (y :: mid ++ post))[pre.length + 1]? = some y := by
      rw [List.getElem?_append_right (by omega)]
      simp
    have h2 : (pre ++ x :: (y :: mid ++ post)).set pre.length y =
        (pre ++ [y]) ++ y :: (mid ++ post) := by
      rw [List.set_append_right _ _ (by omega)]
      simp
    obtain ⟨z, h3⟩ := ih (pre ++ [y]) y post
    simp only [List.length_append, List.length_singleton] at h3
    refine ⟨z, ?_⟩
    simp only [List.length_cons, shiftLoop, h1, h2, h3]
    simp

theorem orderMinusOne_of_pos (lm : LanguageModel σ) (h : 1 ≤ GetNGramOrder lm) :
    orderMinusOne lm = GetNGramOrder lm - 1 := by
  unfold orderMinusOne
  rw [if_neg (by omega)]

/-- On a window within capacity `ShiftOrPush` keeps the last `N` of the words
pushed so far. -/
theorem ShiftOrPush_eq (lm : LanguageModel σ) (h : 1 ≤ GetNGramOrder lm)
    (contextFactor : List Word) (hlen : contextFactor.length ≤ GetNGramOrder lm) (word : Word) :
    ShiftOrPush lm contextFactor word =
      Except.ok (lastN (GetNGramOrder lm) (contextFactor ++ [word])) := by
  unfold ShiftOrPush
  by_cases hlt : contextFactor.length < GetNGramOrder lm
  · rw [if_pos hlt, lastN_of_length_le (by simp; omega)]
  · rw [if_neg hlt, orderMinusOne_of_pos lm h]
    have hN : contextFactor.length = GetNGramOrder lm := by omega
    cases contextFactor with
    | nil => simp at hN; omega
    | cons x mid =>
      have hm : GetNGramOrder lm - 1 = mid.length := by simp at hN; omega
      obtain ⟨z, hs⟩ := shiftLoop_spec mid [] x []
      simp only [List.length_nil, List.nil_append, List.append_nil] at hs
      rw [hm, hs]
      simp only [List.length_append, List.length_singleton, Nat.lt_add_one, if_true]
      have hl : lastN (GetNGramOrder lm) (x :: mid ++ [word]) = mid ++ [word] := by
        have := lastN_append_of_le [x] (mid ++ [word]) (k := GetNGramOrder lm) (by simp; omega)
        rw [List.singleton_append, ← List.cons_append] at this
        rw [this, lastN_of_length_le (by simp; omega)]
      rw [hl]
      congr 1
      rw [List.set_append_right _ _ (by omega)]
      simp

theorem pushWords_eq (lm : LanguageModel σ) (h : 1 ≤ GetNGramOrder lm) (ws : List Word) :
    ∀ (contextFactor : List Word), contextFactor.length ≤ GetNGramOrder lm →
      pushWords lm contextFactor ws =
        Except.ok (lastN (GetNGramOrder lm) (contextFactor ++ ws)) := by
  induction ws with
  | nil =>
    intro cf hlen
    simp [pushWords, lastN_of_length_le hlen]
  | cons w ws ih =>
    intro cf hlen
    simp only [pushWords, ShiftOrPush_eq lm h cf hlen w]
    rw [ih _ (by rw [lastN_length]; omega), lastN_append_lastN]
    simp


/-- C1 (amended): for every model order N ≥ 1 and every sequence of k words
pushed one at a time with `ShiftOrPush` onto an empty window, the pushes
succeed, the window afterwards has length min(N, k) and it is the last
min(N, k) pushed words in their original order. -/
theorem ShiftOrPush_window_invariant (lm : LanguageModel σ) (hN : 1 ≤ GetNGramOrder lm)
    (ws : List Word) :
    ∃ window, pushWords lm [] ws = Except.ok window ∧
      window.length = min (GetNGramOrder lm) ws.length ∧
      window = ws.drop (ws.length - min (GetNGramOrder lm) ws.length) := by
  refine ⟨lastN (GetNGramOrder lm) ws, ?_, lastN_length _ _, ?_⟩
  · simpa using pushWords_eq lm hN ws [] (Nat.zero_le _)
  · unfold lastN
    congr 1
    omega

/-- The window invariant at order 3 with four pushes: the window is the last
three words. -/
theorem ShiftOrPush_window_invariant_witness :
    1 ≤ GetNGramOrder (stubLM 3 id) ∧
      ∃ window, pushWords (stubLM 3 id) [] [terminal 5, terminal 6, terminal 7, terminal 8] =
          Except.ok window ∧
        window.length = min (GetNGramOrder (stubLM 3 id))
          [terminal 5, terminal 6, terminal 7, terminal 8].length ∧
        window = [terminal 5, terminal 6, terminal 7, terminal 8].drop
          ([terminal 5, terminal 6, terminal 7, terminal 8].length -
            min (GetNGramOrder (stubLM 3 id))
              [terminal 5, terminal 6, terminal 7, terminal 8].length) :=
  ⟨by decide, ShiftOrPush_window_invariant (stubLM 3 id) (by decide) _⟩

/-- C1 as stated fails at order 0: the first push on the empty window reads
`contextFactor[1]` of an empty vector, so no window of length min(0, 1) = 0
results. -/
theorem ShiftOrPush_order_zero_out_of_bounds :
    pushWords (stubLM 0 id) [] [terminal 5] = Except.error Fault.outOfBounds ∧
      ¬ ∃ window, pushWords (stubLM 0 id) [] [terminal 5] = Except.ok window ∧
        window.length = min (GetNGramOrder (stubLM 0 id)) [terminal 5].length := by
  have h : pushWords (stubLM 0 id) [] [terminal 5] = Except.error Fault.outOfBounds := by
    decide
  refine ⟨h, ?_⟩
  rintro ⟨window, hw, -⟩
  rw [h] at hw
  cases hw


/-! ## Terminal-only rules: `EvaluateChart` against `CalcScore` -/

theorem GetNGramOrder_withUntransformedScores (lm : LanguageModel σ) :
    GetNGramOrder (withUntransformedScores lm) = GetNGramOrder lm := rfl

theorem GetSentenceStartArray_withUntransformedScores (lm : LanguageModel σ) :
    GetSentenceStartArray (withUntransformedScores lm) = GetSentenceStartArray lm := rfl

theorem ShiftOrPush_withUntransformedScores (lm : LanguageModel σ) (cf : List Word) (w : Word) :
    ShiftOrPush (withUntransformedScores lm) cf w = ShiftOrPush lm cf w := rfl

theorem ShiftOrPush_order_zero (lm : LanguageModel σ) (h0 : GetNGramOrder lm = 0) (w : Word) :
    ShiftOrPush lm [] w = Except.error Fault.outOfBounds := by
  have hs : shiftLoop (2 ^ 64 - 1) 0 ([] : List Word) = Except.error Fault.outOfBounds := by
    decide
  unfold ShiftOrPush orderMinusOne
  rw [h0]
  simp only [List.length_nil, Nat.lt_irrefl, if_false, if_true, hs]

theorem ShiftOrPush_length_le (lm : LanguageModel σ) (cf : List Word) (w : Word)
    (cf1 : List Word) (hlen : cf.length ≤ GetNGramOrder lm)
    (h : ShiftOrPush lm cf w = Except.ok cf1) : cf1.length ≤ GetNGramOrder lm := by
  rcases Nat.eq_zero_or_pos (GetNGramOrder lm) with h0 | hpos
  · have hnil : cf = [] := List.length_eq_zero.mp (by omega)
    rw [hnil, ShiftOrPush_order_zero lm h0] at h
    cases h
  · rw [ShiftOrPush_eq lm hpos cf hlen w] at h
    cases h
    rw [lastN_length]
    omega

/-- One rule position holding a terminal: `EvaluateChart` and `CalcScore` (on
untransformed scores) fail alike or move to states that agree. -/
theorem body_agree_terminal (lm : LanguageModel σ) (hypo : ChartHypothesis σ) (p : Nat)
    (w : Word) (s : ChartScoreState σ) (c : CalcScoreState σ)
    (hw : w.isNonTerminal = false)
    (hv : chartView s = calcView c)
    (hlen : s.contextFactor.length ≤ GetNGramOrder lm)
    (hp : w = GetSentenceStartArray lm → p ≠ 0) :
    (∃ e, EvaluateChart.body lm hypo p w s = Except.error e ∧
        CalcScore.body (withUntransformedScores lm) p w c = Except.error e) ∨
      (∃ s1 c1, EvaluateChart.body lm hypo p w s = Except.ok s1 ∧
        CalcScore.body (withUntransformedScores lm) p w c = Except.ok c1 ∧
        chartView s1 = calcView c1 ∧ s1.contextFactor.length ≤ GetNGramOrder lm) := by
  simp only [chartView, calcView, Prod.mk.injEq] at hv
  obtain ⟨hcf, hst, hsc, hq⟩ := hv
  unfold EvaluateChart.body CalcScore.body
  simp only [hw, Bool.not_false, if_true, Bool.false_eq_true, if_false,
    ShiftOrPush_withUntransformedScores, GetNGramOrder_withUntransformedScores,
    GetSentenceStartArray_withUntransformedScores, ← hcf]
  cases hsp : ShiftOrPush lm s.contextFactor w with
  | error e => exact Or.inl ⟨e, rfl, rfl⟩
  | ok cf1 =>
    have hl := ShiftOrPush_length_le lm _ _ _ hlen hsp
    simp only [hl, if_true]
    by_cases hs : w = GetSentenceStartArray lm
    · simp only [hs, if_true, hp hs, if_false]
      exact Or.inl ⟨_, rfl, rfl⟩
    · simp only [hs, if_false]
      refine Or.inr ⟨_, _, rfl, rfl, ?_, hl⟩
      simp only [chartView, calcView, scoreInWindow, updateChartScore, withUntransformedScores,
        Prod.mk.injEq, ← hst, ← hq, ← hsc, true_and, and_true]
      split <;> simp <;> ring

theorem loop_agree_terminal (lm : LanguageModel σ) (hypo : ChartHypothesis σ)
    (rest : List Word) :
    ∀ (p : Nat) (s : ChartScoreState σ) (c : CalcScoreState σ),
      p ≠ 0 → (∀ w ∈ rest, w.isNonTerminal = false) →
      chartView s = calcView c → s.contextFactor.length ≤ GetNGramOrder lm →
      Except.map chartView (EvaluateChart.loop lm hypo p rest s) =
        Except.map calcView (CalcScore.loop (withUntransformedScores lm) p rest c) := by
  induction rest with
  | nil =>
    intro p s c _ _ hv _
    simp [EvaluateChart.loop, CalcScore.loop, Except.map, hv]
  | cons w rest ih =>
    intro p s c hp hterm hv hlen
    have hw := hterm w (List.mem_cons_self _ _)
    rcases body_agree_terminal lm hypo p w s c hw hv hlen (fun _ => hp) with
      ⟨e, h1, h2⟩ | ⟨s1, c1, h1, h2, hv1, hl1⟩
    · simp [EvaluateChart.loop, CalcScore.loop, h1, h2, Except.map]
    · simp only [EvaluateChart.loop, CalcScore.loop, h1, h2]
      exact ih (p + 1) s1 c1 (by omega) (fun x hx => hterm x (List.mem_cons_of_mem _ hx)) hv1 hl1

theorem first_agree_terminal (lm : LanguageModel σ) (hypo : ChartHypothesis σ) (w : Word)
    (hw : w.isNonTerminal = false) :
    (∃ e, EvaluateChart.body lm hypo 0 w (EvaluateChart.start lm) = Except.error e ∧
        CalcScore.body (withUntransformedScores lm) 0 w
          (CalcScore.start (withUntransformedScores lm) w) = Except.error e) ∨
      (∃ s1 c1, EvaluateChart.body lm hypo 0 w (EvaluateChart.start lm) = Except.ok s1 ∧
        CalcScore.body (withUntransformedScores lm) 0 w
          (CalcScore.start (withUntransformedScores lm) w) = Except.ok c1 ∧
        chartView s1 = calcView c1 ∧ s1.contextFactor.length ≤ GetNGramOrder lm) := by
  by_cases hs : w = GetSentenceStartArray lm
  · unfold EvaluateChart.body CalcScore.body
    simp only [hw, Bool.not_false, if_true, Bool.false_eq_true, if_false,
      ShiftOrPush_withUntransformedScores, GetNGramOrder_withUntransformedScores,
      GetSentenceStartArray_withUntransformedScores, EvaluateChart.start, CalcScore.start]
    cases hsp : ShiftOrPush lm [] w with
    | error e => exact Or.inl ⟨e, rfl, rfl⟩
    | ok cf1 =>
      have hl := ShiftOrPush_length_le lm _ _ _ (Nat.zero_le _) hsp
      simp only [hl, hs, if_true]
      refine Or.inr ⟨_, _, rfl, rfl, ?_, hl⟩
      simp [chartView, calcView, withUntransformedScores]
  · have hs1 : ¬ w = GetSentenceStartArray (withUntransformedScores lm) := hs
    refine body_agree_terminal lm hypo 0 w _ _ hw ?_ (Nat.zero_le _) (fun h => absurd h hs)
    simp only [chartView, calcView, EvaluateChart.start, CalcScore.start, if_neg hs1]
    simp [withUntransformedScores]

theorem EvaluateChart_view_eq_CalcScore (lm : LanguageModel σ) (hypo : ChartHypothesis σ)
    (hterm : ∀ w ∈ hypo.currTargetPhrase, w.isNonTerminal = false) :
    Except.map chartView (EvaluateChart lm hypo) =
      Except.map calcView (CalcScore (withUntransformedScores lm) hypo.currTargetPhrase) := by
  unfold EvaluateChart CalcScore
  cases hph : hypo.currTargetPhrase with
  | nil =>
    simp [EvaluateChart.loop, Except.map, chartView, calcView, EvaluateChart.start,
      withUntransformedScores]
  | cons w rest =>
    rw [hph] at hterm
    have hw := hterm w (List.mem_cons_self _ _)
    rcases first_agree_terminal lm hypo w hw with ⟨e, h1, h2⟩ | ⟨s1, c1, h1, h2, hv1, hl1⟩
    · simp [EvaluateChart.loop, CalcScore.loop, h1, h2, Except.map]
    · simp only [EvaluateChart.loop, CalcScore.loop, h1, h2]
      exact loop_agree_terminal lm hypo rest 1 s1 c1 (by omega)
        (fun x hx => hterm x (List.mem_cons_of_mem _ hx)) hv1 hl1

theorem Except_map_map {α β γ : Type} (f : β → γ) (g : α → β) (x : Except Fault α) :
    Except.map f (Except.map g x) = Except.map (fun a => f (g a)) x := by
  cases x <;> rfl

/-- A terminal that is not the sentence-start word is pushed and scored. -/
theorem body_terminal_ok (lm : LanguageModel σ) (hN : 1 ≤ GetNGramOrder lm)
    (hypo : ChartHypothesis σ) (p : Nat) (w : Word) (s : ChartScoreState σ)
    (hw : w.isNonTerminal = false) (hs : w ≠ GetSentenceStartArray lm)
    (hlen : s.contextFactor.length ≤ GetNGramOrder lm) :
    EvaluateChart.body lm hypo p w s =
      Except.ok (scoreInWindow lm s (lastN (GetNGramOrder lm) (s.contextFactor ++ [w]))) := by
  unfold EvaluateChart.body
  simp only [hw, Bool.not_false, if_true, ShiftOrPush_eq lm hN _ hlen, hs, if_false]

theorem scoreInWindow_contextFactor (lm : LanguageModel σ) (s : ChartScoreState σ)
    (cf : List Word) : (scoreInWindow lm s cf).contextFactor = cf := rfl

theorem loop_terminal_ok (lm : LanguageModel σ) (hN : 1 ≤ GetNGramOrder lm)
    (hypo : ChartHypothesis σ) (rest : List Word) :
    ∀ (p : Nat) (s : ChartScoreState σ),
      (∀ w ∈ rest, w.isNonTerminal = false) → (∀ w ∈ rest, w ≠ GetSentenceStartArray lm) →
      s.contextFactor.length ≤ GetNGramOrder lm →
      ∃ s1, EvaluateChart.loop lm hypo p rest s = Except.ok s1 := by
  induction rest with
  | nil => intro p s _ _ _; exact ⟨s, rfl⟩
  | cons w rest ih =>
    intro p s hterm hns hlen
    simp only [EvaluateChart.loop,
      body_terminal_ok lm hN hypo p w s (hterm w (List.mem_cons_self _ _))
        (hns w (List.mem_cons_self _ _)) hlen]
    apply ih
    · exact fun x hx => hterm x (List.mem_cons_of_mem _ hx)
    · exact fun x hx => hns x (List.mem_cons_of_mem _ hx)
    · rw [scoreInWindow_contextFactor, lastN_length]
      omega

theorem EvaluateChart_terminal_ok (lm : LanguageModel σ) (hN : 1 ≤ GetNGramOrder lm)
    (hypo : ChartHypothesis σ)
    (hterm : ∀ w ∈ hypo.currTargetPhrase, w.isNonTerminal = false)
    (hns : ∀ w ∈ hypo.currTargetPhrase.tail, w ≠ GetSentenceStartArray lm) :
    ∃ s, EvaluateChart lm hypo = Except.ok s := by
  unfold EvaluateChart
  cases hph : hypo.currTargetPhrase with
  | nil => exact ⟨_, rfl⟩
  | cons w rest =>
    rw [hph] at hterm hns
    have hw := hterm w (List.mem_cons_self _ _)
    have hrest : ∀ (s1 : ChartScoreState σ), s1.contextFactor.length ≤ GetNGramOrder lm →
        ∃ s2, EvaluateChart.loop lm hypo 1 rest s1 = Except.ok s2 := fun s1 hl =>
      loop_terminal_ok lm hN hypo rest 1 s1
        (fun x hx => hterm x (List.mem_cons_of_mem _ hx)) (fun x hx => hns x (by simpa using hx)) hl
    have h0 : (EvaluateChart.start lm).contextFactor.length ≤ GetNGramOrder lm := by
      simp [EvaluateChart.start]
    by_cases hs : w = GetSentenceStartArray lm
    · simp only [EvaluateChart.loop, EvaluateChart.body, hw, Bool.not_false, if_true,
        ShiftOrPush_eq lm hN _ h0, hs]
      apply hrest
      simp only [lastN_length]
      omega
    · simp only [EvaluateChart.loop, body_terminal_ok lm hN hypo 0 w _ hw hs h0]
      apply hrest
      rw [scoreInWindow_contextFactor, lastN_length]
      omega

/-- C2 (amended): for every rule whose target side consists of terminal words
only, the score `EvaluateChart` assigns (prefix score + finalized score) is the
`fullScore` that `CalcScore` returns for the same phrase when every backend
score is passed through `UntransformLMScore`, as `EvaluateChart` does; the two
also fail alike, and for an order N ≥ 1 and a sentence-start word at most at
position 0 `EvaluateChart` returns. -/
theorem EvaluateChart_terminals_eq_CalcScore (lm : LanguageModel σ) (hypo : ChartHypothesis σ)
    (hterm : ∀ w ∈ hypo.currTargetPhrase, w.isNonTerminal = false) :
    Except.map assignedScore (EvaluateChart lm hypo) =
        Except.map (fun c => c.fullScore)
          (CalcScore (withUntransformedScores lm) hypo.currTargetPhrase) ∧
      (1 ≤ GetNGramOrder lm →
        (∀ w ∈ hypo.currTargetPhrase.tail, w ≠ GetSentenceStartArray lm) →
        ∃ s, EvaluateChart lm hypo = Except.ok s) := by
  refine ⟨?_, fun hN hns => EvaluateChart_terminal_ok lm hN hypo hterm hns⟩
  have h := congrArg (Except.map (fun v : List Word × σ × Score × List (List Word × σ) => v.2.2.1))
    (EvaluateChart_view_eq_CalcScore lm hypo hterm)
  rw [Except_map_map, Except_map_map] at h
  exact h

/-- The rule `<s> 5 6` at order 2 with scores divided by ln 10. -/
theorem EvaluateChart_terminals_eq_CalcScore_witness :
    (∀ w ∈ [terminal 0, terminal 5, terminal 6], w.isNonTerminal = false) ∧
      Except.map assignedScore
          (EvaluateChart (stubLM 2 divideByLn10)
            { currTargetPhrase := [terminal 0, terminal 5, terminal 6],
              nonTermIndexMap := [], prevHypos := [] }) =
        Except.map (fun c => c.fullScore)
          (CalcScore (withUntransformedScores (stubLM 2 divideByLn10))
            [terminal 0, terminal 5, terminal 6]) :=
  ⟨by decide,
    (EvaluateChart_terminals_eq_CalcScore (stubLM 2 divideByLn10)
      { currTargetPhrase := [terminal 0, terminal 5, terminal 6],
        nonTermIndexMap := [], prevHypos := [] } (by decide)).1⟩

/-- C2 as stated fails: for the one-word rule `5`, `EvaluateChart` assigns the
backend score 5/3 divided by ln 10, while `CalcScore` returns 5/3 itself. -/
theorem EvaluateChart_untransforms_CalcScore_does_not :
    Except.map assignedScore
        (EvaluateChart (stubLM 2 divideByLn10)
          { currTargetPhrase := [terminal 5], nonTermIndexMap := [], prevHypos := [] }) =
      Except.ok (divideByLn10 (5 / 3)) ∧
    Except.map (fun c => c.fullScore) (CalcScore (stubLM 2 divideByLn10) [terminal 5]) =
      Except.ok (5 / 3) ∧
    Except.map assignedScore
        (EvaluateChart (stubLM 2 divideByLn10)
          { currTargetPhrase := [terminal 5], nonTermIndexMap := [], prevHypos := [] }) ≠
      Except.map (fun c => c.fullScore) (CalcScore (stubLM 2 divideByLn10) [terminal 5]) := by
  refine ⟨?_, ?_, ?_⟩ <;> decide!


/-! ## Scenario: `[<s>, A, B]` at order 2 -/

/-- C4 (amended): for an order-2 model and every phrase `[<s>, A, B]` with A
and B terminal words other than the sentence-start word, `CalcScore` returns
`fullScore = f(A|<s>) + f(B|A)` and also `ngramScore = f(A|<s>) + f(B|A)`:
both windows `[<s>, A]` and `[A, B]` have the full length 2. The first score is
asked in the begin-of-sentence state, the second in the state the first call
leaves. -/
theorem CalcScore_bigram_scenario (lm : LanguageModel σ) (A B : Word)
    (hN : GetNGramOrder lm = 2)
    (hA : A.isNonTerminal = false) (hB : B.isNonTerminal = false)
    (hAs : A ≠ GetSentenceStartArray lm) (hBs : B ≠ GetSentenceStartArray lm) :
    ∃ r, CalcScore lm [GetSentenceStartArray lm, A, B] = Except.ok r ∧
      r.fullScore =
        (lm.m_implementation.GetValueGivenState [GetSentenceStartArray lm, A]
            lm.m_implementation.beginSentenceState).1 +
          (lm.m_implementation.GetValueGivenState [A, B]
            (lm.m_implementation.GetValueGivenState [GetSentenceStartArray lm, A]
              lm.m_implementation.beginSentenceState).2).1 ∧
      r.ngramScore = r.fullScore := by
  have hs : (GetSentenceStartArray lm).isNonTerminal = false := rfl
  have h1 : ShiftOrPush lm [] (GetSentenceStartArray lm) =
      Except.ok [GetSentenceStartArray lm] := by
    simp [ShiftOrPush, hN]
  have h2 : ShiftOrPush lm [GetSentenceStartArray lm] A =
      Except.ok [GetSentenceStartArray lm, A] := by
    simp [ShiftOrPush, hN]
  have h3 : ShiftOrPush lm [GetSentenceStartArray lm, A] B = Except.ok [A, B] := by
    have := ShiftOrPush_eq lm (by omega) [GetSentenceStartArray lm, A] (by simp [hN]) B
    rw [this, hN]
    rfl
  simp [CalcScore, CalcScore.loop, CalcScore.body, CalcScore.start, hs, hA, hB, h1, h2, h3,
    hAs, hBs, hN]

/-- The scenario with the window-only test backend, `A = 5`, `B = 6`. -/
theorem CalcScore_bigram_scenario_witness :
    GetNGramOrder (stubLM 2 id) = 2 ∧
      ∃ r, CalcScore (stubLM 2 id) [GetSentenceStartArray (stubLM 2 id), terminal 5, terminal 6] =
          Except.ok r ∧
        r.fullScore =
          ((stubLM 2 id).m_implementation.GetValueGivenState
              [GetSentenceStartArray (stubLM 2 id), terminal 5]
              (stubLM 2 id).m_implementation.beginSentenceState).1 +
            ((stubLM 2 id).m_implementation.GetValueGivenState [terminal 5, terminal 6]
              ((stubLM 2 id).m_implementation.GetValueGivenState
                [GetSentenceStartArray (stubLM 2 id), terminal 5]
                (stubLM 2 id).m_implementation.beginSentenceState).2).1 ∧
        r.ngramScore = r.fullScore :=
  ⟨by decide,
    CalcScore_bigram_scenario (stubLM 2 id) (terminal 5) (terminal 6) (by decide) (by decide)
      (by decide) (by decide) (by decide)⟩

/-- C4 as stated fails: with `f(5|<s>) = 5/3` and `f(6|5) = 56/3` the returned
`ngramScore` is `61/3`, not `f(6|5) = 56/3`. -/
theorem CalcScore_bigram_ngramScore_counts_both :
    Except.map (fun r => r.ngramScore)
        (CalcScore (stubLM 2 id) [terminal 0, terminal 5, terminal 6]) = Except.ok (61 / 3) ∧
      ((stubLM 2 id).m_implementation.GetValueGivenState [terminal 5, terminal 6] ()).1 = 56 / 3 ∧
      Except.map (fun r => r.ngramScore)
        (CalcScore (stubLM 2 id) [terminal 0, terminal 5, terminal 6]) ≠
        Except.ok ((stubLM 2 id).m_implementation.GetValueGivenState
          [terminal 5, terminal 6] ()).1 := by
  refine ⟨?_, ?_, ?_⟩ <;> decide!

/-! ## The classification rule of `updateChartScore` -/

/-- C7: for every score and every counter value `wordPos`, `updateChartScore`
adds the score to the finalized score when `wordPos ≥ N` and to the prefix
score otherwise, and leaves the other accumulator as it was; so for a score
other than 0 the finalized score changes exactly when `wordPos ≥ N` and the
prefix score changes exactly when `wordPos < N`. -/
theorem updateChartScore_classification (lm : LanguageModel σ)
    (prefixScore finalizedScore score : Score) (wordPos : Nat) :
    updateChartScore lm prefixScore finalizedScore score wordPos =
        (if GetNGramOrder lm ≤ wordPos then (prefixScore, finalizedScore + score)
          else (prefixScore + score, finalizedScore)) ∧
      (score ≠ 0 →
        (((updateChartScore lm prefixScore finalizedScore score wordPos).2 ≠ finalizedScore ↔
            GetNGramOrder lm ≤ wordPos) ∧
          ((updateChartScore lm prefixScore finalizedScore score wordPos).1 ≠ prefixScore ↔
            wordPos < GetNGramOrder lm))) := by
  unfold updateChartScore
  by_cases h : wordPos < GetNGramOrder lm
  · have h1 : ¬ GetNGramOrder lm ≤ wordPos := by omega
    simp [h, h1]
  · have h1 : GetNGramOrder lm ≤ wordPos := by omega
    simp [h, h1]

/-- The classification at order 2 for the counter values 1 and 2 and score 3. -/
theorem updateChartScore_classification_witness :
    (3 : Score) ≠ 0 ∧
      ((updateChartScore (stubLM 2 id) 1 2 3 2).2 ≠ 2 ↔ GetNGramOrder (stubLM 2 id) ≤ 2) ∧
      ((updateChartScore (stubLM 2 id) 1 2 3 1).1 ≠ 1 ↔ 1 < GetNGramOrder (stubLM 2 id)) :=
  ⟨by norm_num,
    ((updateChartScore_classification (stubLM 2 id) 1 2 3 2).2 (by norm_num)).1,
    ((updateChartScore_classification (stubLM 2 id) 1 2 3 1).2 (by norm_num)).2⟩

/-! ## Phrases without a scored word -/

theorem CalcScore_loop_nonterminals (lm : LanguageModel σ) (phrase : List Word) :
    ∀ (p : Nat) (c : CalcScoreState σ), (∀ w ∈ phrase, w.isNonTerminal = true) →
      c.contextFactor = [] → CalcScore.loop lm p phrase c = Except.ok c := by
  induction phrase with
  | nil => intro p c _ _; rfl
  | cons w rest ih =>
    intro p c h hc
    have hw := h w (List.mem_cons_self _ _)
    simp only [CalcScore.loop, CalcScore.body, hw, hc, if_true, List.isEmpty_nil, Bool.not_true,
      Bool.false_eq_true, if_false]
    exact ih (p + 1) c (fun x hx => h x (List.mem_cons_of_mem _ hx)) hc

/-- C9: `CalcScore` returns `fullScore = 0` and `ngramScore = 0` for the empty
phrase and for every phrase that consists only of non-terminal tokens, and it
makes no `GetValueGivenState` call. -/
theorem CalcScore_nonterminals_zero (lm : LanguageModel σ) (phrase : Phrase)
    (h : ∀ w ∈ phrase, w.isNonTerminal = true) :
    ∃ r, CalcScore lm phrase = Except.ok r ∧ r.fullScore = 0 ∧ r.ngramScore = 0 ∧
      r.queries = [] := by
  cases phrase with
  | nil => exact ⟨_, rfl, rfl, rfl, rfl⟩
  | cons w rest =>
    refine ⟨CalcScore.start lm w, ?_, rfl, rfl, rfl⟩
    unfold CalcScore
    exact CalcScore_loop_nonterminals lm (w :: rest) 0 _ h rfl

/-- The phrase of two non-terminals, with the counting backend. -/
theorem CalcScore_nonterminals_zero_witness :
    (∀ w ∈ [nonTerminal 7, nonTerminal 8], w.isNonTerminal = true) ∧
      ∃ r, CalcScore (countingLM 3 id) [nonTerminal 7, nonTerminal 8] = Except.ok r ∧
        r.fullScore = 0 ∧ r.ngramScore = 0 ∧ r.queries = [] :=
  ⟨by decide, CalcScore_nonterminals_zero (countingLM 3 id) [nonTerminal 7, nonTerminal 8]
    (by decide)⟩

/-! ## Loops over a child's prefix and suffix -/

theorem forWords_eq_runWords {α : Type} (phrase : Phrase) (body : α → Word → Except Fault α)
    (count : Nat) :
    ∀ (i : Nat) (s : α), i + count ≤ phrase.length →
      forWords phrase body count i s = runWords body ((phrase.drop i).take count) s := by
  induction count with
  | zero => intro i s _; simp [forWords, runWords]
  | succ n ih =>
    intro i s h
    have hi : i < phrase.length := by omega
    rw [List.drop_eq_getElem_cons hi]
    simp only [forWords, List.getElem?_eq_getElem hi, List.take_succ_cons, runWords]
    cases body s phrase[i] with
    | error e => rfl
    | ok s1 => exact ih (i + 1) s1 (by omega)

theorem forWords_zero {α : Type} (phrase : Phrase) (body : α → Word → Except Fault α)
    (i : Nat) (s : α) : forWords phrase body 0 i s = Except.ok s := rfl

theorem drop_eq_lastN {α : Type} (l : List α) (k : Nat) :
    l.drop (l.length - k) = lastN k l := rfl

theorem lastN_min_length {α : Type} (k : Nat) (l : List α) :
    lastN (min k l.length) l = lastN k l := by
  unfold lastN
  congr 1
  omega

theorem runWords_pushCounted (lm : LanguageModel σ) (hN : 1 ≤ GetNGramOrder lm)
    (ws : List Word) :
    ∀ (s : ChartScoreState σ), s.contextFactor.length ≤ GetNGramOrder lm →
      runWords (pushCounted lm) ws s =
        Except.ok
          { s with
            contextFactor := lastN (GetNGramOrder lm) (s.contextFactor ++ ws)
            wordPos := s.wordPos + ws.length } := by
  induction ws with
  | nil =>
    intro s hlen
    simp [runWords, lastN_of_length_le hlen]
  | cons w ws ih =>
    intro s hlen
    simp only [runWords, pushCounted, ShiftOrPush_eq lm hN _ hlen]
    rw [ih _ (by simp only [lastN_length]; omega)]
    simp only [lastN_append_lastN, List.append_assoc, List.singleton_append, List.length_cons]
    congr 2
    omega

theorem runWords_pushUncounted (lm : LanguageModel σ) (hN : 1 ≤ GetNGramOrder lm)
    (ws : List Word) :
    ∀ (s : ChartScoreState σ), s.contextFactor.length ≤ GetNGramOrder lm →
      runWords (pushUncounted lm) ws s =
        Except.ok
          { s with contextFactor := lastN (GetNGramOrder lm) (s.contextFactor ++ ws) } := by
  induction ws with
  | nil =>
    intro s hlen
    simp [runWords, lastN_of_length_le hlen]
  | cons w ws ih =>
    intro s hlen
    simp only [runWords, pushUncounted, ShiftOrPush_eq lm hN _ hlen]
    rw [ih _ (by simp only [lastN_length]; omega)]
    simp only [lastN_append_lastN, List.append_assoc, List.singleton_append]

/-- The rule-initial non-terminal in closed form: the child's scores and state
are copied and the last `N - 1` words of its suffix become the window. -/
theorem leadingNonTerm_eq (lm : LanguageModel σ) (prevHypo : PrevHypo σ)
    (s : ChartScoreState σ) (hs : s.contextFactor = []) :
    EvaluateChart.leadingNonTerm lm prevHypo s =
      Except.ok
        { s with
          prefixScore := prevHypo.ffState.prefixScore
          finalizedScore := prevHypo.lmScore - prevHypo.ffState.prefixScore
          lmState := prevHypo.ffState.rightContext
          contextFactor := lastN (GetNGramOrder lm - 1) prevHypo.GetSuffix
          wordPos := s.wordPos + min (GetNGramOrder lm - 1) prevHypo.GetSuffix.length } := by
  unfold EvaluateChart.leadingNonTerm
  rcases Nat.eq_zero_or_pos (GetNGramOrder lm) with h0 | hpos
  · have hsp : (if ((prevHypo.GetSuffix.length : Int) - ((GetNGramOrder lm : Int) - 1)) < 0
        then 0 else ((prevHypo.GetSuffix.length : Int) - ((GetNGramOrder lm : Int) - 1)).toNat) =
        prevHypo.GetSuffix.length + 1 := by
      rw [h0]
      split <;> omega
    simp only [hsp, Nat.sub_self_add, forWords_zero]
    simp [h0, lastN_zero, hs]
  · have hsp : (if ((prevHypo.GetSuffix.length : Int) - ((GetNGramOrder lm : Int) - 1)) < 0
        then 0 else ((prevHypo.GetSuffix.length : Int) - ((GetNGramOrder lm : Int) - 1)).toNat) =
        prevHypo.GetSuffix.length - (GetNGramOrder lm - 1) := by
      split <;> omega
    simp only [hsp]
    rw [forWords_eq_runWords _ _ _ _ _ (by omega),
      runWords_pushCounted lm hpos _ _ (by simp [hs])]
    have htake : List.take (prevHypo.GetSuffix.length -
          (prevHypo.GetSuffix.length - (GetNGramOrder lm - 1)))
        (List.drop (prevHypo.GetSuffix.length - (GetNGramOrder lm - 1)) prevHypo.GetSuffix) =
        lastN (GetNGramOrder lm - 1) prevHypo.GetSuffix := by
      rw [drop_eq_lastN]
      apply List.take_of_length_le
      rw [lastN_length]
      omega
    simp only [htake, hs, List.nil_append, lastN_length]
    rw [lastN_of_length_le (by rw [lastN_length]; omega)]

/-- C10: for every rule whose position 0 is a non-terminal slot, after
`EvaluateChart` processes that slot the prefix score is the child's prefix
score, the finalized score is the child's stored score minus the child's
prefix score, the right-edge state is the child's right-edge state, the window
holds the last min(N-1, |suffix|) words of the child's suffix in order, and no
backend score was requested; for a rule that is a single non-terminal the
assigned score is the child's stored score. -/
theorem EvaluateChart_leading_nonterminal (lm : LanguageModel σ) (hypo : ChartHypothesis σ)
    (word : Word) (rest : List Word) (nonTermIndex : Nat) (prevHypo : PrevHypo σ)
    (hrule : hypo.currTargetPhrase = word :: rest)
    (hword : word.isNonTerminal = true)
    (hmap : hypo.nonTermIndexMap[0]? = some nonTermIndex)
    (hchild : hypo.prevHypos[nonTermIndex]? = some prevHypo) :
    (∃ s1, EvaluateChart.body lm hypo 0 word (EvaluateChart.start lm) = Except.ok s1 ∧
        s1.prefixScore = prevHypo.ffState.prefixScore ∧
        s1.finalizedScore = prevHypo.lmScore - prevHypo.ffState.prefixScore ∧
        s1.lmState = prevHypo.ffState.rightContext ∧
        s1.contextFactor =
          prevHypo.GetSuffix.drop
            (prevHypo.GetSuffix.length - min (GetNGramOrder lm - 1) prevHypo.GetSuffix.length) ∧
        s1.queries = []) ∧
      (rest = [] →
        ∃ s, EvaluateChart lm hypo = Except.ok s ∧ assignedScore s = prevHypo.lmScore ∧
          s.queries = []) := by
  have hbody : EvaluateChart.body lm hypo 0 word (EvaluateChart.start lm) =
      EvaluateChart.leadingNonTerm lm prevHypo (EvaluateChart.start lm) := by
    simp [EvaluateChart.body, hword, hmap, hchild]
  rw [leadingNonTerm_eq lm prevHypo _ rfl] at hbody
  refine ⟨⟨_, hbody, rfl, rfl, rfl, ?_, rfl⟩, ?_⟩
  · exact (lastN_min_length _ _).symm
  · intro hrest
    have hE : EvaluateChart lm hypo =
        EvaluateChart.body lm hypo 0 word (EvaluateChart.start lm) := by
      unfold EvaluateChart
      rw [hrule, hrest]
      simp only [EvaluateChart.loop]
      cases EvaluateChart.body lm hypo 0 word (EvaluateChart.start lm) <;> rfl
    rw [hE, hbody]
    exact ⟨_, rfl, by simp [assignedScore], rfl⟩

/-- The rule `[X] 7` at order 3 over a child with suffix `5 6`, with the
counting backend. -/
theorem EvaluateChart_leading_nonterminal_witness :
    ∃ s1, EvaluateChart.body (countingLM 3 id) exampleLeadingRule 0 (nonTerminal 9)
          (EvaluateChart.start (countingLM 3 id)) = Except.ok s1 ∧
        s1.prefixScore = exampleChild.ffState.prefixScore ∧
        s1.finalizedScore = exampleChild.lmScore - exampleChild.ffState.prefixScore ∧
        s1.lmState = exampleChild.ffState.rightContext ∧
        s1.contextFactor =
          exampleChild.GetSuffix.drop
            (exampleChild.GetSuffix.length -
              min (GetNGramOrder (countingLM 3 id) - 1) exampleChild.GetSuffix.length) ∧
        s1.queries = [] :=
  (EvaluateChart_leading_nonterminal (countingLM 3 id) exampleLeadingRule
    (nonTerminal 9) [terminal 7] 0 exampleChild rfl rfl rfl rfl).1

/-! ## The linear scorer step by step -/

theorem CalcScore_loop_append (lm : LanguageModel σ) (a b : List Word) :
    ∀ (p : Nat) (c : CalcScoreState σ),
      CalcScore.loop lm p (a ++ b) c =
        match CalcScore.loop lm p a c with
        | Except.error e => Except.error e
        | Except.ok c1 => CalcScore.loop lm (p + a.length) b c1 := by
  induction a with
  | nil => intro p c; simp [CalcScore.loop]
  | cons x a ih =>
    intro p c
    simp only [List.cons_append, CalcScore.loop, List.length_cons]
    cases CalcScore.body lm p x c with
    | error e => rfl
    | ok c1 =>
      rw [show p + (a.length + 1) = p + 1 + a.length by omega]
      exact ih (p + 1) c1

theorem ShiftOrPush_ne_nil (lm : LanguageModel σ) (cf : List Word) (w : Word) (cf1 : List Word)
    (h : ShiftOrPush lm cf w = Except.ok cf1) : cf1 ≠ [] := by
  unfold ShiftOrPush at h
  by_cases h1 : cf.length < GetNGramOrder lm
  · rw [if_pos h1] at h
    cases h
    simp
  · rw [if_neg h1] at h
    cases hs : shiftLoop (orderMinusOne lm) 0 cf with
    | error e => rw [hs] at h; cases h
    | ok shifted =>
      rw [hs] at h
      by_cases h2 : orderMinusOne lm < shifted.length
      · simp only [if_pos h2] at h
        cases h
        intro hnil
        have := congrArg List.length hnil
        rw [List.length_set, List.length_nil] at this
        omega
      · simp only [if_neg h2] at h
        cases h

theorem CalcScore_body_terminal_ne_nil (lm : LanguageModel σ) (p : Nat) (w : Word)
    (c c1 : CalcScoreState σ) (hw : w.isNonTerminal = false)
    (h : CalcScore.body lm p w c = Except.ok c1) : c1.contextFactor ≠ [] := by
  unfold CalcScore.body at h
  simp only [hw, Bool.false_eq_true, if_false] at h
  cases hsp : ShiftOrPush lm c.contextFactor w with
  | error e => rw [hsp] at h; cases h
  | ok cf1 =>
    rw [hsp] at h
    have hne := ShiftOrPush_ne_nil lm _ _ _ hsp
    by_cases h1 : cf1.length ≤ GetNGramOrder lm
    · simp only [if_pos h1] at h
      by_cases h2 : w = GetSentenceStartArray lm
      · simp only [if_pos h2] at h
        by_cases h3 : p = 0
        · simp only [if_pos h3] at h
          cases h
          exact hne
        · simp only [if_neg h3] at h
          cases h
      · simp only [if_neg h2] at h
        cases h
        exact hne
    · simp only [if_neg h1] at h
      cases h

theorem ShiftOrPush_nil (lm : LanguageModel σ) (w : Word) (cf1 : List Word)
    (h : ShiftOrPush lm [] w = Except.ok cf1) : cf1 = [w] ∧ 1 ≤ GetNGramOrder lm := by
  rcases Nat.eq_zero_or_pos (GetNGramOrder lm) with h0 | hpos
  · rw [ShiftOrPush_order_zero lm h0] at h
    cases h
  · rw [ShiftOrPush_eq lm hpos [] (Nat.zero_le _) w] at h
    cases h
    exact ⟨lastN_of_length_le (by simpa using hpos), hpos⟩

/-- After any step that returns, an empty window comes with the null-context
state, provided that held before the step. -/
theorem CalcScore_body_reset (lm : LanguageModel σ) (p : Nat) (w : Word)
    (c c1 : CalcScoreState σ)
    (hJ : c.contextFactor = [] → c.state = lm.m_implementation.nullContextState)
    (h : CalcScore.body lm p w c = Except.ok c1) :
    c1.contextFactor = [] → c1.state = lm.m_implementation.nullContextState := by
  cases hw : w.isNonTerminal with
  | false => exact fun hnil => absurd hnil (CalcScore_body_terminal_ne_nil lm p w c c1 hw h)
  | true =>
    unfold CalcScore.body at h
    simp only [hw, if_true] at h
    split at h
    · cases h
      intro _
      rfl
    · cases h
      exact hJ

theorem CalcScore_loop_reset (lm : LanguageModel σ) (l : List Word) :
    ∀ (p : Nat) (c c1 : CalcScoreState σ),
      (c.contextFactor = [] → c.state = lm.m_implementation.nullContextState) →
      CalcScore.loop lm p l c = Except.ok c1 →
      (c1.contextFactor = [] → c1.state = lm.m_implementation.nullContextState) := by
  induction l with
  | nil =>
    intro p c c1 hJ h
    simp only [CalcScore.loop] at h
    cases h
    exact hJ
  | cons x l ih =>
    intro p c c1 hJ h
    simp only [CalcScore.loop] at h
    cases hb : CalcScore.body lm p x c with
    | error e => rw [hb] at h; cases h
    | ok c2 =>
      rw [hb] at h
      exact ih (p + 1) c2 c1 (CalcScore_body_reset lm p x c c2 hJ hb) h

theorem CalcScore_body_queries (lm : LanguageModel σ) (p : Nat) (w : Word)
    (c c1 : CalcScoreState σ) (h : CalcScore.body lm p w c = Except.ok c1) :
    ∃ extra, c1.queries = c.queries ++ extra := by
  unfold CalcScore.body at h
  split at h
  · split at h <;> cases h <;> exact ⟨[], by simp⟩
  · split at h
    · cases h
    · split at h
      · split at h
        · split at h
          · cases h
            exact ⟨[], by simp⟩
          · cases h
        · cases h
          exact ⟨_, rfl⟩
      · cases h

theorem CalcScore_loop_queries (lm : LanguageModel σ) (l : List Word) :
    ∀ (p : Nat) (c c1 : CalcScoreState σ), CalcScore.loop lm p l c = Except.ok c1 →
      ∃ extra, c1.queries = c.queries ++ extra := by
  induction l with
  | nil =>
    intro p c c1 h
    simp only [CalcScore.loop] at h
    cases h
    exact ⟨[], by simp⟩
  | cons x l ih =>
    intro p c c1 h
    simp only [CalcScore.loop] at h
    cases hb : CalcScore.body lm p x c with
    | error e => rw [hb] at h; cases h
    | ok c2 =>
      rw [hb] at h
      obtain ⟨e1, h1⟩ := CalcScore_body_queries lm p x c c2 hb
      obtain ⟨e2, h2⟩ := ih (p + 1) c2 c1 h
      exact ⟨e1 ++ e2, by rw [h2, h1, List.append_assoc]⟩

/-- A non-terminal token leaves an empty window and the null-context state. -/
theorem CalcScore_body_nonterminal (lm : LanguageModel σ) (p : Nat) (nt : Word)
    (c : CalcScoreState σ) (hnt : nt.isNonTerminal = true)
    (hJ : c.contextFactor = [] → c.state = lm.m_implementation.nullContextState) :
    ∃ c1, CalcScore.body lm p nt c = Except.ok c1 ∧ c1.contextFactor = [] ∧
      c1.state = lm.m_implementation.nullContextState ∧ c1.queries = c.queries ∧
      c1.fullScore = c.fullScore ∧ c1.ngramScore = c.ngramScore := by
  unfold CalcScore.body
  simp only [hnt, if_true]
  by_cases he : c.contextFactor = []
  · simp [he, hJ he]
  · have : c.contextFactor.isEmpty = false := by
      cases hc : c.contextFactor with
      | nil => exact absurd hc he
      | cons _ _ => rfl
    simp [this]

/-- The state `CalcScore` is in once the phrase `l` has been walked, if the
walk returns. -/
theorem CalcScore_start_reset (lm : LanguageModel σ) (l : List Word) (c : CalcScoreState σ)
    (h : CalcScore lm l = Except.ok c) :
    c.contextFactor = [] → c.state = lm.m_implementation.nullContextState := by
  cases l with
  | nil =>
    simp only [CalcScore] at h
    cases h
    exact fun _ => rfl
  | cons x l =>
    simp only [CalcScore, CalcScore.loop] at h
    cases hb : CalcScore.body lm 0 x (CalcScore.start lm x) with
    | error e => rw [hb] at h; cases h
    | ok c2 =>
      rw [hb] at h
      refine CalcScore_loop_reset lm l 1 c2 c ?_ h
      by_cases hx : x = GetSentenceStartArray lm
      · have hxt : x.isNonTerminal = false := by rw [hx]; rfl
        exact fun hnil => absurd hnil (CalcScore_body_terminal_ne_nil lm 0 x _ c2 hxt hb)
      · refine CalcScore_body_reset lm 0 x _ c2 ?_ hb
        intro _
        simp [CalcScore.start, hx]

theorem CalcScore_append (lm : LanguageModel σ) (x : Word) (a b : List Word) :
    CalcScore lm (x :: a ++ b) =
      match CalcScore lm (x :: a) with
      | Except.error e => Except.error e
      | Except.ok c => CalcScore.loop lm (a.length + 1) b c := by
  have h := CalcScore_loop_append lm (x :: a) b 0 (CalcScore.start lm x)
  simp only [List.length_cons, Nat.zero_add] at h
  exact h

theorem CalcScore_snoc_nonterminal (lm : LanguageModel σ) (pre : List Word) (nt : Word)
    (c : CalcScoreState σ) (hnt : nt.isNonTerminal = true)
    (h : CalcScore lm (pre ++ [nt]) = Except.ok c) :
    c.contextFactor = [] ∧ c.state = lm.m_implementation.nullContextState := by
  cases pre with
  | nil =>
    have hne : nt ≠ GetSentenceStartArray lm := by
      intro he
      rw [he] at hnt
      cases hnt
    obtain ⟨c1, h1, h2, h3, -⟩ := CalcScore_body_nonterminal lm 0 nt (CalcScore.start lm nt) hnt
      (fun _ => by simp [CalcScore.start, hne])
    simp only [List.nil_append, CalcScore, CalcScore.loop, h1] at h
    cases h
    exact ⟨h2, h3⟩
  | cons x pre =>
    rw [CalcScore_append lm x pre [nt]] at h
    cases h0 : CalcScore lm (x :: pre) with
    | error e => rw [h0] at h; cases h
    | ok c0 =>
      rw [h0] at h
      obtain ⟨c1, h1, h2, h3, -⟩ := CalcScore_body_nonterminal lm (pre.length + 1) nt c0 hnt
        (CalcScore_start_reset lm _ c0 h0)
      simp only [CalcScore.loop, h1] at h
      cases h
      exact ⟨h2, h3⟩

/-- C8: for every phrase scored by `CalcScore` and every terminal word `w`
that immediately follows a non-terminal token, the walk reaches `w` with an
empty window and the null-context state, and the step for `w` makes exactly
one call, `GetValueGivenState([w], null-context state)`, whose score it adds:
neither the window nor the state of that call depends on a word before the
non-terminal. -/
theorem CalcScore_after_nonterminal (lm : LanguageModel σ) (pre post : List Word)
    (nt w : Word) (r : CalcScoreState σ)
    (hnt : nt.isNonTerminal = true) (hw : w.isNonTerminal = false)
    (hrun : CalcScore lm (pre ++ nt :: w :: post) = Except.ok r) :
    ∃ c c1, CalcScore lm (pre ++ [nt]) = Except.ok c ∧
      c.contextFactor = [] ∧ c.state = lm.m_implementation.nullContextState ∧
      CalcScore.body lm (pre.length + 1) w c = Except.ok c1 ∧
      c1.queries = c.queries ++ [([w], lm.m_implementation.nullContextState)] ∧
      c1.fullScore = c.fullScore +
        (lm.m_implementation.GetValueGivenState [w]
          lm.m_implementation.nullContextState).1 ∧
      CalcScore.loop lm (pre.length + 2) post c1 = Except.ok r ∧
      ∃ extra, r.queries =
        c.queries ++ ([w], lm.m_implementation.nullContextState) :: extra := by
  -- split the walk after the non-terminal
  have hsplit : CalcScore lm (pre ++ nt :: w :: post) =
      match CalcScore lm (pre ++ [nt]) with
      | Except.error e => Except.error e
      | Except.ok c => CalcScore.loop lm (pre.length + 1) (w :: post) c := by
    cases pre with
    | nil => exact CalcScore_append lm nt [] (w :: post)
    | cons x pre =>
      have h := CalcScore_append lm x (pre ++ [nt]) (w :: post)
      simp only [List.append_assoc, List.singleton_append, List.length_append,
        List.length_singleton, List.cons_append] at h
      simpa using h
  rw [hsplit] at hrun
  cases hc : CalcScore lm (pre ++ [nt]) with
  | error e => rw [hc] at hrun; cases hrun
  | ok c =>
    rw [hc] at hrun
    obtain ⟨hcf, hst⟩ := CalcScore_snoc_nonterminal lm pre nt c hnt hc
    simp only [CalcScore.loop] at hrun
    cases hb : CalcScore.body lm (pre.length + 1) w c with
    | error e => rw [hb] at hrun; cases hrun
    | ok c1 =>
      rw [hb] at hrun
      have hb1 := hb
      unfold CalcScore.body at hb1
      simp only [hw, Bool.false_eq_true, if_false, hcf] at hb1
      cases hsp : ShiftOrPush lm [] w with
      | error e => rw [hsp] at hb1; cases hb1
      | ok cf1 =>
        rw [hsp] at hb1
        obtain ⟨hcf1, hN⟩ := ShiftOrPush_nil lm w cf1 hsp
        subst hcf1
        simp only [List.length_singleton, hN, if_true, Nat.add_one_ne_zero, if_false] at hb1
        by_cases hs : w = GetSentenceStartArray lm
        · simp only [if_pos hs] at hb1
          cases hb1
        · simp only [if_neg hs] at hb1
          cases hb1
          obtain ⟨extra, hex⟩ := CalcScore_loop_queries lm post _ _ r hrun
          refine ⟨c, _, rfl, hcf, hst, hb, ?_, ?_, hrun, extra, ?_⟩
          · simp [hst]
          · simp [hst]
          · rw [hex]
            simp [hst]

/-- The phrase `5 6 [X] 7 8` with the counting backend at order 3: the word 7
is scored in the window `[7]` and the null-context state. -/
theorem CalcScore_after_nonterminal_witness :
    CalcScore (countingLM 3 id)
        ([terminal 5, terminal 6] ++ nonTerminal 9 :: terminal 7 :: [terminal 8]) =
      Except.ok exampleLinearResult ∧
    ∃ c c1, CalcScore (countingLM 3 id) ([terminal 5, terminal 6] ++ [nonTerminal 9]) =
        Except.ok c ∧
      c.contextFactor = [] ∧ c.state = (countingLM 3 id).m_implementation.nullContextState ∧
      CalcScore.body (countingLM 3 id) ([terminal 5, terminal 6].length + 1) (terminal 7) c =
        Except.ok c1 ∧
      c1.queries = c.queries ++
        [([terminal 7], (countingLM 3 id).m_implementation.nullContextState)] ∧
      c1.fullScore = c.fullScore +
        ((countingLM 3 id).m_implementation.GetValueGivenState [terminal 7]
          (countingLM 3 id).m_implementation.nullContextState).1 ∧
      CalcScore.loop (countingLM 3 id) ([terminal 5, terminal 6].length + 2) [terminal 8] c1 =
        Except.ok exampleLinearResult ∧
      ∃ extra, exampleLinearResult.queries =
        c.queries ++
          ([terminal 7], (countingLM 3 id).m_implementation.nullContextState) :: extra :=
  ⟨by decide!,
    CalcScore_after_nonterminal (countingLM 3 id) [terminal 5, terminal 6] [terminal 8]
      (nonTerminal 9) (terminal 7) exampleLinearResult rfl rfl (by decide!)⟩

/-! ## The sentence-start word is not scored -/

theorem lastN_snoc_getLast? {α : Type} {k : Nat} (hk : 1 ≤ k) (l : List α) (w : α) :
    (lastN k (l ++ [w])).getLast? = some w := by
  rw [lastN_append_of_ge l [w] (by simpa using hk)]
  simp

/-- A terminal in closed form, for an order N ≥ 1 and a window within capacity. -/
theorem CalcScore_body_terminal (lm : LanguageModel σ) (hN : 1 ≤ GetNGramOrder lm) (p : Nat)
    (w : Word) (c : CalcScoreState σ) (hw : w.isNonTerminal = false)
    (hlen : c.contextFactor.length ≤ GetNGramOrder lm) :
    CalcScore.body lm p w c =
      if w = GetSentenceStartArray lm then
        if p = 0 then
          Except.ok
            { c with contextFactor := lastN (GetNGramOrder lm) (c.contextFactor ++ [w]) }
        else Except.error Fault.assertion
      else
        Except.ok
          { fullScore := c.fullScore +
              (lm.m_implementation.GetValueGivenState
                (lastN (GetNGramOrder lm) (c.contextFactor ++ [w])) c.state).1
            ngramScore :=
              if (lastN (GetNGramOrder lm) (c.contextFactor ++ [w])).length = GetNGramOrder lm
              then c.ngramScore +
                (lm.m_implementation.GetValueGivenState
                  (lastN (GetNGramOrder lm) (c.contextFactor ++ [w])) c.state).1
              else c.ngramScore
            contextFactor := lastN (GetNGramOrder lm) (c.contextFactor ++ [w])
            state :=
              (lm.m_implementation.GetValueGivenState
                (lastN (GetNGramOrder lm) (c.contextFactor ++ [w])) c.state).2
            queries := c.queries ++
              [(lastN (GetNGramOrder lm) (c.contextFactor ++ [w]), c.state)] } := by
  unfold CalcScore.body
  have hl : (lastN (GetNGramOrder lm) (c.contextFactor ++ [w])).length ≤ GetNGramOrder lm := by
    rw [lastN_length]
    omega
  simp only [hw, Bool.false_eq_true, if_false, ShiftOrPush_eq lm hN _ hlen, hl, if_true]

theorem CalcScore_body_length_le (lm : LanguageModel σ) (p : Nat) (w : Word)
    (c c1 : CalcScoreState σ) (hlen : c.contextFactor.length ≤ GetNGramOrder lm)
    (h : CalcScore.body lm p w c = Except.ok c1) :
    c1.contextFactor.length ≤ GetNGramOrder lm := by
  unfold CalcScore.body at h
  split at h
  · split at h
    · cases h
      simp
    · cases h
      exact hlen
  · split at h
    · cases h
    · split at h
      · rename_i hl
        split at h
        · split at h
          · cases h
            exact hl
          · cases h
        · cases h
          exact hl
      · cases h

/-- Over the words after position 0 a walk that returns makes one call for
each terminal, in order, with that terminal last in the window; none of them
is the sentence-start word; and `fullScore` grows by the scores of these
calls. -/
theorem CalcScore_loop_scored (lm : LanguageModel σ) (hN : 1 ≤ GetNGramOrder lm)
    (l : List Word) :
    ∀ (p : Nat) (c r : CalcScoreState σ), p ≠ 0 →
      c.contextFactor.length ≤ GetNGramOrder lm →
      CalcScore.loop lm p l c = Except.ok r →
      ∃ extra, r.queries = c.queries ++ extra ∧
        extra.map (fun q => q.1.getLast?) =
          (l.filter (fun w => !w.isNonTerminal)).map some ∧
        r.fullScore = c.fullScore + (queryScores lm extra).sum ∧
        (∀ w ∈ l, w.isNonTerminal = false → w ≠ GetSentenceStartArray lm) := by
  induction l with
  | nil =>
    intro p c r _ _ h
    simp only [CalcScore.loop] at h
    cases h
    exact ⟨[], by simp, by simp, by simp [queryScores], by simp⟩
  | cons x l ih =>
    intro p c r hp hlen h
    simp only [CalcScore.loop] at h
    cases hb : CalcScore.body lm p x c with
    | error e => rw [hb] at h; cases h
    | ok c2 =>
      rw [hb] at h
      have hlen2 := CalcScore_body_length_le lm p x c c2 hlen hb
      obtain ⟨extra, hq, hmap, hsum, hns⟩ := ih (p + 1) c2 r (by omega) hlen2 h
      cases hx : x.isNonTerminal with
      | true =>
        have hb1 := hb
        unfold CalcScore.body at hb1
        simp only [hx, if_true] at hb1
        have hc2 : c2.queries = c.queries ∧ c2.fullScore = c.fullScore := by
          split at hb1 <;> cases hb1 <;> exact ⟨rfl, rfl⟩
        refine ⟨extra, by rw [hq, hc2.1], ?_, by rw [hsum, hc2.2], ?_⟩
        · simp [List.filter_cons, hx, hmap]
        · intro w hwm hwt
          rcases List.mem_cons.mp hwm with rfl | hm
          · rw [hx] at hwt
            cases hwt
          · exact hns w hm hwt
      | false =>
        rw [CalcScore_body_terminal lm hN p x c hx hlen] at hb
        by_cases hs : x = GetSentenceStartArray lm
        · simp only [if_pos hs, if_neg hp] at hb
          cases hb
        · simp only [if_neg hs] at hb
          cases hb
          refine ⟨(lastN (GetNGramOrder lm) (c.contextFactor ++ [x]), c.state) :: extra,
            by rw [hq]; simp, ?_, ?_, ?_⟩
          · simp [List.filter_cons, hx, hmap, lastN_snoc_getLast? hN]
          · rw [hsum]
            simp [queryScores]
            ring
          · intro w hwm hwt
            rcases List.mem_cons.mp hwm with rfl | hm
            · exact hs
            · exact hns w hm hwt

theorem queryScores_withUntransformedScores (lm : LanguageModel σ)
    (qs : List (List Word × σ)) :
    queryScores (withUntransformedScores lm) qs =
      (queryScores lm qs).map lm.UntransformLMScore := by
  simp [queryScores, withUntransformedScores, List.map_map, Function.comp_def]

/-- The linear scorer on a phrase that starts with the sentence-start word. -/
theorem CalcScore_sentence_start (lm : LanguageModel σ) (rest : List Word)
    (r : CalcScoreState σ)
    (h : CalcScore lm (GetSentenceStartArray lm :: rest) = Except.ok r) :
    r.queries.map (fun q => q.1.getLast?) =
        (rest.filter (fun w => !w.isNonTerminal)).map some ∧
      (∀ q ∈ r.queries, q.1.getLast? ≠ some (GetSentenceStartArray lm)) ∧
      r.fullScore = (queryScores lm r.queries).sum := by
  have hst : (GetSentenceStartArray lm).isNonTerminal = false := rfl
  simp only [CalcScore, CalcScore.loop] at h
  cases hb : CalcScore.body lm 0 (GetSentenceStartArray lm)
      (CalcScore.start lm (GetSentenceStartArray lm)) with
  | error e => rw [hb] at h; cases h
  | ok c1 =>
    rw [hb] at h
    have hb1 := hb
    unfold CalcScore.body at hb1
    simp only [hst, Bool.false_eq_true, if_false, CalcScore.start] at hb1
    cases hsp : ShiftOrPush lm [] (GetSentenceStartArray lm) with
    | error e => rw [hsp] at hb1; cases hb1
    | ok cf1 =>
      rw [hsp] at hb1
      obtain ⟨hcf1, hN⟩ := ShiftOrPush_nil lm _ cf1 hsp
      subst hcf1
      simp only [List.length_singleton, hN, if_true] at hb1
      cases hb1
      obtain ⟨extra, hq, hmap, hsum, hns⟩ :=
        CalcScore_loop_scored lm hN rest 1 _ r (by omega) (by simpa using hN) h
      simp only [List.nil_append] at hq
      simp only [zero_add] at hsum
      rw [hq]
      refine ⟨hmap, ?_, hsum⟩
      intro q hqm hlast
      have hmem : q.1.getLast? ∈ extra.map (fun q => q.1.getLast?) :=
        List.mem_map.mpr ⟨q, hqm, rfl⟩
      rw [hmap, hlast] at hmem
      obtain ⟨w, hw, hwe⟩ := List.mem_map.mp hmem
      have hw2 := List.mem_filter.mp hw
      have hwt : w.isNonTerminal = false := by simpa using hw2.2
      exact hns w hw2.1 hwt (Option.some.inj hwe)

/-- C6: for every phrase whose first word is the sentence-start word, neither
`CalcScore` nor `EvaluateChart` requests or adds a score for that word.
`CalcScore` makes one call for each terminal at a position ≥ 1, with that
terminal last in the window and never the sentence-start word, and `fullScore`
is the sum of the scores of these calls. `EvaluateChart` on a rule of terminals
does the same, each score passing through `UntransformLMScore` on its way into
the sum; on any rule its step at position 0 makes no call and leaves both
accumulators and the word counter at 0. The phrase that is the sentence-start
word alone scores 0 with both, without a call. -/
theorem sentence_start_not_scored (lm : LanguageModel σ) (rest : List Word) :
    (∀ r, CalcScore lm (GetSentenceStartArray lm :: rest) = Except.ok r →
        r.queries.map (fun q => q.1.getLast?) =
            (rest.filter (fun w => !w.isNonTerminal)).map some ∧
          (∀ q ∈ r.queries, q.1.getLast? ≠ some (GetSentenceStartArray lm)) ∧
          r.fullScore = (queryScores lm r.queries).sum) ∧
      (∀ hypo s, hypo.currTargetPhrase = GetSentenceStartArray lm :: rest →
        (∀ w ∈ rest, w.isNonTerminal = false) → EvaluateChart lm hypo = Except.ok s →
        s.queries.map (fun q => q.1.getLast?) = rest.map some ∧
          (∀ q ∈ s.queries, q.1.getLast? ≠ some (GetSentenceStartArray lm)) ∧
          assignedScore s = ((queryScores lm s.queries).map lm.UntransformLMScore).sum) ∧
      (∀ hypo s1,
        EvaluateChart.body lm hypo 0 (GetSentenceStartArray lm) (EvaluateChart.start lm) =
          Except.ok s1 →
        s1.queries = [] ∧ s1.prefixScore = 0 ∧ s1.finalizedScore = 0 ∧ s1.wordPos = 0) ∧
      (1 ≤ GetNGramOrder lm →
        (∃ r, CalcScore lm [GetSentenceStartArray lm] = Except.ok r ∧ r.fullScore = 0 ∧
          r.ngramScore = 0 ∧ r.queries = []) ∧
        (∀ hypo, hypo.currTargetPhrase = [GetSentenceStartArray lm] →
          ∃ s, EvaluateChart lm hypo = Except.ok s ∧ assignedScore s = 0 ∧ s.queries = [])) := by
  have hst : (GetSentenceStartArray lm).isNonTerminal = false := rfl
  refine ⟨fun r h => CalcScore_sentence_start lm rest r h, ?_, ?_, ?_⟩
  · intro hypo s hrule hterm hs
    have hall : ∀ w ∈ hypo.currTargetPhrase, w.isNonTerminal = false := by
      rw [hrule]
      intro w hw
      rcases List.mem_cons.mp hw with rfl | hm
      · exact hst
      · exact hterm w hm
    have hv := EvaluateChart_view_eq_CalcScore lm hypo hall
    rw [hs, hrule] at hv
    cases hc : CalcScore (withUntransformedScores lm) (GetSentenceStartArray lm :: rest) with
    | error e => rw [hc] at hv; cases hv
    | ok r =>
      rw [hc] at hv
      simp only [Except.map, Except.ok.injEq, chartView, calcView, Prod.mk.injEq] at hv
      obtain ⟨-, -, hsc, hq⟩ := hv
      obtain ⟨h1, h2, h3⟩ := CalcScore_sentence_start (withUntransformedScores lm) rest r hc
      have hfil : rest.filter (fun w => !w.isNonTerminal) = rest := by
        apply List.filter_eq_self.mpr
        intro w hw
        simp [hterm w hw]
      rw [hfil] at h1
      rw [hq]
      refine ⟨h1, h2, ?_⟩
      rw [assignedScore, hsc, h3, queryScores_withUntransformedScores]
  · intro hypo s1 h
    unfold EvaluateChart.body at h
    simp only [hst, Bool.not_false, if_true] at h
    cases hsp : ShiftOrPush lm (EvaluateChart.start lm).contextFactor
        (GetSentenceStartArray lm) with
    | error e => rw [hsp] at h; cases h
    | ok cf1 =>
      rw [hsp] at h
      simp only [if_true] at h
      cases h
      exact ⟨rfl, rfl, rfl, rfl⟩
  · intro hN
    have hsp : ShiftOrPush lm [] (GetSentenceStartArray lm) =
        Except.ok [GetSentenceStartArray lm] := by
      rw [ShiftOrPush_eq lm hN [] (Nat.zero_le _), lastN_of_length_le (by simpa using hN)]
      rfl
    constructor
    · simp [CalcScore, CalcScore.loop, CalcScore.body, CalcScore.start, hst, hsp, hN]
    · intro hypo hrule
      simp [EvaluateChart, hrule, EvaluateChart.loop, EvaluateChart.body, EvaluateChart.start,
        hst, hsp, assignedScore]

/-- The phrase `<s> 5 6` at order 2 with scores divided by ln 10. -/
theorem sentence_start_not_scored_witness :
    1 ≤ GetNGramOrder (stubLM 2 divideByLn10) ∧
      (∃ r, CalcScore (stubLM 2 divideByLn10) [GetSentenceStartArray (stubLM 2 divideByLn10)] =
          Except.ok r ∧ r.fullScore = 0 ∧ r.ngramScore = 0 ∧ r.queries = []) ∧
      (∀ r, CalcScore (stubLM 2 divideByLn10)
            (GetSentenceStartArray (stubLM 2 divideByLn10) :: [terminal 5, terminal 6]) =
          Except.ok r →
        r.queries.map (fun q => q.1.getLast?) =
            ([terminal 5, terminal 6].filter (fun w => !w.isNonTerminal)).map some ∧
          (∀ q ∈ r.queries,
            q.1.getLast? ≠ some (GetSentenceStartArray (stubLM 2 divideByLn10))) ∧
          r.fullScore = (queryScores (stubLM 2 divideByLn10) r.queries).sum) :=
  ⟨by decide,
    ((sentence_start_not_scored (stubLM 2 divideByLn10) []).2.2.2 (by decide)).1,
    (sentence_start_not_scored (stubLM 2 divideByLn10) [terminal 5, terminal 6]).1⟩

/-! ## Scenario: the rule `a [NT] b` at order 2 -/

theorem ShiftOrPush_order_two (lm : LanguageModel σ) (hN : GetNGramOrder lm = 2) (w : Word) :
    ShiftOrPush lm [] w = Except.ok [w] ∧
      (∀ x, ShiftOrPush lm [x] w = Except.ok [x, w]) ∧
      (∀ x y, ShiftOrPush lm [x, y] w = Except.ok [y, w]) := by
  refine ⟨?_, fun x => ?_, fun x y => ?_⟩
  · rw [ShiftOrPush_eq lm (by omega) [] (by simp), hN]
    rfl
  · rw [ShiftOrPush_eq lm (by omega) [x] (by simp [hN]), hN]
    rfl
  · rw [ShiftOrPush_eq lm (by omega) [x, y] (by simp [hN]), hN]
    rfl

/-- C5 (amended): for an order-2 model and the rule `a [NT] b` (a and b
terminals other than the sentence-start word) whose slot is filled by a child
with two terminals, prefix `[c]`, suffix `[d]`, stored score S, prefix score P
and right-edge state Q, `EvaluateChart` returns with prefix score `f(a)` (a is
scored at counter 1 < 2 and is never settled) and finalized score
`f(c|a) + (S - P) + f(b|d)`, every `f` passed through `UntransformLMScore`,
`f(b|d)` asked in state Q. When the backend's score depends on the window only
and S and P are the linear scores of `[c, d]` and `[c]` on untransformed
scores, prefix + finalized is the linear score of `[a, c, d, b]` on
untransformed scores. -/
theorem EvaluateChart_bigram_rule_scenario (lm : LanguageModel σ) (hypo : ChartHypothesis σ)
    (a b c d nt : Word) (nonTermIndex : Nat) (child : PrevHypo σ)
    (hN : GetNGramOrder lm = 2)
    (ha : a.isNonTerminal = false) (hb : b.isNonTerminal = false)
    (has : a ≠ GetSentenceStartArray lm) (hbs : b ≠ GetSentenceStartArray lm)
    (hnt : nt.isNonTerminal = true)
    (hrule : hypo.currTargetPhrase = [a, nt, b])
    (hmap : hypo.nonTermIndexMap[1]? = some nonTermIndex)
    (hchild : hypo.prevHypos[nonTermIndex]? = some child)
    (hL : child.numTargetTerminals = 2)
    (hpre : child.GetPrefix = [c]) (hsuf : child.GetSuffix = [d]) :
    ∃ s, EvaluateChart lm hypo = Except.ok s ∧
      s.prefixScore =
        lm.UntransformLMScore
          (lm.m_implementation.GetValueGivenState [a]
            lm.m_implementation.nullContextState).1 ∧
      s.finalizedScore =
        lm.UntransformLMScore
            (lm.m_implementation.GetValueGivenState [a, c]
              (lm.m_implementation.GetValueGivenState [a]
                lm.m_implementation.nullContextState).2).1 +
          (child.lmScore - child.ffState.prefixScore) +
          lm.UntransformLMScore
            (lm.m_implementation.GetValueGivenState [d, b] child.ffState.rightContext).1 ∧
      ((∀ cf st1 st2, (lm.m_implementation.GetValueGivenState cf st1).1 =
            (lm.m_implementation.GetValueGivenState cf st2).1) →
        c.isNonTerminal = false → d.isNonTerminal = false →
        c ≠ GetSentenceStartArray lm → d ≠ GetSentenceStartArray lm →
        Except.map (fun r => r.fullScore) (CalcScore (withUntransformedScores lm) [c, d]) =
          Except.ok child.lmScore →
        Except.map (fun r => r.fullScore) (CalcScore (withUntransformedScores lm) [c]) =
          Except.ok child.ffState.prefixScore →
        Except.map (fun r => r.fullScore)
            (CalcScore (withUntransformedScores lm) [a, c, d, b]) =
          Except.ok (assignedScore s)) := by
  obtain ⟨p0, p1, p2⟩ : (∀ w, ShiftOrPush lm [] w = Except.ok [w]) ∧
      (∀ w x, ShiftOrPush lm [x] w = Except.ok [x, w]) ∧
      (∀ w x y, ShiftOrPush lm [x, y] w = Except.ok [y, w]) :=
    ⟨fun w => (ShiftOrPush_order_two lm hN w).1, fun w => (ShiftOrPush_order_two lm hN w).2.1,
      fun w => (ShiftOrPush_order_two lm hN w).2.2⟩
  have hN' : GetNGramOrder (withUntransformedScores lm) = 2 := hN
  have hss : GetSentenceStartArray (withUntransformedScores lm) = GetSentenceStartArray lm := rfl
  have hom : orderMinusOne lm = 1 := by simp [orderMinusOne, hN]
  have hE : EvaluateChart lm hypo = Except.ok
      { contextFactor := [d, b]
        lmState :=
          (lm.m_implementation.GetValueGivenState [d, b] child.ffState.rightContext).2
        prefixScore :=
          lm.UntransformLMScore
            (lm.m_implementation.GetValueGivenState [a]
              lm.m_implementation.nullContextState).1
        finalizedScore :=
          lm.UntransformLMScore
              (lm.m_implementation.GetValueGivenState [a, c]
                (lm.m_implementation.GetValueGivenState [a]
                  lm.m_implementation.nullContextState).2).1 +
            (child.lmScore - child.ffState.prefixScore) +
            lm.UntransformLMScore
              (lm.m_implementation.GetValueGivenState [d, b] child.ffState.rightContext).1
        wordPos := 5
        queries :=
          [([a], lm.m_implementation.nullContextState),
            ([a, c], (lm.m_implementation.GetValueGivenState [a]
              lm.m_implementation.nullContextState).2),
            ([d, b], child.ffState.rightContext)] } := by
    simp [EvaluateChart, hrule, EvaluateChart.loop, EvaluateChart.body, EvaluateChart.start,
      EvaluateChart.interiorNonTerm, ha, hb, has, hbs, hnt, hmap, hchild, hL, hpre, hsuf, hom,
      p0, p1, p2, scoreInWindow, updateChartScore, hN, forWords, scorePrefixWord, pushUncounted,
      suffixStart]
  refine ⟨_, hE, rfl, rfl, ?_⟩
  intro hwin hc hd hcs hds hS hP
  have hS' : (withUntransformedScores lm).m_implementation.GetValueGivenState = fun cf st =>
      (lm.UntransformLMScore (lm.m_implementation.GetValueGivenState cf st).1,
        (lm.m_implementation.GetValueGivenState cf st).2) := rfl
  have hnull : (withUntransformedScores lm).m_implementation.nullContextState =
      lm.m_implementation.nullContextState := rfl
  simp [CalcScore, CalcScore.loop, CalcScore.body, CalcScore.start, hc, hd, hcs, hds, hss, hN',
    ShiftOrPush_withUntransformedScores, p0, p1, p2, Except.map, hS', hnull] at hS hP
  simp [CalcScore, CalcScore.loop, CalcScore.body, CalcScore.start, ha, hb, hc, hd, has, hbs,
    hcs, hds, hss, hN', ShiftOrPush_withUntransformedScores, p0, p1, p2, Except.map, hS',
    hnull, assignedScore]
  rw [← hS, ← hP]
  have e1 := hwin [d, b]
    (lm.m_implementation.GetValueGivenState [c, d]
      (lm.m_implementation.GetValueGivenState [a, c]
        (lm.m_implementation.GetValueGivenState [a]
          lm.m_implementation.nullContextState).2).2).2
    child.ffState.rightContext
  have e2 := hwin [c, d]
    (lm.m_implementation.GetValueGivenState [a, c]
      (lm.m_implementation.GetValueGivenState [a]
        lm.m_implementation.nullContextState).2).2
    (lm.m_implementation.GetValueGivenState [c] lm.m_implementation.nullContextState).2
  rw [e1, e2]
  ring

/-- The rule `4 [X] 7` over the child `5 6` at order 2 with the window-only
backend: the assigned score is the linear score of `4 5 6 7`. -/
theorem EvaluateChart_bigram_rule_scenario_witness :
    GetNGramOrder (stubLM 2 id) = 2 ∧
      ∃ s, EvaluateChart (stubLM 2 id) exampleBigramRule = Except.ok s ∧
        Except.map (fun r => r.fullScore)
            (CalcScore (withUntransformedScores (stubLM 2 id))
              [terminal 4, terminal 5, terminal 6, terminal 7]) =
          Except.ok (assignedScore s) :=
  ⟨by decide,
    (EvaluateChart_bigram_rule_scenario (stubLM 2 id) exampleBigramRule (terminal 4) (terminal 7)
      (terminal 5) (terminal 6) (nonTerminal 9) 0 exampleBigramChild (by decide) (by decide)
      (by decide) (by decide) (by decide) (by decide) rfl rfl rfl rfl rfl rfl).imp
      (fun _ h => ⟨h.1, h.2.2.2 (fun _ _ _ => rfl) (by decide) (by decide) (by decide)
        (by decide) (by decide!) (by decide!)⟩)⟩

/-- C5 as stated fails: for the rule `4 [X] 7` over the child `5 6` (stored
score `61/3`, prefix score `5/3`, both as the linear scorer gives them) the
finalized score is `45/3 + 56/3 + 67/3 = 56`; the claimed value
`(S - P) + f(7|6) = 41` leaves out the rescored child word `f(5|4)`, and
adding `f(4) = 4/3` does not give 56 either. -/
theorem EvaluateChart_bigram_rule_finalized_counts_child_prefix :
    Except.map (fun r => r.fullScore) (CalcScore (stubLM 2 id) [terminal 5, terminal 6]) =
        Except.ok exampleBigramChild.lmScore ∧
      Except.map (fun r => r.fullScore) (CalcScore (stubLM 2 id) [terminal 5]) =
        Except.ok exampleBigramChild.ffState.prefixScore ∧
      Except.map (fun s => s.finalizedScore) (EvaluateChart (stubLM 2 id) exampleBigramRule) =
        Except.ok 56 ∧
      (exampleBigramChild.lmScore - exampleBigramChild.ffState.prefixScore) +
          ((stubLM 2 id).m_implementation.GetValueGivenState [terminal 6, terminal 7] ()).1 =
        41 ∧
      Except.map (fun s => s.finalizedScore) (EvaluateChart (stubLM 2 id) exampleBigramRule) ≠
        Except.ok ((exampleBigramChild.lmScore - exampleBigramChild.ffState.prefixScore) +
          ((stubLM 2 id).m_implementation.GetValueGivenState [terminal 6, terminal 7] ()).1) ∧
      Except.map (fun s => s.finalizedScore) (EvaluateChart (stubLM 2 id) exampleBigramRule) ≠
        Except.ok ((exampleBigramChild.lmScore - exampleBigramChild.ffState.prefixScore) +
          ((stubLM 2 id).m_implementation.GetValueGivenState [terminal 6, terminal 7] ()).1 +
          ((stubLM 2 id).m_implementation.GetValueGivenState [terminal 4] ()).1) := by
  refine ⟨?_, ?_, ?_, ?_, ?_, ?_⟩ <;> decide!


/-! ## Composition: `EvaluateChart` over children against the flat score -/

theorem seqScore_congr (lm : LanguageModel σ) (ws : List Word) :
    ∀ (h1 h2 : List Word),
      lastN (GetNGramOrder lm - 1) h1 = lastN (GetNGramOrder lm - 1) h2 →
      seqScore lm h1 ws = seqScore lm h2 ws := by
  induction ws with
  | nil => intro h1 h2 _; rfl
  | cons w ws ih =>
    intro h1 h2 h
    have hw := lastN_snoc_congr w h
    simp only [seqScore, hw]
    congr 1
    apply ih
    have := congrArg (lastN (GetNGramOrder lm - 1)) hw
    rwa [lastN_lastN _ (Nat.sub_le _ _), lastN_lastN _ (Nat.sub_le _ _)] at this

theorem seqScore_append (lm : LanguageModel σ) (a b : List Word) :
    ∀ (hist : List Word),
      seqScore lm hist (a ++ b) = seqScore lm hist a + seqScore lm (hist ++ a) b := by
  induction a with
  | nil => intro hist; simp [seqScore]
  | cons w a ih =>
    intro hist
    show windowScore lm (lastN (GetNGramOrder lm) (hist ++ [w])) +
        seqScore lm (hist ++ [w]) (a ++ b) =
      windowScore lm (lastN (GetNGramOrder lm) (hist ++ [w])) + seqScore lm (hist ++ [w]) a +
        seqScore lm (hist ++ w :: a) b
    rw [ih (hist ++ [w]), List.append_assoc, List.singleton_append]
    ring

/-- The window relation kept along a walk: within capacity, and the trailing
`N - 1` entries are those of the history. -/
theorem tail_step (lm : LanguageModel σ) (cf hist : List Word) (w : Word)
    (h : lastN (GetNGramOrder lm - 1) cf = lastN (GetNGramOrder lm - 1) hist) :
    lastN (GetNGramOrder lm) (cf ++ [w]) = lastN (GetNGramOrder lm) (hist ++ [w]) ∧
      lastN (GetNGramOrder lm - 1) (lastN (GetNGramOrder lm) (cf ++ [w])) =
        lastN (GetNGramOrder lm - 1) (hist ++ [w]) := by
  have hw := lastN_snoc_congr w h
  refine ⟨hw, ?_⟩
  rw [hw, lastN_lastN _ (Nat.sub_le _ _)]

theorem flatScore_eq_seqScore (lm : LanguageModel σ) (hN : 1 ≤ GetNGramOrder lm)
    (ws : List Word) (h : ∀ w ∈ ws, w ≠ GetSentenceStartArray lm) :
    flatScore lm ws = seqScore lm [] ws := by
  cases ws with
  | nil => rfl
  | cons w ws =>
    have hw := h w (List.mem_cons_self _ _)
    simp only [flatScore, seqScore, if_neg hw, List.nil_append]
    rw [lastN_of_length_le (by simpa using hN)]

theorem flatScore_append (lm : LanguageModel σ) (hN : 1 ≤ GetNGramOrder lm)
    (hist z : List Word) (h : ∀ w ∈ z, w ≠ GetSentenceStartArray lm) :
    flatScore lm (hist ++ z) = flatScore lm hist + seqScore lm hist z := by
  cases hist with
  | nil =>
    simp only [List.nil_append, flatScore, zero_add]
    exact flatScore_eq_seqScore lm hN z h
  | cons x hist =>
    simp only [List.cons_append, flatScore]
    rw [seqScore_append]
    simp only [List.singleton_append]
    ring

/-- A terminal other than the sentence-start word is pushed and scored. -/
theorem CalcScore_body_scored (lm : LanguageModel σ) (hN : 1 ≤ GetNGramOrder lm) (p : Nat)
    (w : Word) (c : CalcScoreState σ) (hw : w.isNonTerminal = false)
    (hs : w ≠ GetSentenceStartArray lm)
    (hlen : c.contextFactor.length ≤ GetNGramOrder lm) :
    ∃ c1, CalcScore.body lm p w c = Except.ok c1 ∧
      c1.contextFactor = lastN (GetNGramOrder lm) (c.contextFactor ++ [w]) ∧
      c1.fullScore = c.fullScore +
        (lm.m_implementation.GetValueGivenState
          (lastN (GetNGramOrder lm) (c.contextFactor ++ [w])) c.state).1 := by
  rw [CalcScore_body_terminal lm hN p w c hw hlen, if_neg hs]
  exact ⟨_, rfl, rfl, rfl⟩

/-- The sentence-start word at position 0 is pushed and not scored. -/
theorem CalcScore_body_sentence_start (lm : LanguageModel σ) (hN : 1 ≤ GetNGramOrder lm)
    (c : CalcScoreState σ) (hlen : c.contextFactor.length ≤ GetNGramOrder lm) :
    ∃ c1, CalcScore.body lm 0 (GetSentenceStartArray lm) c = Except.ok c1 ∧
      c1.contextFactor =
        lastN (GetNGramOrder lm) (c.contextFactor ++ [GetSentenceStartArray lm]) ∧
      c1.fullScore = c.fullScore := by
  rw [CalcScore_body_terminal lm hN 0 _ c rfl hlen, if_pos rfl, if_pos rfl]
  exact ⟨_, rfl, rfl, rfl⟩

/-- The linear scorer over words none of which is the sentence-start word:
`fullScore` grows by their window scores. -/
theorem CalcScore_loop_flat (lm : LanguageModel σ) (hN : 1 ≤ GetNGramOrder lm)
    (hwin : ∀ cf st1 st2, (lm.m_implementation.GetValueGivenState cf st1).1 =
      (lm.m_implementation.GetValueGivenState cf st2).1)
    (ws : List Word) :
    ∀ (p : Nat) (c : CalcScoreState σ) (hist : List Word),
      (∀ w ∈ ws, w.isNonTerminal = false) → (∀ w ∈ ws, w ≠ GetSentenceStartArray lm) →
      c.contextFactor.length ≤ GetNGramOrder lm →
      lastN (GetNGramOrder lm - 1) c.contextFactor = lastN (GetNGramOrder lm - 1) hist →
      ∃ r, CalcScore.loop (withUntransformedScores lm) p ws c = Except.ok r ∧
        r.fullScore = c.fullScore + seqScore lm hist ws := by
  induction ws with
  | nil =>
    intro p c hist _ _ _ _
    exact ⟨c, rfl, by simp [seqScore]⟩
  | cons w ws ih =>
    intro p c hist hterm hns hlen htail
    have hw := hterm w (List.mem_cons_self _ _)
    obtain ⟨hwn, htail2⟩ := tail_step lm c.contextFactor hist w htail
    obtain ⟨c1, hb, hcf, hfs⟩ := CalcScore_body_scored (withUntransformedScores lm) hN p w c hw
      (hns w (List.mem_cons_self _ _)) hlen
    rw [GetNGramOrder_withUntransformedScores] at hcf hfs
    obtain ⟨r, hr, hsc⟩ := ih (p + 1) c1 (hist ++ [w])
      (fun x hx => hterm x (List.mem_cons_of_mem _ hx))
      (fun x hx => hns x (List.mem_cons_of_mem _ hx))
      (by rw [hcf, lastN_length]; omega)
      (by rw [hcf]; exact htail2)
    refine ⟨r, by simp only [CalcScore.loop, hb, hr], ?_⟩
    rw [hsc, hfs, seqScore, windowScore, ← hwn]
    have e := hwin (lastN (GetNGramOrder lm) (c.contextFactor ++ [w])) c.state
      lm.m_implementation.nullContextState
    show c.fullScore + lm.UntransformLMScore _ + _ = _
    rw [e]
    ring

/-- The linear scorer on a string of terminals with the sentence-start word at
most at position 0 returns the flat score. -/
theorem CalcScore_flat (lm : LanguageModel σ) (hN : 1 ≤ GetNGramOrder lm)
    (hwin : ∀ cf st1 st2, (lm.m_implementation.GetValueGivenState cf st1).1 =
      (lm.m_implementation.GetValueGivenState cf st2).1)
    (y : List Word) (hterm : ∀ w ∈ y, w.isNonTerminal = false)
    (hns : ∀ w ∈ y.tail, w ≠ GetSentenceStartArray lm) :
    Except.map (fun r => r.fullScore) (CalcScore (withUntransformedScores lm) y) =
      Except.ok (flatScore lm y) := by
  cases y with
  | nil => simp [CalcScore, Except.map, flatScore]
  | cons w ws =>
    have hw := hterm w (List.mem_cons_self _ _)
    have h0 : (CalcScore.start (withUntransformedScores lm) w).contextFactor.length ≤
        GetNGramOrder (withUntransformedScores lm) := Nat.zero_le _
    have hone : lastN (GetNGramOrder lm) ([] ++ [w]) = [w] :=
      lastN_of_length_le (by simpa using hN)
    have hrest : ∀ (c1 : CalcScoreState σ), c1.contextFactor = [w] →
        ∃ r, CalcScore.loop (withUntransformedScores lm) 1 ws c1 = Except.ok r ∧
          r.fullScore = c1.fullScore + seqScore lm [w] ws := fun c1 hc1 =>
      CalcScore_loop_flat lm hN hwin ws 1 c1 [w]
        (fun x hx => hterm x (List.mem_cons_of_mem _ hx)) (fun x hx => hns x (by simpa using hx))
        (by rw [hc1]; simpa using hN) (by rw [hc1])
    by_cases hs : w = GetSentenceStartArray lm
    · subst hs
      obtain ⟨c1, hb, hcf, hfs⟩ :=
        CalcScore_body_sentence_start (withUntransformedScores lm) hN _ h0
      obtain ⟨r, hr, hsc⟩ := hrest c1 (by rw [hcf]; exact hone)
      rw [GetSentenceStartArray_withUntransformedScores] at hb
      simp only [CalcScore, CalcScore.loop, Nat.zero_add, hb, hr, Except.map, hsc, hfs,
        flatScore, if_true]
      rfl
    · obtain ⟨c1, hb, hcf, hfs⟩ :=
        CalcScore_body_scored (withUntransformedScores lm) hN 0 w _ hw hs h0
      obtain ⟨r, hr, hsc⟩ := hrest c1 (by rw [hcf]; exact hone)
      simp only [CalcScore, CalcScore.loop, Nat.zero_add, hb, hr, Except.map, hsc, hfs,
        flatScore, if_neg hs]
      congr 2
      have e : (CalcScore.start (withUntransformedScores lm) w).contextFactor ++ [w] =
          [] ++ [w] := rfl
      rw [GetNGramOrder_withUntransformedScores, e, hone]
      show 0 + lm.UntransformLMScore _ = windowScore lm [w]
      rw [zero_add, windowScore]
      congr 1
      exact hwin _ _ _

theorem assignedScore_scoreInWindow (lm : LanguageModel σ) (s : ChartScoreState σ)
    (cf : List Word) :
    assignedScore (scoreInWindow lm s cf) =
      assignedScore s +
        lm.UntransformLMScore (lm.m_implementation.GetValueGivenState cf s.lmState).1 := by
  simp only [assignedScore, scoreInWindow, updateChartScore]
  split <;> ring

/-- The prefix loop in closed form: the words are scored one by one, each in
the window of the last `N` words of the history. -/
theorem runWords_scorePrefixWord (lm : LanguageModel σ) (hN : 1 ≤ GetNGramOrder lm)
    (hwin : ∀ cf st1 st2, (lm.m_implementation.GetValueGivenState cf st1).1 =
      (lm.m_implementation.GetValueGivenState cf st2).1)
    (ws : List Word) :
    ∀ (s : ChartScoreState σ) (hist : List Word),
      s.contextFactor.length ≤ GetNGramOrder lm →
      lastN (GetNGramOrder lm - 1) s.contextFactor = lastN (GetNGramOrder lm - 1) hist →
      ∃ s1, runWords (scorePrefixWord lm) ws s = Except.ok s1 ∧
        assignedScore s1 = assignedScore s + seqScore lm hist ws ∧
        s1.contextFactor.length ≤ GetNGramOrder lm ∧
        lastN (GetNGramOrder lm - 1) s1.contextFactor =
          lastN (GetNGramOrder lm - 1) (hist ++ ws) := by
  induction ws with
  | nil =>
    intro s hist hlen htail
    exact ⟨s, rfl, by simp [seqScore], hlen, by simpa using htail⟩
  | cons w ws ih =>
    intro s hist hlen htail
    obtain ⟨hwn, htail2⟩ := tail_step lm s.contextFactor hist w htail
    obtain ⟨s1, hr, hsc, hl1, ht1⟩ :=
      ih (scoreInWindow lm s (lastN (GetNGramOrder lm) (s.contextFactor ++ [w]))) (hist ++ [w])
        (by rw [scoreInWindow_contextFactor, lastN_length]; omega)
        (by rw [scoreInWindow_contextFactor]; exact htail2)
    refine ⟨s1, ?_, ?_, hl1, ?_⟩
    · simp only [runWords, scorePrefixWord, ShiftOrPush_eq lm hN _ hlen, hr]
    · rw [hsc, assignedScore_scoreInWindow, seqScore, windowScore, ← hwn,
        hwin _ s.lmState lm.m_implementation.nullContextState]
      ring
    · rw [ht1, List.append_assoc, List.singleton_append]

theorem lastN_take_append_lastN {α : Type} (k : Nat) (y : List α) (hL : k < y.length) :
    lastN k (y.take k ++ lastN (min (y.length - k) k) y) = lastN k y := by
  rcases Nat.le_total k (y.length - k) with h | h
  · rw [Nat.min_eq_right h, lastN_append_of_le _ _ (by rw [lastN_length]; omega),
      lastN_lastN _ (Nat.le_refl _)]
  · rw [Nat.min_eq_left h]
    have hR : lastN (y.length - k) y = y.drop k := by
      unfold lastN
      congr 1
      omega
    rw [hR, List.take_append_drop]

theorem ChildOk_scores (lm : LanguageModel σ) (hN : 1 ≤ GetNGramOrder lm)
    (hwin : ∀ cf st1 st2, (lm.m_implementation.GetValueGivenState cf st1).1 =
      (lm.m_implementation.GetValueGivenState cf st2).1)
    (child : PrevHypo σ) (y : List Word) (hok : ChildOk lm child y)
    (hns : ∀ w ∈ y.tail, w ≠ GetSentenceStartArray lm) :
    child.lmScore = flatScore lm y ∧
      child.ffState.prefixScore = flatScore lm (y.take (GetNGramOrder lm - 1)) := by
  obtain ⟨hterm, -, -, -, hS, hP⟩ := hok
  have h1 := CalcScore_flat lm hN hwin y hterm hns
  have h2 := CalcScore_flat lm hN hwin (y.take (GetNGramOrder lm - 1))
    (fun w hw => hterm w (List.mem_of_mem_take hw))
    (fun w hw => by
      cases y with
      | nil => simp at hw
      | cons x y =>
        cases hk : GetNGramOrder lm - 1 with
        | zero => rw [hk] at hw; simp at hw
        | succ k =>
          rw [hk] at hw
          simp only [List.take_succ_cons, List.tail_cons] at hw
          exact hns w (by simpa using List.mem_of_mem_take hw))
  rw [hS] at h1
  rw [hP] at h2
  exact ⟨Except.ok.inj h1, Except.ok.inj h2⟩

/-- An interior slot with a consistent child whose yield has no sentence-start
word: the assigned score grows by the window scores of the child's yield, and
the window ends with the last `N - 1` words of the yield so far. -/
theorem interiorNonTerm_spec (lm : LanguageModel σ) (hN : 1 ≤ GetNGramOrder lm)
    (hwin : ∀ cf st1 st2, (lm.m_implementation.GetValueGivenState cf st1).1 =
      (lm.m_implementation.GetValueGivenState cf st2).1)
    (child : PrevHypo σ) (y : List Word) (hok : ChildOk lm child y)
    (hns : ∀ w ∈ y, w ≠ GetSentenceStartArray lm)
    (s : ChartScoreState σ) (hist : List Word)
    (hlen : s.contextFactor.length ≤ GetNGramOrder lm)
    (htail : lastN (GetNGramOrder lm - 1) s.contextFactor =
      lastN (GetNGramOrder lm - 1) hist) :
    ∃ s1, EvaluateChart.interiorNonTerm lm child s = Except.ok s1 ∧
      assignedScore s1 = assignedScore s + seqScore lm hist y ∧
      s1.contextFactor.length ≤ GetNGramOrder lm ∧
      lastN (GetNGramOrder lm - 1) s1.contextFactor =
        lastN (GetNGramOrder lm - 1) (hist ++ y) := by
  obtain ⟨hS, hP⟩ := ChildOk_scores lm hN hwin child y hok
    (fun w hw => hns w (List.mem_of_mem_tail hw))
  obtain ⟨hterm, hL, hpre, hsuf, -, -⟩ := hok
  have hom := orderMinusOne_of_pos lm hN
  have hcount : min (GetNGramOrder lm - 1) child.numTargetTerminals =
      child.GetPrefix.length := by
    rw [hpre, hL, List.length_take]
  obtain ⟨s1, hr1, hsc1, hl1, ht1⟩ :=
    runWords_scorePrefixWord lm hN hwin (y.take (GetNGramOrder lm - 1)) s hist hlen htail
  have hloop1 : forWords child.GetPrefix (scorePrefixWord lm)
      (min (GetNGramOrder lm - 1) y.length) 0 s = Except.ok s1 := by
    rw [← hL, hcount, forWords_eq_runWords _ _ _ _ _ (by omega), List.drop_zero,
      List.take_length, hpre]
    exact hr1
  unfold EvaluateChart.interiorNonTerm
  simp only [hom, hL, hloop1]
  by_cases hbig : y.length > GetNGramOrder lm - 1
  · simp only [if_pos hbig]
    have hrem : (if y.length - (GetNGramOrder lm - 1) > GetNGramOrder lm - 1
        then GetNGramOrder lm - 1 else y.length - (GetNGramOrder lm - 1)) =
        min (y.length - (GetNGramOrder lm - 1)) (GetNGramOrder lm - 1) := by
      split <;> omega
    have hsize : child.GetSuffix.length = GetNGramOrder lm - 1 := by
      rw [hsuf, lastN_length]
      omega
    have hstart : suffixStart child.GetSuffix.length
        (min (y.length - (GetNGramOrder lm - 1)) (GetNGramOrder lm - 1)) =
        child.GetSuffix.length -
          min (y.length - (GetNGramOrder lm - 1)) (GetNGramOrder lm - 1) := by
      unfold suffixStart
      rw [if_pos (by rw [hsize]; exact Nat.min_le_right _ _)]
    have hwords : List.take
        (child.GetSuffix.length - (child.GetSuffix.length -
          min (y.length - (GetNGramOrder lm - 1)) (GetNGramOrder lm - 1)))
        (List.drop (child.GetSuffix.length -
          min (y.length - (GetNGramOrder lm - 1)) (GetNGramOrder lm - 1)) child.GetSuffix) =
        lastN (min (y.length - (GetNGramOrder lm - 1)) (GetNGramOrder lm - 1)) y := by
      rw [drop_eq_lastN, hsuf, lastN_lastN _ (Nat.min_le_right _ _)]
      apply List.take_of_length_le
      rw [lastN_length, lastN_length]
      omega
    simp only [hrem, hstart]
    have hpush := runWords_pushUncounted lm hN
      (lastN (min (y.length - (GetNGramOrder lm - 1)) (GetNGramOrder lm - 1)) y)
      { contextFactor := s1.contextFactor, lmState := child.ffState.rightContext,
        prefixScore := s1.prefixScore,
        finalizedScore := s1.finalizedScore + (child.lmScore - child.ffState.prefixScore),
        wordPos := s1.wordPos, queries := s1.queries } hl1
    rw [forWords_eq_runWords _ _ _ _ _ (by omega), hwords, hpush]
    refine ⟨_, rfl, ?_, ?_, ?_⟩
    · have hsplit := flatScore_append lm hN (y.take (GetNGramOrder lm - 1))
        (y.drop (GetNGramOrder lm - 1)) (fun w hw => hns w (List.mem_of_mem_drop hw))
      rw [List.take_append_drop] at hsplit
      have hcongr := seqScore_congr lm (y.drop (GetNGramOrder lm - 1))
        (hist ++ y.take (GetNGramOrder lm - 1)) (y.take (GetNGramOrder lm - 1))
        (lastN_append_of_le _ _ (by rw [List.length_take]; omega))
      have happ := seqScore_append lm (y.take (GetNGramOrder lm - 1))
        (y.drop (GetNGramOrder lm - 1)) hist
      rw [List.take_append_drop] at happ
      have hsc : assignedScore s1 + (child.lmScore - child.ffState.prefixScore) =
          assignedScore s + seqScore lm hist y := by
        rw [hsc1, hS, hP, hsplit, happ, hcongr]
        ring
      rw [← hsc]
      simp only [assignedScore]
      ring
    · show (lastN (GetNGramOrder lm) _).length ≤ _
      rw [lastN_length]
      omega
    · show lastN (GetNGramOrder lm - 1) (lastN (GetNGramOrder lm) (s1.contextFactor ++ _)) = _
      have htk : (y.take (GetNGramOrder lm - 1)).length = GetNGramOrder lm - 1 := by
        rw [List.length_take]
        omega
      have hT : lastN (GetNGramOrder lm - 1) s1.contextFactor =
          y.take (GetNGramOrder lm - 1) := by
        rw [ht1, lastN_append_of_le hist _ (le_of_eq htk.symm),
          lastN_of_length_le (le_of_eq htk)]
      rw [lastN_lastN _ (Nat.sub_le _ _), ← lastN_append_lastN, hT,
        lastN_take_append_lastN _ _ hbig, lastN_append_of_le hist y (by omega)]
  · simp only [if_neg hbig]
    have hall : y.take (GetNGramOrder lm - 1) = y := List.take_of_length_le (by omega)
    rw [hall] at hsc1 ht1
    exact ⟨s1, rfl, hsc1, hl1, ht1⟩

/-- One rule position after the first: the assigned score becomes the flat
score of the yield so far, and the window ends with its last `N - 1` words. -/
theorem body_spec (lm : LanguageModel σ) (hN : 1 ≤ GetNGramOrder lm)
    (hwin : ∀ cf st1 st2, (lm.m_implementation.GetValueGivenState cf st1).1 =
      (lm.m_implementation.GetValueGivenState cf st2).1)
    (hypo : ChartHypothesis σ) (yields : List (List Word)) (p : Nat) (w : Word)
    (s : ChartScoreState σ) (hist : List Word) (hp : p ≠ 0)
    (hslot : SlotOk lm hypo yields p w)
    (hsc : assignedScore s = flatScore lm hist)
    (hlen : s.contextFactor.length ≤ GetNGramOrder lm)
    (htail : lastN (GetNGramOrder lm - 1) s.contextFactor =
      lastN (GetNGramOrder lm - 1) hist) :
    ∃ s1, EvaluateChart.body lm hypo p w s = Except.ok s1 ∧
      assignedScore s1 = flatScore lm (hist ++ slotYield hypo yields p w) ∧
      s1.contextFactor.length ≤ GetNGramOrder lm ∧
      lastN (GetNGramOrder lm - 1) s1.contextFactor =
        lastN (GetNGramOrder lm - 1) (hist ++ slotYield hypo yields p w) ∧
      (∀ x ∈ slotYield hypo yields p w,
        x.isNonTerminal = false ∧ x ≠ GetSentenceStartArray lm) := by
  cases hw : w.isNonTerminal with
  | true =>
    simp only [SlotOk, hw, if_true, if_neg hp] at hslot
    obtain ⟨i, child, y, hmap, hchild, hy, hok, hns⟩ := hslot
    have hyield : slotYield hypo yields p w = y := by
      simp [slotYield, hw, hmap, hy]
    have hbody : EvaluateChart.body lm hypo p w s =
        EvaluateChart.interiorNonTerm lm child s := by
      simp [EvaluateChart.body, hw, hmap, hchild, hp]
    obtain ⟨s1, h1, h2, h3, h4⟩ :=
      interiorNonTerm_spec lm hN hwin child y hok hns s hist hlen htail
    rw [hyield, hbody]
    refine ⟨s1, h1, ?_, h3, h4, fun x hx => ⟨hok.1 x hx, hns x hx⟩⟩
    rw [h2, hsc, flatScore_append lm hN hist y hns]
  | false =>
    simp only [SlotOk, hw, Bool.false_eq_true, if_false] at hslot
    have hs := hslot hp
    have hyield : slotYield hypo yields p w = [w] := by
      simp [slotYield, hw]
    obtain ⟨hwn, htail2⟩ := tail_step lm s.contextFactor hist w htail
    rw [hyield, body_terminal_ok lm hN hypo p w s hw hs hlen]
    refine ⟨_, rfl, ?_, ?_, ?_, ?_⟩
    · rw [assignedScore_scoreInWindow, hsc,
        flatScore_append lm hN hist [w] (by simpa using hs), seqScore, seqScore, windowScore,
        ← hwn, hwin _ s.lmState lm.m_implementation.nullContextState]
      ring
    · rw [scoreInWindow_contextFactor, lastN_length]
      omega
    · rw [scoreInWindow_contextFactor]
      exact htail2
    · intro x hx
      rw [List.mem_singleton] at hx
      subst hx
      exact ⟨hw, hs⟩

/-- The rule position 0. -/
theorem body_first_spec (lm : LanguageModel σ) (hN : 1 ≤ GetNGramOrder lm)
    (hwin : ∀ cf st1 st2, (lm.m_implementation.GetValueGivenState cf st1).1 =
      (lm.m_implementation.GetValueGivenState cf st2).1)
    (hypo : ChartHypothesis σ) (yields : List (List Word)) (w : Word)
    (hslot : SlotOk lm hypo yields 0 w) :
    ∃ s1, EvaluateChart.body lm hypo 0 w (EvaluateChart.start lm) = Except.ok s1 ∧
      assignedScore s1 = flatScore lm (slotYield hypo yields 0 w) ∧
      s1.contextFactor.length ≤ GetNGramOrder lm ∧
      lastN (GetNGramOrder lm - 1) s1.contextFactor =
        lastN (GetNGramOrder lm - 1) (slotYield hypo yields 0 w) ∧
      (∀ x ∈ slotYield hypo yields 0 w, x.isNonTerminal = false) ∧
      (∀ x ∈ (slotYield hypo yields 0 w).tail, x ≠ GetSentenceStartArray lm) := by
  have h0 : (EvaluateChart.start lm).contextFactor.length ≤ GetNGramOrder lm := Nat.zero_le _
  cases hw : w.isNonTerminal with
  | true =>
    simp only [SlotOk, hw, if_true] at hslot
    obtain ⟨i, child, y, hmap, hchild, hy, hok, hns⟩ := hslot
    have hyield : slotYield hypo yields 0 w = y := by
      simp [slotYield, hw, hmap, hy]
    have hbody : EvaluateChart.body lm hypo 0 w (EvaluateChart.start lm) =
        EvaluateChart.leadingNonTerm lm child (EvaluateChart.start lm) := by
      simp [EvaluateChart.body, hw, hmap, hchild]
    obtain ⟨hS, -⟩ := ChildOk_scores lm hN hwin child y hok hns
    rw [hyield, hbody, leadingNonTerm_eq lm child _ rfl]
    refine ⟨_, rfl, ?_, ?_, ?_, hok.1, hns⟩
    · simp only [assignedScore]
      rw [← hS]
      ring
    · show (lastN (GetNGramOrder lm - 1) child.GetSuffix).length ≤ _
      rw [lastN_length]
      omega
    · show lastN _ (lastN (GetNGramOrder lm - 1) child.GetSuffix) = _
      rw [hok.2.2.2.1, lastN_lastN _ (Nat.le_refl _), lastN_lastN _ (Nat.le_refl _)]
  | false =>
    have hyield : slotYield hypo yields 0 w = [w] := by
      simp [slotYield, hw]
    have hone : lastN (GetNGramOrder lm) ((EvaluateChart.start lm).contextFactor ++ [w]) = [w] :=
      lastN_of_length_le (by simpa [EvaluateChart.start] using hN)
    rw [hyield]
    by_cases hs : w = GetSentenceStartArray lm
    · have hbody : EvaluateChart.body lm hypo 0 w (EvaluateChart.start lm) =
          Except.ok { EvaluateChart.start lm with
            contextFactor := [w], lmState := lm.m_implementation.beginSentenceState } := by
        simp only [EvaluateChart.body, hw, Bool.not_false, if_true, ShiftOrPush_eq lm hN _ h0,
          hone, if_pos hs]
      rw [hbody]
      refine ⟨_, rfl, ?_, ?_, rfl, ?_, ?_⟩
      · simp [assignedScore, EvaluateChart.start, flatScore, hs, seqScore]
      · simpa using hN
      · intro x hx
        rw [List.mem_singleton] at hx
        subst hx
        exact hw
      · simp
    · rw [body_terminal_ok lm hN hypo 0 w _ hw hs h0, hone]
      refine ⟨_, rfl, ?_, ?_, rfl, ?_, ?_⟩
      · rw [assignedScore_scoreInWindow]
        simp [assignedScore, EvaluateChart.start, flatScore, hs, seqScore, windowScore]
      · simpa [scoreInWindow_contextFactor] using hN
      · intro x hx
        rw [List.mem_singleton] at hx
        subst hx
        exact hw
      · simp

theorem loop_spec (lm : LanguageModel σ) (hN : 1 ≤ GetNGramOrder lm)
    (hwin : ∀ cf st1 st2, (lm.m_implementation.GetValueGivenState cf st1).1 =
      (lm.m_implementation.GetValueGivenState cf st2).1)
    (hypo : ChartHypothesis σ) (yields : List (List Word)) (rest : List Word) :
    ∀ (p : Nat) (s : ChartScoreState σ) (hist : List Word), p ≠ 0 →
      (∀ k w, rest[k]? = some w → SlotOk lm hypo yields (p + k) w) →
      assignedScore s = flatScore lm hist →
      s.contextFactor.length ≤ GetNGramOrder lm →
      lastN (GetNGramOrder lm - 1) s.contextFactor = lastN (GetNGramOrder lm - 1) hist →
      ∃ s1, EvaluateChart.loop lm hypo p rest s = Except.ok s1 ∧
        assignedScore s1 = flatScore lm (hist ++ expandedYield hypo yields p rest) ∧
        (∀ x ∈ expandedYield hypo yields p rest,
          x.isNonTerminal = false ∧ x ≠ GetSentenceStartArray lm) := by
  induction rest with
  | nil =>
    intro p s hist _ _ hsc _ _
    exact ⟨s, rfl, by simpa [expandedYield] using hsc, by simp [expandedYield]⟩
  | cons w rest ih =>
    intro p s hist hp hslots hsc hlen htail
    obtain ⟨s1, hb, h2, h3, h4, h5⟩ := body_spec lm hN hwin hypo yields p w s hist hp
      (by simpa using hslots 0 w (by simp)) hsc hlen htail
    obtain ⟨s2, hl, h6, h7⟩ := ih (p + 1) s1 (hist ++ slotYield hypo yields p w) (by omega)
      (fun k x hk => by
        have := hslots (k + 1) x (by simpa using hk)
        rwa [show p + (k + 1) = p + 1 + k by omega] at this)
      h2 h3 h4
    refine ⟨s2, by simp only [EvaluateChart.loop, hb, hl], ?_, ?_⟩
    · rw [h6, expandedYield, List.append_assoc]
    · intro x hx
      rw [expandedYield] at hx
      rcases List.mem_append.mp hx with h | h
      · exact h5 x h
      · exact h7 x h

theorem mem_tail_append {α : Type} (a b : List α) (x : α) (h : x ∈ (a ++ b).tail) :
    x ∈ a.tail ∨ x ∈ b := by
  cases a with
  | nil => exact Or.inr (List.mem_of_mem_tail h)
  | cons y a =>
    simp only [List.cons_append, List.tail_cons] at h
    rcases List.mem_append.mp h with h | h
    · exact Or.inl h
    · exact Or.inr h

/-- C3 (amended): for every order N ≥ 1, every backend whose score for a word
depends only on the words in the window, and every rule application in which
the sentence-start word occurs at most at the left edge (in the rule only at
position 0, in a child's yield only as the first word of the child in slot 0)
and every slot is filled by a consistent child (terminal yield of length L,
prefix and suffix its first and last min(L, N-1) words, stored score the linear
score of the yield and prefix score the linear score of its first N-1 words,
both on scores passed through `UntransformLMScore`), `EvaluateChart` returns,
and prefix score + finalized score is the `fullScore` `CalcScore` returns for
the fully expanded terminal yield on scores passed through
`UntransformLMScore`. -/
theorem EvaluateChart_composition (lm : LanguageModel σ) (hypo : ChartHypothesis σ)
    (yields : List (List Word)) (hN : 1 ≤ GetNGramOrder lm)
    (hwin : ∀ cf st1 st2, (lm.m_implementation.GetValueGivenState cf st1).1 =
      (lm.m_implementation.GetValueGivenState cf st2).1)
    (hslots : ∀ p w, hypo.currTargetPhrase[p]? = some w → SlotOk lm hypo yields p w) :
    ∃ s, EvaluateChart lm hypo = Except.ok s ∧
      Except.map (fun r => r.fullScore)
          (CalcScore (withUntransformedScores lm)
            (expandedYield hypo yields 0 hypo.currTargetPhrase)) =
        Except.ok (assignedScore s) := by
  unfold EvaluateChart
  cases hph : hypo.currTargetPhrase with
  | nil =>
    exact ⟨_, rfl, by simp [expandedYield, CalcScore, Except.map, assignedScore,
      EvaluateChart.start]⟩
  | cons w rest =>
    rw [hph] at hslots
    obtain ⟨s1, hb, h2, h3, h4, h5, h6⟩ := body_first_spec lm hN hwin hypo yields w
      (hslots 0 w (by simp))
    obtain ⟨s2, hl, h7, h8⟩ := loop_spec lm hN hwin hypo yields rest 1 s1
      (slotYield hypo yields 0 w) (by omega)
      (fun k x hk => by
        have := hslots (k + 1) x (by simpa using hk)
        rwa [show k + 1 = 1 + k by omega] at this)
      h2 h3 h4
    refine ⟨s2, by simp only [EvaluateChart.loop, Nat.zero_add, hb, hl], ?_⟩
    rw [h7]
    apply CalcScore_flat lm hN hwin
    · intro x hx
      rw [expandedYield] at hx
      rcases List.mem_append.mp hx with h | h
      · exact h5 x h
      · exact (h8 x h).1
    · intro x hx
      rw [expandedYield] at hx
      rcases mem_tail_append _ _ x hx with h | h
      · exact h6 x h
      · exact (h8 x h).2

theorem exampleComposedRule_slots (p : Nat) (w : Word)
    (h : exampleComposedRule.currTargetPhrase[p]? = some w) :
    SlotOk (stubLM 3 divideByLn10) exampleComposedRule exampleComposedYields p w := by
  have hlong : ChildOk (stubLM 3 divideByLn10) exampleLongChild
      [terminal 3, terminal 4, terminal 5, terminal 6] :=
    ⟨by decide, rfl, rfl, rfl, by decide!, by decide!⟩
  have hshort : ChildOk (stubLM 3 divideByLn10) exampleShortChild [terminal 8] :=
    ⟨by decide, rfl, rfl, rfl, by decide!, by decide!⟩
  rcases p with _ | _ | _ | _ | p
  · cases h
    exact fun h0 => absurd rfl h0
  · cases h
    exact ⟨0, exampleLongChild, _, rfl, rfl, rfl, hlong, by decide⟩
  · cases h
    exact fun _ => by decide
  · cases h
    exact ⟨1, exampleShortChild, _, rfl, rfl, rfl, hshort, by decide⟩
  · simp [exampleComposedRule] at h

/-- The rule `2 [X] 7 [Y]` at order 3 over the children `3 4 5 6` and `8`, with
scores divided by ln 10: the assigned score is the linear score of
`2 3 4 5 6 7 8` on divided scores. -/
theorem EvaluateChart_composition_witness :
    1 ≤ GetNGramOrder (stubLM 3 divideByLn10) ∧
      expandedYield exampleComposedRule exampleComposedYields 0
          exampleComposedRule.currTargetPhrase =
        [terminal 2, terminal 3, terminal 4, terminal 5, terminal 6, terminal 7, terminal 8] ∧
      ∃ s, EvaluateChart (stubLM 3 divideByLn10) exampleComposedRule = Except.ok s ∧
        Except.map (fun r => r.fullScore)
            (CalcScore (withUntransformedScores (stubLM 3 divideByLn10))
              (expandedYield exampleComposedRule exampleComposedYields 0
                exampleComposedRule.currTargetPhrase)) =
          Except.ok (assignedScore s) :=
  ⟨by decide, by decide,
    EvaluateChart_composition (stubLM 3 divideByLn10) exampleComposedRule exampleComposedYields
      (by decide) (fun _ _ _ => rfl) exampleComposedRule_slots⟩

/-- C3 as stated fails in two ways. With scores divided by ln 10, the rule
`[X] 7` over the child `5 6`, whose stored score `61/3` and prefix score `5/3`
are what `CalcScore` returns for `5 6` and `5`, is assigned
`61/3 + (67/3) / ln 10`, not the `128/3` that `CalcScore` returns for `5 6 7`.
And with scores left as they are, the rule `4 [X]` over the child `<s> 5`
(stored score `5/3`, prefix score 0, as `CalcScore` returns them) is assigned a
score while `CalcScore` fails its assertion on `4 <s> 5`. -/
theorem EvaluateChart_composition_needs_untransformed_and_left_edge :
    (Except.map (fun r => r.fullScore)
          (CalcScore (stubLM 2 divideByLn10) [terminal 5, terminal 6]) =
        Except.ok exampleBigramChild.lmScore ∧
      Except.map (fun r => r.fullScore) (CalcScore (stubLM 2 divideByLn10) [terminal 5]) =
        Except.ok exampleBigramChild.ffState.prefixScore ∧
      Except.map assignedScore (EvaluateChart (stubLM 2 divideByLn10) exampleBigramLeadingRule) =
        Except.ok (61 / 3 + divideByLn10 (67 / 3)) ∧
      Except.map (fun r => r.fullScore)
          (CalcScore (stubLM 2 divideByLn10) [terminal 5, terminal 6, terminal 7]) =
        Except.ok (128 / 3) ∧
      Except.map assignedScore (EvaluateChart (stubLM 2 divideByLn10) exampleBigramLeadingRule) ≠
        Except.map (fun r => r.fullScore)
          (CalcScore (stubLM 2 divideByLn10) [terminal 5, terminal 6, terminal 7])) ∧
    (Except.map (fun r => r.fullScore) (CalcScore (stubLM 2 id) [terminal 0, terminal 5]) =
        Except.ok exampleStartChild.lmScore ∧
      Except.map (fun r => r.fullScore) (CalcScore (stubLM 2 id) [terminal 0]) =
        Except.ok exampleStartChild.ffState.prefixScore ∧
      Except.map assignedScore (EvaluateChart (stubLM 2 id) exampleStartRule) =
        Except.ok (4 / 3 + 40 / 3 + 5 / 3) ∧
      Except.map (fun r => r.fullScore)
          (CalcScore (stubLM 2 id) [terminal 4, terminal 0, terminal 5]) =
        Except.error Fault.assertion) := by
  refine ⟨⟨?_, ?_, ?_, ?_, ?_⟩, ?_, ?_, ?_, ?_⟩ <;> decide!

/-! ## The interior slot in closed form -/

/-- The prefix loop over any words, for an order N ≥ 1 and a window within
capacity: every word is pushed, scored and counted. -/
theorem runWords_scorePrefixWord_ok (lm : LanguageModel σ) (hN : 1 ≤ GetNGramOrder lm)
    (ws : List Word) :
    ∀ (s : ChartScoreState σ), s.contextFactor.length ≤ GetNGramOrder lm →
      ∃ s0, runWords (scorePrefixWord lm) ws s = Except.ok s0 ∧
        s0.contextFactor = lastN (GetNGramOrder lm) (s.contextFactor ++ ws) ∧
        s0.wordPos = s.wordPos + ws.length ∧
        s0.queries.length = s.queries.length + ws.length := by
  induction ws with
  | nil =>
    intro s hlen
    exact ⟨s, rfl, by simp [lastN_of_length_le hlen], rfl, rfl⟩
  | cons w ws ih =>
    intro s hlen
    obtain ⟨s0, h1, h2, h3, h4⟩ :=
      ih (scoreInWindow lm s (lastN (GetNGramOrder lm) (s.contextFactor ++ [w])))
        (by rw [scoreInWindow_contextFactor, lastN_length]; omega)
    refine ⟨s0, ?_, ?_, ?_, ?_⟩
    · simp only [runWords, scorePrefixWord, ShiftOrPush_eq lm hN _ hlen, h1]
    · rw [h2, scoreInWindow_contextFactor, lastN_append_lastN, List.append_assoc,
        List.singleton_append]
    · have hwp : (scoreInWindow lm s
          (lastN (GetNGramOrder lm) (s.contextFactor ++ [w]))).wordPos = s.wordPos + 1 := rfl
      rw [h3, hwp, List.length_cons]
      omega
    · have hq : (scoreInWindow lm s
          (lastN (GetNGramOrder lm) (s.contextFactor ++ [w]))).queries.length =
          s.queries.length + 1 := by
        simp [scoreInWindow]
      rw [h4, hq, List.length_cons]
      omega

/-- A loop over `GetWord(i)` for `start ≤ i < size` is the loop over the words
from `start` on, also when `start` is past the end (the loop body never
runs). -/
theorem forWords_to_end {α : Type} (phrase : Phrase) (body : α → Word → Except Fault α)
    (start : Nat) (s : α) :
    forWords phrase body (phrase.length - start) start s =
      runWords body (phrase.drop start) s := by
  rcases Nat.lt_or_ge phrase.length start with h | h
  · rw [Nat.sub_eq_zero_of_le (Nat.le_of_lt h), forWords_zero,
      List.drop_eq_nil_of_le (Nat.le_of_lt h)]
    rfl
  · rw [forWords_eq_runWords _ _ _ _ _ (by omega)]
    congr 1
    apply List.take_of_length_le
    rw [List.length_drop]

/-- The interior slot in closed form, for an order N ≥ 1, a window within
capacity and a child whose prefix holds the min(N-1, L) words the loop reads:
`s0` is the state after the prefix loop. -/
theorem interiorNonTerm_eq (lm : LanguageModel σ) (hN : 1 ≤ GetNGramOrder lm)
    (prevHypo : PrevHypo σ) (s : ChartScoreState σ)
    (hlen : s.contextFactor.length ≤ GetNGramOrder lm)
    (hpre : min (GetNGramOrder lm - 1) prevHypo.numTargetTerminals ≤
      prevHypo.GetPrefix.length) :
    ∃ s0,
      runWords (scorePrefixWord lm)
          (prevHypo.GetPrefix.take (min (GetNGramOrder lm - 1) prevHypo.numTargetTerminals))
          s = Except.ok s0 ∧
        s0.contextFactor.length ≤ GetNGramOrder lm ∧
        EvaluateChart.interiorNonTerm lm prevHypo s =
          Except.ok
            (if prevHypo.numTargetTerminals > GetNGramOrder lm - 1 then
              { contextFactor :=
                  lastN (GetNGramOrder lm)
                    (s0.contextFactor ++
                      prevHypo.GetSuffix.drop
                        (suffixStart prevHypo.GetSuffix.length
                          (min (prevHypo.numTargetTerminals - (GetNGramOrder lm - 1))
                            (GetNGramOrder lm - 1))))
                lmState := prevHypo.ffState.rightContext
                prefixScore := s0.prefixScore
                finalizedScore :=
                  s0.finalizedScore + (prevHypo.lmScore - prevHypo.ffState.prefixScore)
                wordPos := s0.wordPos + prevHypo.numTargetTerminals
                queries := s0.queries }
            else s0) := by
  obtain ⟨s0, h1, h2, h3, h4⟩ := runWords_scorePrefixWord_ok lm hN
    (prevHypo.GetPrefix.take (min (GetNGramOrder lm - 1) prevHypo.numTargetTerminals)) s hlen
  have hl0 : s0.contextFactor.length ≤ GetNGramOrder lm := by
    rw [h2, lastN_length]
    omega
  refine ⟨s0, h1, hl0, ?_⟩
  have hom := orderMinusOne_of_pos lm hN
  have hloop1 : forWords prevHypo.GetPrefix (scorePrefixWord lm)
      (min (GetNGramOrder lm - 1) prevHypo.numTargetTerminals) 0 s = Except.ok s0 := by
    rw [forWords_eq_runWords _ _ _ _ _ (by omega), List.drop_zero]
    exact h1
  unfold EvaluateChart.interiorNonTerm
  simp only [hom, hloop1]
  by_cases hbig : prevHypo.numTargetTerminals > GetNGramOrder lm - 1
  · have hrem : (if prevHypo.numTargetTerminals - (GetNGramOrder lm - 1) > GetNGramOrder lm - 1
        then GetNGramOrder lm - 1 else prevHypo.numTargetTerminals - (GetNGramOrder lm - 1)) =
        min (prevHypo.numTargetTerminals - (GetNGramOrder lm - 1)) (GetNGramOrder lm - 1) := by
      split <;> omega
    have hpush := runWords_pushUncounted lm hN
      (prevHypo.GetSuffix.drop
        (suffixStart prevHypo.GetSuffix.length
          (min (prevHypo.numTargetTerminals - (GetNGramOrder lm - 1)) (GetNGramOrder lm - 1))))
      { contextFactor := s0.contextFactor, lmState := prevHypo.ffState.rightContext,
        prefixScore := s0.prefixScore,
        finalizedScore := s0.finalizedScore + (prevHypo.lmScore - prevHypo.ffState.prefixScore),
        wordPos := s0.wordPos, queries := s0.queries } hl0
    simp only [if_pos hbig, hrem]
    rw [forWords_to_end, hpush]
  · simp only [if_neg hbig]

/-- C11 (amended): for every order N ≥ 1, every window within capacity and
every interior non-terminal slot filled by a child with L terminals (whose
prefix holds the min(L, N-1) words the loop reads), `EvaluateChart` advances
the running counter by L when L ≤ N-1 and by (N-1) + L when L > N-1: the N-1
rescored prefix words are counted one by one and the full length is added on
top. After a child with L > N-1 the counter is at least N in either count, so
every later word is classified as finalized. -/
theorem EvaluateChart_interior_counter (lm : LanguageModel σ) (hN : 1 ≤ GetNGramOrder lm)
    (prevHypo : PrevHypo σ) (s : ChartScoreState σ)
    (hlen : s.contextFactor.length ≤ GetNGramOrder lm)
    (hpre : min (GetNGramOrder lm - 1) prevHypo.numTargetTerminals ≤
      prevHypo.GetPrefix.length) :
    ∃ s1, EvaluateChart.interiorNonTerm lm prevHypo s = Except.ok s1 ∧
      (prevHypo.numTargetTerminals ≤ GetNGramOrder lm - 1 →
        s1.wordPos = s.wordPos + prevHypo.numTargetTerminals) ∧
      (prevHypo.numTargetTerminals > GetNGramOrder lm - 1 →
        s1.wordPos = s.wordPos + (GetNGramOrder lm - 1) + prevHypo.numTargetTerminals ∧
          GetNGramOrder lm ≤ s1.wordPos ∧
          GetNGramOrder lm ≤ s.wordPos + prevHypo.numTargetTerminals) := by
  obtain ⟨s0, h1, -, h3⟩ := interiorNonTerm_eq lm hN prevHypo s hlen hpre
  obtain ⟨s0', h1', -, hw, -⟩ := runWords_scorePrefixWord_ok lm hN
    (prevHypo.GetPrefix.take (min (GetNGramOrder lm - 1) prevHypo.numTargetTerminals)) s hlen
  rw [h1] at h1'
  cases h1'
  rw [List.length_take, Nat.min_eq_left hpre] at hw
  refine ⟨_, h3, ?_, ?_⟩
  · intro hsmall
    rw [if_neg (by omega), hw, Nat.min_eq_right hsmall]
  · intro hbig
    rw [if_pos hbig]
    show s0.wordPos + prevHypo.numTargetTerminals = _ ∧
      GetNGramOrder lm ≤ s0.wordPos + prevHypo.numTargetTerminals ∧ _
    rw [hw, Nat.min_eq_left (by omega)]
    omega

/-- The slot of the rule `4 [X] 7` at order 2: the child `5 6` has L = 2 > N-1
terminals and moves the counter from 1 to 1 + (N-1) + L = 4. -/
theorem EvaluateChart_interior_counter_witness :
    1 ≤ GetNGramOrder (stubLM 2 id) ∧
      ∃ s1, EvaluateChart.interiorNonTerm (stubLM 2 id) exampleBigramChild exampleBeforeSlot =
          Except.ok s1 ∧
        (exampleBigramChild.numTargetTerminals > GetNGramOrder (stubLM 2 id) - 1 →
          s1.wordPos =
              exampleBeforeSlot.wordPos + (GetNGramOrder (stubLM 2 id) - 1) +
                exampleBigramChild.numTargetTerminals ∧
            GetNGramOrder (stubLM 2 id) ≤ s1.wordPos ∧
            GetNGramOrder (stubLM 2 id) ≤
              exampleBeforeSlot.wordPos + exampleBigramChild.numTargetTerminals) :=
  ⟨by decide,
    (EvaluateChart_interior_counter (stubLM 2 id) (by decide) exampleBigramChild
      exampleBeforeSlot (by decide) (by decide)).imp (fun _ h => ⟨h.1, h.2.2⟩)⟩

/-- C11 as stated fails: at order 2 the child `5 6` of the rule `4 [X] 7` has
L = 2 terminals, and the slot moves the counter from 1 to 4, not to 1 + L = 3;
the whole rule ends with the counter at 5 for a yield of 4 words. -/
theorem EvaluateChart_interior_counter_counts_prefix_twice :
    Except.map (fun s => s.wordPos)
        (EvaluateChart.interiorNonTerm (stubLM 2 id) exampleBigramChild exampleBeforeSlot) =
      Except.ok 4 ∧
    Except.map (fun s => s.wordPos)
        (EvaluateChart.interiorNonTerm (stubLM 2 id) exampleBigramChild exampleBeforeSlot) ≠
      Except.ok (exampleBeforeSlot.wordPos + exampleBigramChild.numTargetTerminals) ∧
    Except.map (fun s => s.wordPos) (EvaluateChart (stubLM 2 id) exampleBigramRule) =
      Except.ok 5 := by
  refine ⟨?_, ?_, ?_⟩ <;> decide!

/-- C14: for every order N ≥ 1, every window within capacity and every
interior non-terminal slot filled by a child with L > N-1 terminals whose
prefix and suffix are the first and last N-1 words of its yield, `EvaluateChart`
scores the N-1 prefix words (reaching the state `s0`), then pushes the last
min(L-(N-1), N-1) words of the yield unscored; afterwards the trailing N-1
entries of the window are the last N-1 words of the child's yield in order, the
finalized score has grown by the child's stored score minus its prefix score
on top of the rescored prefix words, and the state is the child's right-edge
state. -/
theorem EvaluateChart_interior_large_child (lm : LanguageModel σ)
    (hN : 1 ≤ GetNGramOrder lm) (prevHypo : PrevHypo σ) (y : List Word)
    (s : ChartScoreState σ) (hlen : s.contextFactor.length ≤ GetNGramOrder lm)
    (hL : prevHypo.numTargetTerminals = y.length)
    (hbig : y.length > GetNGramOrder lm - 1)
    (hpre : prevHypo.GetPrefix = y.take (GetNGramOrder lm - 1))
    (hsuf : prevHypo.GetSuffix = lastN (GetNGramOrder lm - 1) y) :
    ∃ s0 s1, runWords (scorePrefixWord lm) (y.take (GetNGramOrder lm - 1)) s = Except.ok s0 ∧
      s0.queries.length = s.queries.length + (GetNGramOrder lm - 1) ∧
      EvaluateChart.interiorNonTerm lm prevHypo s = Except.ok s1 ∧
      s1.contextFactor =
        lastN (GetNGramOrder lm)
          (s0.contextFactor ++
            lastN (min (y.length - (GetNGramOrder lm - 1)) (GetNGramOrder lm - 1)) y) ∧
      lastN (GetNGramOrder lm - 1) s1.contextFactor = lastN (GetNGramOrder lm - 1) y ∧
      (lastN (GetNGramOrder lm - 1) y).length = GetNGramOrder lm - 1 ∧
      s1.finalizedScore =
        s0.finalizedScore + (prevHypo.lmScore - prevHypo.ffState.prefixScore) ∧
      s1.prefixScore = s0.prefixScore ∧
      s1.lmState = prevHypo.ffState.rightContext ∧
      s1.queries = s0.queries := by
  have htk : (y.take (GetNGramOrder lm - 1)).length = GetNGramOrder lm - 1 := by
    rw [List.length_take]
    omega
  have hmin : min (GetNGramOrder lm - 1) prevHypo.numTargetTerminals = GetNGramOrder lm - 1 := by
    rw [hL]
    omega
  obtain ⟨s0, h1, hl0, h3⟩ := interiorNonTerm_eq lm hN prevHypo s hlen
    (by rw [hmin, hpre, htk])
  have htake : prevHypo.GetPrefix.take
      (min (GetNGramOrder lm - 1) prevHypo.numTargetTerminals) =
      y.take (GetNGramOrder lm - 1) := by
    rw [hmin, hpre]
    exact List.take_of_length_le (le_of_eq htk)
  rw [htake] at h1
  obtain ⟨s0', h1', hcf0, -, hq0⟩ :=
    runWords_scorePrefixWord_ok lm hN (y.take (GetNGramOrder lm - 1)) s hlen
  rw [h1] at h1'
  cases h1'
  have hsize : prevHypo.GetSuffix.length = GetNGramOrder lm - 1 := by
    rw [hsuf, lastN_length]
    omega
  have hdrop : prevHypo.GetSuffix.drop
      (suffixStart prevHypo.GetSuffix.length
        (min (prevHypo.numTargetTerminals - (GetNGramOrder lm - 1)) (GetNGramOrder lm - 1))) =
      lastN (min (y.length - (GetNGramOrder lm - 1)) (GetNGramOrder lm - 1)) y := by
    unfold suffixStart
    rw [if_pos (by rw [hsize]; exact Nat.min_le_right _ _), hL, drop_eq_lastN, hsuf,
      lastN_lastN _ (Nat.min_le_right _ _)]
  rw [if_pos (by rw [hL]; exact hbig), hdrop] at h3
  refine ⟨s0, _, h1, by rw [hq0, htk], h3, rfl, ?_, by rw [lastN_length]; omega, rfl, rfl, rfl,
    rfl⟩
  show lastN (GetNGramOrder lm - 1) (lastN (GetNGramOrder lm) (s0.contextFactor ++ _)) = _
  have hT : lastN (GetNGramOrder lm - 1) s0.contextFactor = y.take (GetNGramOrder lm - 1) := by
    rw [hcf0, lastN_lastN _ (Nat.sub_le _ _),
      lastN_append_of_le s.contextFactor _ (le_of_eq htk.symm),
      lastN_of_length_le (le_of_eq htk)]
  rw [lastN_lastN _ (Nat.sub_le _ _), ← lastN_append_lastN, hT,
    lastN_take_append_lastN _ _ hbig]

/-- The slot of the rule `4 [X] 7` at order 2 over the child `5 6`. -/
theorem EvaluateChart_interior_large_child_witness :
    1 ≤ GetNGramOrder (stubLM 2 id) ∧
      [terminal 5, terminal 6].length > GetNGramOrder (stubLM 2 id) - 1 ∧
      ∃ s0 s1,
        runWords (scorePrefixWord (stubLM 2 id))
            ([terminal 5, terminal 6].take (GetNGramOrder (stubLM 2 id) - 1))
            exampleBeforeSlot = Except.ok s0 ∧
          EvaluateChart.interiorNonTerm (stubLM 2 id) exampleBigramChild exampleBeforeSlot =
            Except.ok s1 ∧
          lastN (GetNGramOrder (stubLM 2 id) - 1) s1.contextFactor =
            lastN (GetNGramOrder (stubLM 2 id) - 1) [terminal 5, terminal 6] ∧
          s1.finalizedScore =
            s0.finalizedScore +
              (exampleBigramChild.lmScore - exampleBigramChild.ffState.prefixScore) :=
  ⟨by decide, by decide,
    (EvaluateChart_interior_large_child (stubLM 2 id) (by decide) exampleBigramChild
      [terminal 5, terminal 6] exampleBeforeSlot (by decide) rfl (by decide) rfl rfl).imp
      (fun _ h => h.imp (fun _ g => ⟨g.1, g.2.2.1, g.2.2.2.2.1, g.2.2.2.2.2.2.1⟩))⟩

/-! ## Short interior children: only the prefix words matter -/

theorem forWords_congr {α : Type} (p1 p2 : Phrase) (body : α → Word → Except Fault α)
    (count : Nat) :
    ∀ (i : Nat) (s : α), (∀ k, i ≤ k → k < i + count → p1[k]? = p2[k]?) →
      forWords p1 body count i s = forWords p2 body count i s := by
  induction count with
  | zero => intro i s _; rfl
  | succ n ih =>
    intro i s h
    simp only [forWords, h i (Nat.le_refl _) (by omega)]
    cases hget : p2[i]? with
    | none => rfl
    | some w =>
      simp only []
      cases hb : body s w with
      | error e => rfl
      | ok s1 =>
        simp only []
        exact ih (i + 1) s1 (fun k hk1 hk2 => h k (by omega) (by omega))

/-- An interior slot with a child of L ≤ N-1 terminals is processed from the
child's L and its first L prefix words alone. -/
theorem interiorNonTerm_small_congr (lm : LanguageModel σ) (c1 c2 : PrevHypo σ)
    (s : ChartScoreState σ)
    (hL : c1.numTargetTerminals = c2.numTargetTerminals)
    (hsmall : c1.numTargetTerminals ≤ orderMinusOne lm)
    (hpre : c1.GetPrefix.take c1.numTargetTerminals =
      c2.GetPrefix.take c1.numTargetTerminals) :
    EvaluateChart.interiorNonTerm lm c1 s = EvaluateChart.interiorNonTerm lm c2 s := by
  have hloop : forWords c1.GetPrefix (scorePrefixWord lm)
      (min (orderMinusOne lm) c1.numTargetTerminals) 0 s =
      forWords c2.GetPrefix (scorePrefixWord lm)
        (min (orderMinusOne lm) c1.numTargetTerminals) 0 s := by
    apply forWords_congr
    intro k _ hk
    have hk' : k < c1.numTargetTerminals := by
      rw [Nat.min_eq_right hsmall] at hk
      omega
    have e1 : (c1.GetPrefix.take c1.numTargetTerminals)[k]? = c1.GetPrefix[k]? := by
      rw [List.getElem?_take, if_pos hk']
    have e2 : (c2.GetPrefix.take c1.numTargetTerminals)[k]? = c2.GetPrefix[k]? := by
      rw [List.getElem?_take, if_pos hk']
    rw [← e1, ← e2, hpre]
  unfold EvaluateChart.interiorNonTerm
  simp only [← hL, hloop, if_neg (Nat.not_lt.mpr hsmall)]

/-- C19: for every rule application, two runs of `EvaluateChart` that differ
only in children that fill interior slots (not slot 0) and have L ≤ N-1
terminals, and there only in fields other than L and the first L prefix words
(the stored score, the stored prefix score, the right-edge state, the suffix),
give the same result: prefix score, finalized score, right-edge state, window,
counter and backend calls. -/
theorem EvaluateChart_small_child_independence (lm : LanguageModel σ)
    (hypo1 hypo2 : ChartHypothesis σ)
    (hrule : hypo1.currTargetPhrase = hypo2.currTargetPhrase)
    (hmap : hypo1.nonTermIndexMap = hypo2.nonTermIndexMap)
    (hkids : ∀ i, hypo1.prevHypos[i]? = hypo2.prevHypos[i]? ∨
      ((∀ w, hypo1.currTargetPhrase[0]? = some w → w.isNonTerminal = true →
          hypo1.nonTermIndexMap[0]? ≠ some i) ∧
        ∃ c1 c2, hypo1.prevHypos[i]? = some c1 ∧ hypo2.prevHypos[i]? = some c2 ∧
          c1.numTargetTerminals = c2.numTargetTerminals ∧
          c1.numTargetTerminals ≤ orderMinusOne lm ∧
          c1.GetPrefix.take c1.numTargetTerminals =
            c2.GetPrefix.take c1.numTargetTerminals)) :
    EvaluateChart lm hypo1 = EvaluateChart lm hypo2 := by
  -- one rule position: the same step in both runs
  have hbody : ∀ (p : Nat) (w : Word) (s : ChartScoreState σ),
      hypo1.currTargetPhrase[p]? = some w →
      EvaluateChart.body lm hypo1 p w s = EvaluateChart.body lm hypo2 p w s := by
    intro p w s hw
    unfold EvaluateChart.body
    cases hnt : w.isNonTerminal with
    | false => rfl
    | true =>
      simp only [Bool.not_true, Bool.false_eq_true, if_false, ← hmap]
      cases hi : hypo1.nonTermIndexMap[p]? with
      | none => rfl
      | some i =>
        rcases hkids i with heq | ⟨hnot, c1, c2, hc1, hc2, hL, hsmall, hpre⟩
        · simp only [heq]
        · simp only [hc1, hc2]
          by_cases hp : p = 0
          · subst hp
            exact absurd hi (hnot w hw hnt)
          · simp only [if_neg hp]
            exact interiorNonTerm_small_congr lm c1 c2 s hL hsmall hpre
  have hloop : ∀ (rest : List Word) (p : Nat) (s : ChartScoreState σ),
      (∀ k w, rest[k]? = some w → hypo1.currTargetPhrase[p + k]? = some w) →
      EvaluateChart.loop lm hypo1 p rest s = EvaluateChart.loop lm hypo2 p rest s := by
    intro rest
    induction rest with
    | nil => intro p s _; rfl
    | cons w rest ih =>
      intro p s h
      simp only [EvaluateChart.loop, hbody p w s (by simpa using h 0 w (by simp))]
      cases EvaluateChart.body lm hypo2 p w s with
      | error e => rfl
      | ok s1 =>
        exact ih (p + 1) s1 (fun k x hk => by
          have := h (k + 1) x (by simpa using hk)
          rwa [show p + (k + 1) = p + 1 + k by omega] at this)
  unfold EvaluateChart
  rw [← hrule]
  exact hloop hypo1.currTargetPhrase 0 (EvaluateChart.start lm)
    (fun k w hk => by simpa using hk)

/-- The rule `4 [X] 7` at order 3 with the counting backend, over two children
`5` that differ in stored score, prefix score, right-edge state and suffix. -/
theorem EvaluateChart_small_child_independence_witness :
    exampleSmallChildA.lmScore ≠ exampleSmallChildB.lmScore ∧
      exampleSmallChildA.ffState ≠ exampleSmallChildB.ffState ∧
      exampleSmallChildA.GetSuffix ≠ exampleSmallChildB.GetSuffix ∧
      EvaluateChart (countingLM 3 id) exampleSmallRuleA =
        EvaluateChart (countingLM 3 id) exampleSmallRuleB :=
  ⟨by decide!, by decide!, by decide,
    EvaluateChart_small_child_independence (countingLM 3 id) exampleSmallRuleA exampleSmallRuleB
      rfl rfl (fun i => by
        rcases i with _ | i
        · exact Or.inr ⟨fun w hw hnt => (by cases hw; cases hnt),
            exampleSmallChildA, exampleSmallChildB, rfl, rfl, rfl, (by decide), rfl⟩
        · exact Or.inl rfl)⟩

/-! ## Reads of a child's prefix and suffix stay within bounds -/

/-- One rule position, for an order N ≥ 1, a window within capacity (empty at
position 0) and, at a slot, a child that exposes min(L, N-1) prefix and suffix
words: the step returns with a window within capacity, or fails the assertion
on a sentence-start word after position 0. -/
theorem body_in_bounds (lm : LanguageModel σ) (hN : 1 ≤ GetNGramOrder lm)
    (hypo : ChartHypothesis σ) (p : Nat) (w : Word) (s : ChartScoreState σ)
    (hempty : p = 0 → s.contextFactor = [])
    (hlen : s.contextFactor.length ≤ GetNGramOrder lm)
    (hslot : w.isNonTerminal = true →
      ∃ i child, hypo.nonTermIndexMap[p]? = some i ∧ hypo.prevHypos[i]? = some child ∧
        child.GetPrefix.length = min child.numTargetTerminals (GetNGramOrder lm - 1) ∧
        child.GetSuffix.length = min child.numTargetTerminals (GetNGramOrder lm - 1)) :
    (∃ s1, EvaluateChart.body lm hypo p w s = Except.ok s1 ∧
        s1.contextFactor.length ≤ GetNGramOrder lm) ∨
      EvaluateChart.body lm hypo p w s = Except.error Fault.assertion := by
  cases hw : w.isNonTerminal with
  | false =>
    by_cases hs : w = GetSentenceStartArray lm
    · by_cases hp : p = 0
      · left
        have hb : EvaluateChart.body lm hypo p w s =
            Except.ok { s with
              contextFactor := lastN (GetNGramOrder lm) (s.contextFactor ++ [w])
              lmState := lm.m_implementation.beginSentenceState } := by
          simp only [EvaluateChart.body, hw, Bool.not_false, if_true,
            ShiftOrPush_eq lm hN _ hlen, if_pos hs, if_pos hp]
        refine ⟨_, hb, ?_⟩
        show (lastN (GetNGramOrder lm) _).length ≤ _
        rw [lastN_length]
        omega
      · right
        simp only [EvaluateChart.body, hw, Bool.not_false, if_true,
          ShiftOrPush_eq lm hN _ hlen, if_pos hs, if_neg hp]
    · left
      refine ⟨_, body_terminal_ok lm hN hypo p w s hw hs hlen, ?_⟩
      rw [scoreInWindow_contextFactor, lastN_length]
      omega
  | true =>
    left
    obtain ⟨i, child, hmap, hchild, hpre, hsuf⟩ := hslot hw
    by_cases hp : p = 0
    · subst hp
      have hbody : EvaluateChart.body lm hypo 0 w s =
          EvaluateChart.leadingNonTerm lm child s := by
        simp [EvaluateChart.body, hw, hmap, hchild]
      rw [hbody, leadingNonTerm_eq lm child s (hempty rfl)]
      refine ⟨_, rfl, ?_⟩
      show (lastN (GetNGramOrder lm - 1) child.GetSuffix).length ≤ _
      rw [lastN_length]
      omega
    · have hbody : EvaluateChart.body lm hypo p w s =
          EvaluateChart.interiorNonTerm lm child s := by
        simp [EvaluateChart.body, hw, hmap, hchild, hp]
      obtain ⟨s0, -, hl0, h3⟩ := interiorNonTerm_eq lm hN child s hlen
        (by rw [hpre]; omega)
      rw [hbody, h3]
      refine ⟨_, rfl, ?_⟩
      split
      · show (lastN (GetNGramOrder lm) _).length ≤ _
        rw [lastN_length]
        omega
      · exact hl0

theorem loop_in_bounds (lm : LanguageModel σ) (hN : 1 ≤ GetNGramOrder lm)
    (hypo : ChartHypothesis σ) (rest : List Word) :
    ∀ (p : Nat) (s : ChartScoreState σ), (p = 0 → s.contextFactor = []) →
      s.contextFactor.length ≤ GetNGramOrder lm →
      (∀ k w, rest[k]? = some w → w.isNonTerminal = true →
        ∃ i child, hypo.nonTermIndexMap[p + k]? = some i ∧ hypo.prevHypos[i]? = some child ∧
          child.GetPrefix.length = min child.numTargetTerminals (GetNGramOrder lm - 1) ∧
          child.GetSuffix.length = min child.numTargetTerminals (GetNGramOrder lm - 1)) →
      (∃ s1, EvaluateChart.loop lm hypo p rest s = Except.ok s1) ∨
        EvaluateChart.loop lm hypo p rest s = Except.error Fault.assertion := by
  induction rest with
  | nil => intro p s _ _ _; exact Or.inl ⟨s, rfl⟩
  | cons w rest ih =>
    intro p s hempty hlen hslots
    rcases body_in_bounds lm hN hypo p w s hempty hlen
        (by simpa using hslots 0 w (by simp)) with ⟨s1, hb, hl1⟩ | hb
    · simp only [EvaluateChart.loop, hb]
      exact ih (p + 1) s1 (fun h => by omega) hl1 (fun k x hk hx => by
        have := hslots (k + 1) x (by simpa using hk) hx
        rwa [show p + (k + 1) = p + 1 + k by omega] at this)
    · right
      simp only [EvaluateChart.loop, hb]

/-- C20: for every order N ≥ 1 and every rule application in which each slot
is filled by a child with L terminals that exposes a prefix and a suffix of
exactly min(L, N-1) words, `EvaluateChart` never reads a word index past the
end: the run does not end in an out-of-bounds fault (it returns, or fails the
assertion on a misplaced sentence-start word). For such a child the prefix
loop reads the indices below min(N-1, L), which the prefix has, and in the
interior branch for L > N-1 the clamped `remainingWords` is at most the suffix
size, so the start index `GetSuffix().GetSize() - remainingWords` does not
wrap around. -/
theorem EvaluateChart_reads_in_bounds (lm : LanguageModel σ) (hN : 1 ≤ GetNGramOrder lm)
    (hypo : ChartHypothesis σ)
    (hslots : ∀ (p : Nat) (w : Word), hypo.currTargetPhrase[p]? = some w →
      w.isNonTerminal = true →
      ∃ (i : Nat) (child : PrevHypo σ),
        hypo.nonTermIndexMap[p]? = some i ∧ hypo.prevHypos[i]? = some child ∧
        child.GetPrefix.length = min child.numTargetTerminals (GetNGramOrder lm - 1) ∧
        child.GetSuffix.length = min child.numTargetTerminals (GetNGramOrder lm - 1)) :
    EvaluateChart lm hypo ≠ Except.error Fault.outOfBounds ∧
      ((∃ s, EvaluateChart lm hypo = Except.ok s) ∨
        EvaluateChart lm hypo = Except.error Fault.assertion) ∧
      ∀ (child : PrevHypo σ),
        child.GetPrefix.length = min child.numTargetTerminals (GetNGramOrder lm - 1) →
        child.GetSuffix.length = min child.numTargetTerminals (GetNGramOrder lm - 1) →
        min (orderMinusOne lm) child.numTargetTerminals ≤ child.GetPrefix.length ∧
          (child.numTargetTerminals > orderMinusOne lm →
            (if child.numTargetTerminals - orderMinusOne lm > orderMinusOne lm
              then orderMinusOne lm else child.numTargetTerminals - orderMinusOne lm) ≤
                child.GetSuffix.length ∧
              suffixStart child.GetSuffix.length
                  (if child.numTargetTerminals - orderMinusOne lm > orderMinusOne lm
                    then orderMinusOne lm else child.numTargetTerminals - orderMinusOne lm) =
                child.GetSuffix.length -
                  (if child.numTargetTerminals - orderMinusOne lm > orderMinusOne lm
                    then orderMinusOne lm
                    else child.numTargetTerminals - orderMinusOne lm)) := by
  have hrun := loop_in_bounds lm hN hypo hypo.currTargetPhrase 0 (EvaluateChart.start lm)
    (fun _ => rfl) (Nat.zero_le _) (fun k w hk hw => by simpa using hslots k w hk hw)
  refine ⟨?_, hrun, ?_⟩
  · rcases hrun with ⟨s, h⟩ | h
    · unfold EvaluateChart
      rw [h]
      exact fun e => Except.noConfusion e
    · unfold EvaluateChart
      rw [h]
      intro e
      cases e
  · intro child hpre hsuf
    rw [orderMinusOne_of_pos lm hN]
    refine ⟨by rw [hpre]; omega, fun hbig => ?_⟩
    have hle : (if child.numTargetTerminals - (GetNGramOrder lm - 1) > GetNGramOrder lm - 1
        then GetNGramOrder lm - 1 else child.numTargetTerminals - (GetNGramOrder lm - 1)) ≤
        child.GetSuffix.length := by
      rw [hsuf]
      split <;> omega
    exact ⟨hle, by unfold suffixStart; rw [if_pos hle]⟩

/-- The rule `2 [X] 7 [Y]` at order 3 over the children `3 4 5 6` and `8`. -/
theorem EvaluateChart_reads_in_bounds_witness :
    1 ≤ GetNGramOrder (stubLM 3 divideByLn10) ∧
      EvaluateChart (stubLM 3 divideByLn10) exampleComposedRule ≠
        Except.error Fault.outOfBounds :=
  ⟨by decide,
    (EvaluateChart_reads_in_bounds (stubLM 3 divideByLn10) (by decide) exampleComposedRule
      (fun p w hp hw => by
        rcases p with _ | _ | _ | _ | p
        · cases hp; cases hw
        · exact ⟨0, exampleLongChild, rfl, rfl, rfl, rfl⟩
        · cases hp; cases hw
        · exact ⟨1, exampleShortChild, rfl, rfl, rfl, rfl⟩
        · simp [exampleComposedRule] at hp)).1⟩

/-! ## When `CalcScore` fails its assertion -/

/-- One step of the linear scorer, for an order N ≥ 1 and a window within
capacity: it fails the assertion exactly on a sentence-start word after
position 0, and otherwise returns with a window within capacity. -/
theorem CalcScore_body_cases (lm : LanguageModel σ) (hN : 1 ≤ GetNGramOrder lm) (p : Nat)
    (w : Word) (c : CalcScoreState σ) (hlen : c.contextFactor.length ≤ GetNGramOrder lm) :
    ((w = GetSentenceStartArray lm ∧ p ≠ 0) ∧
        CalcScore.body lm p w c = Except.error Fault.assertion) ∨
      (¬ (w = GetSentenceStartArray lm ∧ p ≠ 0) ∧
        ∃ c1, CalcScore.body lm p w c = Except.ok c1 ∧
          c1.contextFactor.length ≤ GetNGramOrder lm) := by
  cases hw : w.isNonTerminal with
  | true =>
    right
    have hne : w ≠ GetSentenceStartArray lm := by
      intro he
      rw [he] at hw
      cases hw
    refine ⟨fun h => hne h.1, ?_⟩
    unfold CalcScore.body
    simp only [hw, if_true]
    split
    · exact ⟨_, rfl, by simp⟩
    · exact ⟨_, rfl, hlen⟩
  | false =>
    have hl : (lastN (GetNGramOrder lm) (c.contextFactor ++ [w])).length ≤ GetNGramOrder lm := by
      rw [lastN_length]
      omega
    rw [CalcScore_body_terminal lm hN p w c hw hlen]
    by_cases hs : w = GetSentenceStartArray lm
    · by_cases hp : p = 0
      · right
        rw [if_pos hs, if_pos hp]
        exact ⟨fun h => h.2 hp, _, rfl, hl⟩
      · left
        rw [if_pos hs, if_neg hp]
        exact ⟨⟨hs, hp⟩, rfl⟩
    · right
      rw [if_neg hs]
      exact ⟨fun h => hs h.1, _, rfl, hl⟩

theorem CalcScore_loop_cases (lm : LanguageModel σ) (hN : 1 ≤ GetNGramOrder lm)
    (l : List Word) :
    ∀ (p : Nat) (c : CalcScoreState σ), c.contextFactor.length ≤ GetNGramOrder lm →
      ((∃ k, l[k]? = some (GetSentenceStartArray lm) ∧ p + k ≠ 0) ∧
          CalcScore.loop lm p l c = Except.error Fault.assertion) ∨
        ((¬ ∃ k, l[k]? = some (GetSentenceStartArray lm) ∧ p + k ≠ 0) ∧
          ∃ r, CalcScore.loop lm p l c = Except.ok r) := by
  induction l with
  | nil =>
    intro p c _
    exact Or.inr ⟨by simp, c, rfl⟩
  | cons w l ih =>
    intro p c hlen
    rcases CalcScore_body_cases lm hN p w c hlen with ⟨⟨hs, hp⟩, hb⟩ | ⟨hnot, c1, hb, hl1⟩
    · left
      exact ⟨⟨0, by simp [hs], by simpa using hp⟩, by simp only [CalcScore.loop, hb]⟩
    · rcases ih (p + 1) c1 hl1 with ⟨⟨k, hk, hpk⟩, hloop⟩ | ⟨hnone, r, hloop⟩
      · left
        exact ⟨⟨k + 1, by simpa using hk, by omega⟩, by simp only [CalcScore.loop, hb, hloop]⟩
      · right
        refine ⟨?_, r, by simp only [CalcScore.loop, hb, hloop]⟩
        rintro ⟨k, hk, hpk⟩
        rcases k with _ | k
        · simp only [List.getElem?_cons_zero, Option.some.injEq] at hk
          exact hnot ⟨hk, by simpa using hpk⟩
        · exact hnone ⟨k, by simpa using hk, by omega⟩

/-- C13: for every order N ≥ 1, `CalcScore` fails an assertion if and only if
the phrase holds the sentence-start word (a terminal) at some position other
than 0; for every phrase in which it occurs only at position 0 or not at all,
no assertion fails and the scores are returned. A run never ends in another
fault. -/
theorem CalcScore_assertion_iff (lm : LanguageModel σ) (hN : 1 ≤ GetNGramOrder lm)
    (phrase : Phrase) :
    (CalcScore lm phrase = Except.error Fault.assertion ↔
        ∃ k, k ≠ 0 ∧ phrase[k]? = some (GetSentenceStartArray lm)) ∧
      ((∀ k, k ≠ 0 → phrase[k]? ≠ some (GetSentenceStartArray lm)) →
        ∃ r, CalcScore lm phrase = Except.ok r) ∧
      CalcScore lm phrase ≠ Except.error Fault.outOfBounds := by
  have hcases : ((∃ k, phrase[k]? = some (GetSentenceStartArray lm) ∧ 0 + k ≠ 0) ∧
        CalcScore lm phrase = Except.error Fault.assertion) ∨
      ((¬ ∃ k, phrase[k]? = some (GetSentenceStartArray lm) ∧ 0 + k ≠ 0) ∧
        ∃ r, CalcScore lm phrase = Except.ok r) := by
    cases phrase with
    | nil => exact Or.inr ⟨by simp, _, rfl⟩
    | cons x rest =>
      exact CalcScore_loop_cases lm hN (x :: rest) 0 (CalcScore.start lm x) (Nat.zero_le _)
  simp only [Nat.zero_add] at hcases
  rcases hcases with ⟨⟨k, hk, hk0⟩, herr⟩ | ⟨hnone, r, hok⟩
  · refine ⟨⟨fun _ => ⟨k, hk0, hk⟩, fun _ => herr⟩, fun hall => absurd hk (hall k hk0), ?_⟩
    rw [herr]
    intro e
    cases e
  · refine ⟨⟨fun h => ?_, fun ⟨k, hk0, hk⟩ => absurd ⟨k, hk, hk0⟩ hnone⟩, fun _ => ⟨r, hok⟩, ?_⟩
    · rw [hok] at h
      cases h
    · rw [hok]
      exact fun e => Except.noConfusion e

/-- At order 3 with the counting backend: `5 <s> 6` fails the assertion,
`<s> 5 [X] 6` returns. -/
theorem CalcScore_assertion_iff_witness :
    1 ≤ GetNGramOrder (countingLM 3 id) ∧
      CalcScore (countingLM 3 id) [terminal 5, terminal 0, terminal 6] =
        Except.error Fault.assertion ∧
      ∃ r, CalcScore (countingLM 3 id) [terminal 0, terminal 5, nonTerminal 9, terminal 6] =
        Except.ok r :=
  ⟨by decide,
    (CalcScore_assertion_iff (countingLM 3 id) (by decide)
      [terminal 5, terminal 0, terminal 6]).1.mpr ⟨1, by decide, rfl⟩,
    (CalcScore_assertion_iff (countingLM 3 id) (by decide)
      [terminal 0, terminal 5, nonTerminal 9, terminal 6]).2.1 (fun k hk => by
        rcases k with _ | _ | _ | _ | k
        · exact absurd rfl hk
        · decide
        · decide
        · decide
        · simp)⟩

/-! ## `CalcScoreChart` against `CalcScore` -/

theorem CalcScoreChart_body_agree (lm : LanguageModel σ) (p : Nat) (w : Word)
    (s : CalcScoreChartState σ) (c : CalcScoreState σ) (hw : w.isNonTerminal = false)
    (hv : calcChartView s = calcFullView c) :
    (∃ e, CalcScoreChart.body lm p w s = Except.error e ∧
        CalcScore.body lm p w c = Except.error e) ∨
      (∃ s1 c1, CalcScoreChart.body lm p w s = Except.ok s1 ∧
        CalcScore.body lm p w c = Except.ok c1 ∧ calcChartView s1 = calcFullView c1) := by
  simp only [calcChartView, calcFullView, Prod.mk.injEq] at hv
  obtain ⟨hcf, hst, hng, hfull, hq⟩ := hv
  unfold CalcScoreChart.body CalcScore.body
  simp only [hw, Bool.not_false, if_true, Bool.false_eq_true, if_false, ← hcf]
  cases hsp : ShiftOrPush lm s.contextFactor w with
  | error e => exact Or.inl ⟨e, rfl, rfl⟩
  | ok cf1 =>
    by_cases hl : cf1.length ≤ GetNGramOrder lm
    · simp only [if_pos hl]
      by_cases hs : w = GetSentenceStartArray lm
      · simp only [if_pos hs]
        by_cases hp : p = 0
        · simp only [if_pos hp]
          refine Or.inr ⟨_, _, rfl, rfl, ?_⟩
          simp only [calcChartView, calcFullView, ← hst, ← hng, ← hfull, ← hq]
        · simp only [if_neg hp]
          exact Or.inl ⟨_, rfl, rfl⟩
      · simp only [if_neg hs]
        refine Or.inr ⟨_, _, rfl, rfl, ?_⟩
        simp only [calcChartView, calcFullView, Prod.mk.injEq, ← hst, ← hq, ← hng, ← hfull,
          true_and, and_true]
        by_cases hfullWindow : cf1.length = GetNGramOrder lm
        · simp only [if_pos hfullWindow]
          ring
        · simp only [if_neg hfullWindow]
          ring
    · simp only [if_neg hl]
      exact Or.inl ⟨_, rfl, rfl⟩

theorem CalcScoreChart_loop_agree (lm : LanguageModel σ) (l : List Word) :
    ∀ (p : Nat) (s : CalcScoreChartState σ) (c : CalcScoreState σ),
      (∀ w ∈ l, w.isNonTerminal = false) → calcChartView s = calcFullView c →
      Except.map calcChartView (CalcScoreChart.loop lm p l s) =
        Except.map calcFullView (CalcScore.loop lm p l c) := by
  induction l with
  | nil =>
    intro p s c _ hv
    simp [CalcScoreChart.loop, CalcScore.loop, Except.map, hv]
  | cons w l ih =>
    intro p s c hterm hv
    rcases CalcScoreChart_body_agree lm p w s c (hterm w (List.mem_cons_self _ _)) hv with
      ⟨e, h1, h2⟩ | ⟨s1, c1, h1, h2, hv1⟩
    · simp [CalcScoreChart.loop, CalcScore.loop, h1, h2, Except.map]
    · simp only [CalcScoreChart.loop, CalcScore.loop, h1, h2]
      exact ih (p + 1) s1 c1 (fun x hx => hterm x (List.mem_cons_of_mem _ hx)) hv1

/-- C18: for every phrase made of terminal words only, `CalcScoreChart` and
`CalcScore` agree: they make the same backend calls, fail alike, and when they
return `CalcScoreChart`'s `ngramScore` equals `CalcScore`'s `ngramScore` and
`beginningBitsOnly + ngramScore` equals `CalcScore`'s `fullScore`; for an order
N ≥ 1 and the sentence-start word at most at position 0 both return. -/
theorem CalcScoreChart_eq_CalcScore (lm : LanguageModel σ) (phrase : Phrase)
    (hterm : ∀ w ∈ phrase, w.isNonTerminal = false) :
    Except.map (fun s => (s.ngramScore, s.beginningBitsOnly + s.ngramScore, s.queries))
          (CalcScoreChart lm phrase) =
        Except.map (fun c => (c.ngramScore, c.fullScore, c.queries)) (CalcScore lm phrase) ∧
      (1 ≤ GetNGramOrder lm →
        (∀ k, k ≠ 0 → phrase[k]? ≠ some (GetSentenceStartArray lm)) →
        ∃ s c, CalcScoreChart lm phrase = Except.ok s ∧ CalcScore lm phrase = Except.ok c ∧
          s.ngramScore = c.ngramScore ∧ s.beginningBitsOnly + s.ngramScore = c.fullScore) := by
  have hview : Except.map calcChartView (CalcScoreChart lm phrase) =
      Except.map calcFullView (CalcScore lm phrase) := by
    cases phrase with
    | nil => simp [CalcScoreChart, CalcScore, Except.map, calcChartView, calcFullView]
    | cons x rest =>
      exact CalcScoreChart_loop_agree lm (x :: rest) 0 _ (CalcScore.start lm x) hterm
        (by simp [calcChartView, calcFullView, CalcScore.start])
  constructor
  · have h := congrArg
      (Except.map (fun v : List Word × σ × Score × Score × List (List Word × σ) =>
        (v.2.2.1, v.2.2.2.1, v.2.2.2.2))) hview
    rw [Except_map_map, Except_map_map] at h
    exact h
  · intro hN hns
    obtain ⟨c, hc⟩ := (CalcScore_assertion_iff lm hN phrase).2.1 hns
    rw [hc] at hview
    cases hs : CalcScoreChart lm phrase with
    | error e => rw [hs] at hview; cases hview
    | ok s =>
      rw [hs] at hview
      simp only [Except.map, Except.ok.injEq, calcChartView, calcFullView, Prod.mk.injEq]
        at hview
      exact ⟨s, c, rfl, hc, hview.2.2.1, hview.2.2.2.1⟩

/-- The phrase `<s> 5 6 7` at order 3 with the counting backend. -/
theorem CalcScoreChart_eq_CalcScore_witness :
    (∀ w ∈ [terminal 0, terminal 5, terminal 6, terminal 7], w.isNonTerminal = false) ∧
      1 ≤ GetNGramOrder (countingLM 3 id) ∧
      ∃ s c,
        CalcScoreChart (countingLM 3 id) [terminal 0, terminal 5, terminal 6, terminal 7] =
            Except.ok s ∧
          CalcScore (countingLM 3 id) [terminal 0, terminal 5, terminal 6, terminal 7] =
            Except.ok c ∧
          s.ngramScore = c.ngramScore ∧ s.beginningBitsOnly + s.ngramScore = c.fullScore :=
  ⟨by decide, by decide,
    (CalcScoreChart_eq_CalcScore (countingLM 3 id)
      [terminal 0, terminal 5, terminal 6, terminal 7] (by decide)).2 (by decide)
      (fun k hk => by
        rcases k with _ | _ | _ | _ | k
        · exact absurd rfl hk
        · decide
        · decide
        · decide
        · simp)⟩

/-! ## The estimate of a translation option -/

theorem CalcEstimateOfBestScore_eq (spans : List CoveredChartSpan)
    (allChartCells : ChartCellCollection) :
    ∀ (estimate : Score),
      CalcEstimateOfBestScore estimate spans allChartCells =
        estimate +
          ((spans.filter (fun sp => sp.isNonTerminal)).map
            (fun sp => allChartCells.bestScore sp.wordsRange)).sum := by
  induction spans with
  | nil => intro estimate; simp [CalcEstimateOfBestScore]
  | cons sp rest ih =>
    intro estimate
    cases hsp : sp.isNonTerminal with
    | true =>
      simp only [CalcEstimateOfBestScore, hsp, if_true, ih, List.filter_cons, List.map_cons,
        List.sum_cons]
      ring
    | false =>
      simp only [CalcEstimateOfBestScore, hsp, Bool.false_eq_true, if_false, ih,
        List.filter_cons]

/-- C12: for every translation option constructed from a target phrase, a
chain of covered chart spans and the chart cells, `GetEstimateOfBestScore`
returns the target phrase's own future score plus the sum, over each
non-terminal slot of the rule, of the best score known for the sub-span that
fills the slot; the other fields are the constructor's arguments. -/
theorem GetEstimateOfBestScore_eq (targetPhrase : TargetPhrase)
    (lastCoveredChartSpan : List CoveredChartSpan) (wordsRange : WordsRange)
    (allChartCells : ChartCellCollection) :
    GetEstimateOfBestScore
        (ChartTranslationOption.new targetPhrase lastCoveredChartSpan wordsRange
          allChartCells) =
      targetPhrase.futureScore +
        ((lastCoveredChartSpan.filter (fun sp => sp.isNonTerminal)).map
          (fun sp => allChartCells.bestScore sp.wordsRange)).sum := by
  simp only [GetEstimateOfBestScore, ChartTranslationOption.new]
  exact CalcEstimateOfBestScore_eq lastCoveredChartSpan allChartCells targetPhrase.futureScore

/-! ## Evaluate -/

theorem take_succ_drop {α : Type} (l : List α) (a n : Nat) (x : α)
    (h : l[a + n]? = some x) :
    (l.drop a).take (n + 1) = (l.drop a).take n ++ [x] := by
  rw [List.take_succ, List.getElem?_drop, h]
  rfl

theorem drop_eq_cons_of_getElem? {α : Type} (l : List α) (k : Nat) (x : α)
    (h : l[k]? = some x) : l.drop k = x :: l.drop (k + 1) := by
  obtain ⟨hk, hx⟩ := List.getElem?_eq_some.mp h
  rw [List.drop_eq_getElem_cons hk, hx]

theorem paddedWords_length (lm : LanguageModel σ) (hypo : Hypothesis) :
    (paddedWords lm hypo).length = GetNGramOrder lm + hypo.words.length := by
  simp [paddedWords]

theorem paddedWords_getElem? (lm : LanguageModel σ) (hypo : Hypothesis) (k : Nat) :
    (paddedWords lm hypo)[k]? =
      if k < GetNGramOrder lm then some (GetSentenceStartArray lm)
      else hypo.words[k - GetNGramOrder lm]? := by
  unfold paddedWords
  by_cases hk : k < GetNGramOrder lm
  · rw [if_pos hk, List.getElem?_append_left (by simpa using hk)]
    simp [List.getElem?_replicate, hk]
  · rw [if_neg hk, List.getElem?_append_right (by simpa using hk)]
    simp

theorem windowAt_length (lm : LanguageModel σ) (hypo : Hypothesis) (p : Nat)
    (hp : p < hypo.words.length) : (windowAt lm hypo p).length = GetNGramOrder lm := by
  unfold windowAt
  rw [List.length_take, List.length_drop, paddedWords_length]
  omega

/-- Slot `j` of the window for position `p` holds the word at position
`p - N + 1 + j`, or the sentence-start word when that position is before 0. -/
theorem windowAt_getElem? (lm : LanguageModel σ) (hypo : Hypothesis) (p j : Nat)
    (hj : j < GetNGramOrder lm) :
    (windowAt lm hypo p)[j]? =
      if p + 1 + j < GetNGramOrder lm then some (GetSentenceStartArray lm)
      else hypo.words[p + 1 + j - GetNGramOrder lm]? := by
  unfold windowAt
  rw [List.getElem?_take, if_pos hj, List.getElem?_drop, paddedWords_getElem?]

theorem windowAt_succ (lm : LanguageModel σ) (hypo : Hypothesis) (p : Nat) (w : Word)
    (hN : 1 ≤ GetNGramOrder lm) (hw : hypo.words[p + 1]? = some w) :
    (windowAt lm hypo p).drop 1 ++ [w] = windowAt lm hypo (p + 1) := by
  unfold windowAt
  have hpad : (paddedWords lm hypo)[p + 1 + 1 + (GetNGramOrder lm - 1)]? = some w := by
    rw [paddedWords_getElem?, if_neg (by omega), ← hw]
    congr 1
    omega
  have h1 := take_succ_drop (paddedWords lm hypo) (p + 1 + 1) (GetNGramOrder lm - 1) w hpad
  rw [Nat.sub_add_cancel hN] at h1
  rw [h1, List.drop_take, List.drop_drop]

theorem Evaluate_shift_eq (lm : LanguageModel σ) (hN : 1 ≤ GetNGramOrder lm)
    (contextFactor : List Word) (hlen : contextFactor.length = GetNGramOrder lm) (w : Word) :
    Evaluate.shift lm contextFactor w = Except.ok (contextFactor.drop 1 ++ [w]) := by
  cases contextFactor with
  | nil => simp at hlen; omega
  | cons x mid =>
    have hm : orderMinusOne lm = mid.length := by
      rw [orderMinusOne_of_pos lm hN]
      simp at hlen
      omega
    obtain ⟨z, hz⟩ := shiftLoop_spec mid [] x []
    simp only [List.length_nil, List.nil_append, List.append_nil] at hz
    unfold Evaluate.shift
    rw [hm, hz]
    simp

theorem Hypothesis_GetWord_eq (hypo : Hypothesis) (pos : Nat) (w : Word)
    (h : hypo.words[pos]? = some w) : hypo.GetWord pos = Except.ok w := by
  unfold Hypothesis.GetWord
  rw [h]

theorem Evaluate_firstNGram_eq (lm : LanguageModel σ) (hypo : Hypothesis) :
    ∀ (n k : Nat) (contextFactor : List Word),
      k + n ≤ GetNGramOrder lm + hypo.words.length →
      Evaluate.firstNGram lm hypo n ((k : Int) - (GetNGramOrder lm : Int)) contextFactor =
        Except.ok (contextFactor ++ ((paddedWords lm hypo).drop k).take n) := by
  intro n
  induction n with
  | zero => intro k contextFactor _; simp [Evaluate.firstNGram]
  | succ n ih =>
    intro k contextFactor hk
    have hnext : (k : Int) - (GetNGramOrder lm : Int) + 1 =
        ((k + 1 : Nat) : Int) - (GetNGramOrder lm : Int) := by
      push_cast
      ring
    have hlt : k < (paddedWords lm hypo).length := by
      rw [paddedWords_length]
      omega
    obtain ⟨x, hx⟩ : ∃ x, (paddedWords lm hypo)[k]? = some x :=
      ⟨_, List.getElem?_eq_getElem hlt⟩
    have hdrop := drop_eq_cons_of_getElem? _ _ _ hx
    rw [paddedWords_getElem?] at hx
    unfold Evaluate.firstNGram
    by_cases hge : GetNGramOrder lm ≤ k
    · rw [if_neg (by omega)] at hx
      have htoNat : ((k : Int) - (GetNGramOrder lm : Int)).toNat = k - GetNGramOrder lm := by
        omega
      rw [if_pos (by omega), htoNat, Hypothesis_GetWord_eq hypo _ x hx]
      simp only []
      rw [hnext, ih (k + 1) _ (by omega), hdrop]
      simp
    · rw [if_pos (by omega)] at hx
      rw [if_neg (by omega), hnext, ih (k + 1) _ (by omega), hdrop]
      cases hx
      simp

theorem Evaluate_mainLoop_spec (lm : LanguageModel σ) (hypo : Hypothesis)
    (hN : 1 ≤ GetNGramOrder lm) :
    ∀ (n p : Nat) (s : EvaluateState σ),
      s.contextFactor = windowAt lm hypo p → p + n < hypo.words.length →
      ∃ s1 added,
        Evaluate.mainLoop lm hypo n (p + 1) s = Except.ok s1 ∧
          s1.contextFactor = windowAt lm hypo (p + n) ∧
          s1.queries = s.queries ++ added ∧
          added.map (fun q => q.2.1) =
            (List.range n).map (fun j => windowAt lm hypo (p + 1 + j)) ∧
          (∀ q ∈ added, q.1 = LMCall.valueGivenState) ∧
          s1.lmScore = s.lmScore + (added.map (callScore lm)).sum := by
  intro n
  induction n with
  | zero =>
    intro p s hcf _
    exact ⟨s, [], rfl, hcf, by simp, by simp, by simp, by simp⟩
  | succ n ih =>
    intro p s hcf hp
    obtain ⟨w, hw⟩ : ∃ w, hypo.words[p + 1]? = some w :=
      ⟨_, List.getElem?_eq_getElem (by omega)⟩
    have hshift : Evaluate.shift lm s.contextFactor w = Except.ok (windowAt lm hypo (p + 1)) := by
      rw [Evaluate_shift_eq lm hN _ (by rw [hcf]; exact windowAt_length lm hypo p (by omega)),
        hcf, windowAt_succ lm hypo p w hN hw]
    obtain ⟨s1, added, hrun, hcf1, hq, hwin, hkind, hscore⟩ :=
      ih (p + 1)
        { contextFactor := windowAt lm hypo (p + 1)
          res := (lm.m_implementation.GetValueGivenState (windowAt lm hypo (p + 1)) s.res).2
          lmScore :=
            s.lmScore + (lm.m_implementation.GetValueGivenState (windowAt lm hypo (p + 1)) s.res).1
          queries := s.queries ++ [(LMCall.valueGivenState, windowAt lm hypo (p + 1), s.res)] }
        rfl (by omega)
    refine ⟨s1, (LMCall.valueGivenState, windowAt lm hypo (p + 1), s.res) :: added, ?_, ?_, ?_,
      ?_, ?_, ?_⟩
    · unfold Evaluate.mainLoop
      rw [Hypothesis_GetWord_eq hypo _ w hw]
      simp only [hshift]
      exact hrun
    · rw [hcf1]
      congr 1
      omega
    · rw [hq]
      simp
    · rw [List.range_succ_eq_map, List.map_cons, List.map_cons, hwin, List.map_map]
      congr 1
      apply List.map_congr_left
      intro j _
      simp only [Function.comp]
      congr 1
      omega
    · intro q hq1
      rcases List.mem_cons.mp hq1 with rfl | hq2
      · rfl
      · exact hkind q hq2
    · rw [hscore]
      simp only [List.map_cons, List.sum_cons, callScore]
      ring

theorem Evaluate_stateLoop_spec (lm : LanguageModel σ) (hypo : Hypothesis)
    (hN : 1 ≤ GetNGramOrder lm) :
    ∀ (n p : Nat) (contextFactor : List Word),
      contextFactor = windowAt lm hypo p → p + n < hypo.words.length →
      Evaluate.stateLoop lm hypo n (p + 1) contextFactor =
        Except.ok (windowAt lm hypo (p + n)) := by
  intro n
  induction n with
  | zero => intro p contextFactor hcf _; rw [hcf]; rfl
  | succ n ih =>
    intro p contextFactor hcf hp
    obtain ⟨w, hw⟩ : ∃ w, hypo.words[p + 1]? = some w :=
      ⟨_, List.getElem?_eq_getElem (by omega)⟩
    have hshift : Evaluate.shift lm contextFactor w = Except.ok (windowAt lm hypo (p + 1)) := by
      rw [Evaluate_shift_eq lm hN _ (by rw [hcf]; exact windowAt_length lm hypo p (by omega)),
        hcf, windowAt_succ lm hypo p w hN hw]
    unfold Evaluate.stateLoop
    rw [Hypothesis_GetWord_eq hypo _ w hw]
    simp only [hshift]
    rw [ih (p + 1) _ rfl (by omega)]
    congr 2
    omega

theorem Evaluate_endLoop_spec (lm : LanguageModel σ) (hypo : Hypothesis)
    (hsize : hypo.size = hypo.words.length) :
    ∀ (n : Nat) (pre mid post : List Word),
      mid.length = n → pre.length + n + 1 ≤ GetNGramOrder lm →
      Evaluate.endLoop lm hypo n pre.length (pre ++ (mid ++ post)) =
        Except.ok
          (pre ++ (((paddedWords lm hypo).drop (hypo.size + 1 + pre.length)).take n ++ post)) := by
  intro n
  induction n with
  | zero =>
    intro pre mid post hmid _
    rw [List.length_eq_zero.mp hmid]
    simp [Evaluate.endLoop]
  | succ n ih =>
    intro pre mid post hmid hle
    cases mid with
    | nil => simp at hmid
    | cons y mid =>
      have hlt : hypo.size + 1 + pre.length < (paddedWords lm hypo).length := by
        rw [paddedWords_length]
        omega
      obtain ⟨x, hx⟩ : ∃ x, (paddedWords lm hypo)[hypo.size + 1 + pre.length]? = some x :=
        ⟨_, List.getElem?_eq_getElem hlt⟩
      have hdrop := drop_eq_cons_of_getElem? _ _ _ hx
      rw [paddedWords_getElem?] at hx
      have hword :
          (if (hypo.size : Int) - (GetNGramOrder lm : Int) + (pre.length : Int) + 1 < 0 then
              Except.ok (GetSentenceStartArray lm)
            else hypo.GetWord
              ((hypo.size : Int) - (GetNGramOrder lm : Int) + (pre.length : Int) + 1).toNat) =
            (Except.ok x : Except Fault Word) := by
        by_cases hneg : hypo.size + 1 + pre.length < GetNGramOrder lm
        · rw [if_pos hneg] at hx
          cases hx
          rw [if_pos (by omega)]
        · rw [if_neg hneg] at hx
          have htoNat :
              ((hypo.size : Int) - (GetNGramOrder lm : Int) + (pre.length : Int) + 1).toNat =
                hypo.size + 1 + pre.length - GetNGramOrder lm := by
            omega
          rw [if_neg (by omega), htoNat, Hypothesis_GetWord_eq hypo _ x hx]
      have hset : (pre ++ (y :: mid ++ post)).set pre.length x =
          (pre ++ [x]) ++ (mid ++ post) := by
        rw [List.set_append_right _ _ (by omega)]
        simp
      have hih := ih (pre ++ [x]) mid post (by simpa using hmid)
        (by simp only [List.length_append, List.length_singleton]; omega)
      simp only [List.length_append, List.length_singleton] at hih
      unfold Evaluate.endLoop
      simp only [hword]
      rw [if_pos (by simp), hset, hih, hdrop]
      simp [Nat.add_assoc]

theorem lastN_paddedWords (lm : LanguageModel σ) (hypo : Hypothesis)
    (hN : 1 ≤ GetNGramOrder lm) :
    lastN (GetNGramOrder lm - 1) (paddedWords lm hypo) =
      ((paddedWords lm hypo).drop (hypo.words.length + 1)).take (GetNGramOrder lm - 1) := by
  unfold lastN
  rw [paddedWords_length]
  have h1 : GetNGramOrder lm + hypo.words.length - (GetNGramOrder lm - 1) =
      hypo.words.length + 1 := by omega
  rw [h1, List.take_of_length_le]
  rw [List.length_drop, paddedWords_length]
  omega

theorem Evaluate_phrasePart_spec (lm : LanguageModel σ) (fresh : σ) (hypo : Hypothesis)
    (ps : Option σ) (hN : 2 ≤ GetNGramOrder lm) (hrange : hypo.startPos ≤ hypo.endPos)
    (hwords : hypo.endPos < hypo.words.length) :
    ∃ s,
      Evaluate.phrasePart lm fresh hypo ps = Except.ok s ∧
        s.contextFactor =
          windowAt lm hypo (min (hypo.startPos + GetNGramOrder lm - 2) hypo.endPos) ∧
        s.queries.map (fun q => q.2.1) =
          (List.range (min (GetNGramOrder lm - 1) (hypo.endPos - hypo.startPos + 1))).map
            (fun j => windowAt lm hypo (hypo.startPos + j)) ∧
        (∀ q ∈ s.queries, q.1 ≠ LMCall.state) ∧
        s.lmScore = (s.queries.map (callScore lm)).sum := by
  have hfirst : Evaluate.firstNGram lm hypo (GetNGramOrder lm)
      ((hypo.startPos : Int) - (GetNGramOrder lm : Int) + 1) [] =
        Except.ok (windowAt lm hypo hypo.startPos) := by
    have hcast : (hypo.startPos : Int) - (GetNGramOrder lm : Int) + 1 =
        ((hypo.startPos + 1 : Nat) : Int) - (GetNGramOrder lm : Int) := by
      push_cast
      ring
    rw [hcast, Evaluate_firstNGram_eq lm hypo _ _ _ (by omega)]
    rfl
  have hcount : min (GetNGramOrder lm - 1) (hypo.endPos - hypo.startPos + 1) =
      (min (hypo.startPos + GetNGramOrder lm - 2) hypo.endPos - hypo.startPos) + 1 := by
    omega
  have hend : hypo.startPos +
      (min (hypo.startPos + GetNGramOrder lm - 2) hypo.endPos - hypo.startPos) =
        min (hypo.startPos + GetNGramOrder lm - 2) hypo.endPos := by
    omega
  obtain ⟨s1, added, hrun, hcf1, hq, hwin, hkind, hscore⟩ :=
    Evaluate_mainLoop_spec lm hypo (by omega)
      (min (hypo.startPos + GetNGramOrder lm - 2) hypo.endPos - hypo.startPos) hypo.startPos
      { contextFactor := windowAt lm hypo hypo.startPos
        res :=
          (if ps.isSome then
              lm.m_implementation.GetValueGivenState (windowAt lm hypo hypo.startPos)
                (ps.getD fresh)
            else
              lm.m_implementation.GetValueForgotState (windowAt lm hypo hypo.startPos)
                (ps.getD fresh)).2
        lmScore :=
          (if ps.isSome then
              lm.m_implementation.GetValueGivenState (windowAt lm hypo hypo.startPos)
                (ps.getD fresh)
            else
              lm.m_implementation.GetValueForgotState (windowAt lm hypo hypo.startPos)
                (ps.getD fresh)).1
        queries :=
          [(if ps.isSome then LMCall.valueGivenState else LMCall.valueForgotState,
            windowAt lm hypo hypo.startPos, ps.getD fresh)] }
      rfl (by omega)
  refine ⟨s1, ?_, ?_, ?_, ?_, ?_⟩
  · unfold Evaluate.phrasePart
    rw [hfirst]
    exact hrun
  · rw [hcf1, hend]
  · rw [hq, hcount, List.range_succ_eq_map, List.map_append, hwin]
    simp only [List.map_cons, List.map_nil, List.singleton_append, List.map_map,
      Nat.add_zero]
    congr 1
    apply List.map_congr_left
    intro j _
    simp only [Function.comp]
    congr 1
    omega
  · intro q hq1
    rw [hq] at hq1
    rcases List.mem_append.mp hq1 with hq2 | hq2
    · rw [List.mem_singleton] at hq2
      rw [hq2]
      cases ps <;> simp
    · rw [hkind q hq2]
      simp
  · rw [hscore, hq]
    simp only [List.map_append, List.map_cons, List.map_nil, List.sum_append, List.sum_cons,
      List.sum_nil, add_zero]
    congr 1
    cases ps <;> simp [callScore]

theorem Evaluate_finish_completed (lm : LanguageModel σ) (hypo : Hypothesis)
    (s : EvaluateState σ) (hN : 2 ≤ GetNGramOrder lm)
    (hsize : hypo.size = hypo.words.length)
    (hlen : s.contextFactor.length = GetNGramOrder lm)
    (hdone : hypo.isSourceCompleted = true) :
    Evaluate.finish lm hypo s =
      Except.ok
        { returned := some (lm.m_implementation.GetValueForgotState
            (lastN (GetNGramOrder lm - 1) (paddedWords lm hypo) ++ [GetSentenceEndArray lm])
            s.res).2
          added := some (s.lmScore + (lm.m_implementation.GetValueForgotState
            (lastN (GetNGramOrder lm - 1) (paddedWords lm hypo) ++ [GetSentenceEndArray lm])
            s.res).1)
          queries := s.queries ++
            [(LMCall.valueForgotState,
              lastN (GetNGramOrder lm - 1) (paddedWords lm hypo) ++ [GetSentenceEndArray lm],
              s.res)] } := by
  have hset : s.contextFactor.set (s.contextFactor.length - 1) (GetSentenceEndArray lm) =
      [] ++ (s.contextFactor.take (GetNGramOrder lm - 1) ++ [GetSentenceEndArray lm]) := by
    apply List.ext_getElem?
    intro i
    rw [List.nil_append, List.getElem?_set, hlen]
    by_cases hi : GetNGramOrder lm - 1 = i
    · rw [if_pos hi, if_pos (by omega), List.getElem?_append_right (by simp; omega)]
      simp [hlen, ← hi]
    · rw [if_neg hi]
      by_cases hlt : i < GetNGramOrder lm - 1
      · rw [List.getElem?_append_left (by simp; omega), List.getElem?_take, if_pos hlt]
      · rw [List.getElem?_eq_none (by omega), List.getElem?_eq_none (by simp; omega)]
  have hloop := Evaluate_endLoop_spec lm hypo hsize (GetNGramOrder lm - 1) []
    (s.contextFactor.take (GetNGramOrder lm - 1)) [GetSentenceEndArray lm]
    (by rw [List.length_take]; omega) (by simp; omega)
  simp only [List.length_nil, Nat.add_zero, List.nil_append] at hloop
  rw [hsize, ← lastN_paddedWords lm hypo (by omega)] at hloop
  rw [List.nil_append] at hset
  unfold Evaluate.finish
  simp only [hdone, if_true]
  rw [if_neg (by omega), hset, orderMinusOne_of_pos lm (by omega), hloop]

theorem Evaluate_finish_open (lm : LanguageModel σ) (hypo : Hypothesis)
    (s : EvaluateState σ) (hN : 2 ≤ GetNGramOrder lm)
    (hwords : hypo.endPos < hypo.words.length)
    (hcf : s.contextFactor =
      windowAt lm hypo (min (hypo.startPos + GetNGramOrder lm - 2) hypo.endPos))
    (hopen : hypo.isSourceCompleted = false) :
    ∃ r tail,
      Evaluate.finish lm hypo s = Except.ok r ∧
        r.added = some s.lmScore ∧ r.queries = s.queries ++ tail ∧ tail.length ≤ 1 ∧
        ∀ q ∈ tail, q.1 = LMCall.state := by
  unfold Evaluate.finish
  simp only [hopen, Bool.false_eq_true, if_false]
  by_cases hlt : min (hypo.startPos + GetNGramOrder lm - 2) hypo.endPos < hypo.endPos
  · rw [if_pos hlt]
    have hloop := Evaluate_stateLoop_spec lm hypo (by omega)
      (hypo.endPos - min (hypo.startPos + GetNGramOrder lm - 2) hypo.endPos)
      (min (hypo.startPos + GetNGramOrder lm - 2) hypo.endPos) s.contextFactor hcf (by omega)
    rw [hloop]
    exact ⟨_, [(LMCall.state, _, s.res)], rfl, rfl, rfl, by simp, by simp⟩
  · rw [if_neg hlt]
    exact ⟨_, [], rfl, rfl, by simp, by simp, by simp⟩

/-- C16: when the n-gram order is at most 1, `Evaluate` returns no state, asks
the backend nothing and adds nothing to the score collection. -/
theorem Evaluate_order_at_most_one (lm : LanguageModel σ) (fresh : σ) (hypo : Hypothesis)
    (ps : Option σ) (h : GetNGramOrder lm ≤ 1) :
    Evaluate lm fresh hypo ps =
      Except.ok { returned := none, added := none, queries := [] } := by
  unfold Evaluate
  rw [if_pos h]

theorem Evaluate_order_at_most_one_witness :
    GetNGramOrder (countingLM 1 id) ≤ 1 ∧
      Evaluate (countingLM 1 id) 0 exampleHypothesis (some 7) =
        Except.ok { returned := none, added := none, queries := [] } :=
  ⟨by decide, Evaluate_order_at_most_one (countingLM 1 id) 0 exampleHypothesis (some 7)
    (by decide)⟩

/-- C15: for an n-gram order `N` of at least 2 and a hypothesis whose new phrase
is not empty and lies at the positions `startPos .. endPos`, `Evaluate` asks a
score for exactly the words at the positions
`startPos .. min (startPos + N - 2) endPos`, that is `min (N - 1)` (phrase
length) words, in this order; the window of the call for position `p` is
`windowAt p`, whose slot `j` holds the hypothesis word at position
`p - N + 1 + j`, or the sentence-start word when that position is before 0.
Whatever else `Evaluate` asks the backend is at most one more call, which is
either the state-only call or the sentence-end call of a completed
hypothesis. -/
theorem Evaluate_phrase_words_scored (lm : LanguageModel σ) (fresh : σ) (hypo : Hypothesis)
    (ps : Option σ) (hN : 2 ≤ GetNGramOrder lm) (hlen : hypo.currTargetLength ≠ 0)
    (hrange : hypo.startPos ≤ hypo.endPos) (hwords : hypo.endPos < hypo.words.length)
    (hsize : hypo.size = hypo.words.length) :
    ∃ s r tail,
      Evaluate.phrasePart lm fresh hypo ps = Except.ok s ∧
        Evaluate lm fresh hypo ps = Except.ok r ∧
        s.queries.map (fun q => q.2.1) =
          (List.range (min (GetNGramOrder lm - 1) (hypo.endPos - hypo.startPos + 1))).map
            (fun j => windowAt lm hypo (hypo.startPos + j)) ∧
        min (GetNGramOrder lm - 1) (hypo.endPos - hypo.startPos + 1) =
          min (hypo.startPos + GetNGramOrder lm - 2) hypo.endPos - hypo.startPos + 1 ∧
        (∀ q ∈ s.queries, q.1 ≠ LMCall.state) ∧
        r.queries = s.queries ++ tail ∧ tail.length ≤ 1 ∧
        (∀ q ∈ tail, q.1 = LMCall.state ∨
          (hypo.isSourceCompleted = true ∧
            q.2.1.getLast? = some (GetSentenceEndArray lm))) ∧
        ∀ (p j : Nat), j < GetNGramOrder lm →
          (windowAt lm hypo p)[j]? =
            if p + 1 + j < GetNGramOrder lm then some (GetSentenceStartArray lm)
            else hypo.words[p + 1 + j - GetNGramOrder lm]? := by
  obtain ⟨s, hs, hcf, hwin, hkind, _⟩ :=
    Evaluate_phrasePart_spec lm fresh hypo ps hN hrange hwords
  have hev : Evaluate lm fresh hypo ps = Evaluate.finish lm hypo s := by
    unfold Evaluate
    rw [if_neg (by omega), if_neg hlen, hs]
  have hcflen : s.contextFactor.length = GetNGramOrder lm := by
    rw [hcf]
    exact windowAt_length lm hypo _ (by omega)
  cases hdone : hypo.isSourceCompleted with
  | true =>
    refine ⟨s, _, _, hs,
      hev.trans (Evaluate_finish_completed lm hypo s hN hsize hcflen hdone), hwin,
      (by omega), hkind, rfl, ?_, ?_, fun p j hj => windowAt_getElem? lm hypo p j hj⟩
    · simp
    · intro q hq
      rw [List.mem_singleton] at hq
      rw [hq]
      exact Or.inr ⟨rfl, by simp⟩
  | false =>
    obtain ⟨r, tail, hr, _, hq, htl, htail⟩ :=
      Evaluate_finish_open lm hypo s hN hwords hcf hdone
    exact ⟨s, r, tail, hs, hev.trans hr, hwin, (by omega), hkind, hq, htl,
      fun q hq1 => Or.inl (htail q hq1), fun p j hj => windowAt_getElem? lm hypo p j hj⟩

theorem Evaluate_phrase_words_scored_witness :
    2 ≤ GetNGramOrder (countingLM 3 id) ∧ exampleHypothesis.currTargetLength ≠ 0 ∧
      exampleHypothesis.startPos ≤ exampleHypothesis.endPos ∧
      exampleHypothesis.endPos < exampleHypothesis.words.length ∧
      exampleHypothesis.size = exampleHypothesis.words.length ∧
      ∃ s r tail,
        Evaluate.phrasePart (countingLM 3 id) 0 exampleHypothesis (some 7) = Except.ok s ∧
          Evaluate (countingLM 3 id) 0 exampleHypothesis (some 7) = Except.ok r ∧
          s.queries.map (fun q => q.2.1) =
            (List.range (min (GetNGramOrder (countingLM 3 id) - 1)
              (exampleHypothesis.endPos - exampleHypothesis.startPos + 1))).map
              (fun j => windowAt (countingLM 3 id) exampleHypothesis
                (exampleHypothesis.startPos + j)) ∧
          min (GetNGramOrder (countingLM 3 id) - 1)
              (exampleHypothesis.endPos - exampleHypothesis.startPos + 1) =
            min (exampleHypothesis.startPos + GetNGramOrder (countingLM 3 id) - 2)
              exampleHypothesis.endPos - exampleHypothesis.startPos + 1 ∧
          (∀ q ∈ s.queries, q.1 ≠ LMCall.state) ∧
          r.queries = s.queries ++ tail ∧ tail.length ≤ 1 ∧
          (∀ q ∈ tail, q.1 = LMCall.state ∨
            (exampleHypothesis.isSourceCompleted = true ∧
              q.2.1.getLast? = some (GetSentenceEndArray (countingLM 3 id)))) ∧
          ∀ (p j : Nat), j < GetNGramOrder (countingLM 3 id) →
            (windowAt (countingLM 3 id) exampleHypothesis p)[j]? =
              if p + 1 + j < GetNGramOrder (countingLM 3 id) then
                some (GetSentenceStartArray (countingLM 3 id))
              else exampleHypothesis.words[p + 1 + j - GetNGramOrder (countingLM 3 id)]? :=
  ⟨by decide, by decide, by decide, by decide, by decide,
    Evaluate_phrase_words_scored (countingLM 3 id) 0 exampleHypothesis (some 7) (by decide)
      (by decide) (by decide) (by decide) (by decide)⟩

/-- C17: for an n-gram order `N` of at least 2 and a non-empty new phrase, a
hypothesis that completes the source gets exactly one further call after the
scores of the phrase words: a `GetValueForgotState` call whose window is the
last `N - 1` words of the whole hypothesis in order (the sentence-start word
in every slot the hypothesis is too short to fill) followed by the
sentence-end word, and its score is added to the phrase score. A hypothesis
that does not complete the source gets the phrase score alone, and any further
call is the state-only call, which gives no score. -/
theorem Evaluate_sentence_end (lm : LanguageModel σ) (fresh : σ) (hypo : Hypothesis)
    (ps : Option σ) (hN : 2 ≤ GetNGramOrder lm) (hlen : hypo.currTargetLength ≠ 0)
    (hrange : hypo.startPos ≤ hypo.endPos) (hwords : hypo.endPos < hypo.words.length)
    (hsize : hypo.size = hypo.words.length) :
    ∃ s r,
      Evaluate.phrasePart lm fresh hypo ps = Except.ok s ∧
        Evaluate lm fresh hypo ps = Except.ok r ∧
        s.lmScore = (s.queries.map (callScore lm)).sum ∧
        (hypo.isSourceCompleted = true →
          r.queries = s.queries ++
            [(LMCall.valueForgotState,
              lastN (GetNGramOrder lm - 1) (paddedWords lm hypo) ++ [GetSentenceEndArray lm],
              s.res)] ∧
          r.added = some (s.lmScore + (lm.m_implementation.GetValueForgotState
            (lastN (GetNGramOrder lm - 1) (paddedWords lm hypo) ++ [GetSentenceEndArray lm])
            s.res).1)) ∧
        (hypo.isSourceCompleted = false →
          r.added = some s.lmScore ∧
          ∀ q ∈ r.queries, q ∈ s.queries ∨ q.1 = LMCall.state) ∧
        (lastN (GetNGramOrder lm - 1) (paddedWords lm hypo)).length = GetNGramOrder lm - 1 ∧
        ∀ (j : Nat), j < GetNGramOrder lm - 1 →
          (lastN (GetNGramOrder lm - 1) (paddedWords lm hypo))[j]? =
            if hypo.words.length + 1 + j < GetNGramOrder lm then
              some (GetSentenceStartArray lm)
            else hypo.words[hypo.words.length + 1 + j - GetNGramOrder lm]? := by
  obtain ⟨s, hs, hcf, _, _, hscore⟩ :=
    Evaluate_phrasePart_spec lm fresh hypo ps hN hrange hwords
  have hev : Evaluate lm fresh hypo ps = Evaluate.finish lm hypo s := by
    unfold Evaluate
    rw [if_neg (by omega), if_neg hlen, hs]
  have hcflen : s.contextFactor.length = GetNGramOrder lm := by
    rw [hcf]
    exact windowAt_length lm hypo _ (by omega)
  have hlast : (lastN (GetNGramOrder lm - 1) (paddedWords lm hypo)).length =
      GetNGramOrder lm - 1 := by
    rw [lastN_length, paddedWords_length]
    omega
  have hslots : ∀ (j : Nat), j < GetNGramOrder lm - 1 →
      (lastN (GetNGramOrder lm - 1) (paddedWords lm hypo))[j]? =
        if hypo.words.length + 1 + j < GetNGramOrder lm then
          some (GetSentenceStartArray lm)
        else hypo.words[hypo.words.length + 1 + j - GetNGramOrder lm]? := by
    intro j hj
    rw [lastN_paddedWords lm hypo (by omega), List.getElem?_take, if_pos hj,
      List.getElem?_drop, paddedWords_getElem?]
  cases hdone : hypo.isSourceCompleted with
  | true =>
    exact ⟨s, _, hs,
      hev.trans (Evaluate_finish_completed lm hypo s hN hsize hcflen hdone), hscore,
      fun _ => ⟨rfl, rfl⟩, fun h => (by cases h), hlast, hslots⟩
  | false =>
    obtain ⟨r, tail, hr, hadd, hq, _, htail⟩ :=
      Evaluate_finish_open lm hypo s hN hwords hcf hdone
    refine ⟨s, r, hs, hev.trans hr, hscore, fun h => (by cases h), fun _ => ⟨hadd, ?_⟩,
      hlast, hslots⟩
    intro q hq1
    rw [hq] at hq1
    rcases List.mem_append.mp hq1 with hq2 | hq2
    · exact Or.inl hq2
    · exact Or.inr (htail q hq2)

theorem Evaluate_sentence_end_witness :
    2 ≤ GetNGramOrder (countingLM 3 id) ∧ exampleFinalHypothesis.currTargetLength ≠ 0 ∧
      exampleFinalHypothesis.startPos ≤ exampleFinalHypothesis.endPos ∧
      exampleFinalHypothesis.endPos < exampleFinalHypothesis.words.length ∧
      exampleFinalHypothesis.size = exampleFinalHypothesis.words.length ∧
      ∃ s r,
        Evaluate.phrasePart (countingLM 3 id) 0 exampleFinalHypothesis none = Except.ok s ∧
          Evaluate (countingLM 3 id) 0 exampleFinalHypothesis none = Except.ok r ∧
          s.lmScore = (s.queries.map (callScore (countingLM 3 id))).sum ∧
          (exampleFinalHypothesis.isSourceCompleted = true →
            r.queries = s.queries ++
              [(LMCall.valueForgotState,
                lastN (GetNGramOrder (countingLM 3 id) - 1)
                    (paddedWords (countingLM 3 id) exampleFinalHypothesis) ++
                  [GetSentenceEndArray (countingLM 3 id)],
                s.res)] ∧
            r.added = some (s.lmScore +
              ((countingLM 3 id).m_implementation.GetValueForgotState
                (lastN (GetNGramOrder (countingLM 3 id) - 1)
                    (paddedWords (countingLM 3 id) exampleFinalHypothesis) ++
                  [GetSentenceEndArray (countingLM 3 id)])
                s.res).1)) ∧
          (exampleFinalHypothesis.isSourceCompleted = false →
            r.added = some s.lmScore ∧
            ∀ q ∈ r.queries, q ∈ s.queries ∨ q.1 = LMCall.state) ∧
          (lastN (GetNGramOrder (countingLM 3 id) - 1)
              (paddedWords (countingLM 3 id) exampleFinalHypothesis)).length =
            GetNGramOrder (countingLM 3 id) - 1 ∧
          ∀ (j : Nat), j < GetNGramOrder (countingLM 3 id) - 1 →
            (lastN (GetNGramOrder (countingLM 3 id) - 1)
                (paddedWords (countingLM 3 id) exampleFinalHypothesis))[j]? =
              if exampleFinalHypothesis.words.length + 1 + j <
                  GetNGramOrder (countingLM 3 id) then
                some (GetSentenceStartArray (countingLM 3 id))
              else exampleFinalHypothesis.words[exampleFinalHypothesis.words.length + 1 + j -
                GetNGramOrder (countingLM 3 id)]? :=
  ⟨by decide, by decide, by decide, by decide, by decide,
    Evaluate_sentence_end (countingLM 3 id) 0 exampleFinalHypothesis none (by decide)
      (by decide) (by decide) (by decide) (by decide)⟩

end Moses
